import Mathlib

/-!
# Timed messaging system: a shallow embedding of the character-device driver

The development embeds `timed_messaging_system.c` / `timed_messaging_system.h`.

* Every intrusive kernel list (`struct list_head`) is a Lean list whose first element is the
  node that follows the list head, i.e. the node most recently inserted by `list_add`; the last
  element is the node `head.prev`.
* Every object obtained from `kmalloc` gets its address from a counter (`driver.next_addr`), so
  that pointer comparisons (`message_to_read`, `container_of`, `file->private_data`) become
  comparisons of addresses. Addresses are not handed out twice: an address also names the
  allocation.
* `size_t` arithmetic is arithmetic modulo `2 ^ 64`, `long` is 64 bit, `int` is 32 bit. The
  counter `available_readings` is an `int`: its increments and decrements wrap around modulo
  `2 ^ 32` (`int_add`).
* Every driver entry point is executed atomically; a blocked `dev_read` is split into the part
  that runs until the thread sleeps and the part that runs after each return of
  `wait_event_timeout`. The expiry of the timer of a delayed work is a step of its own that
  runs `enqueue_message`.
* A result `none` stands for an execution whose behaviour the C code leaves undefined
  (a dangling `private_data`, a list cursor that designates no message, a `strlen` scan that
  leaves the modelled memory).
* The development has three parts: the embedding, the invariant `driver_inv` of the reachable
  states with the relation `step_rel` between consecutive states, and the properties of the
  operations stated on reachable states.
-/

namespace TimedMessaging

/-! ## Constants of the header -/

abbrev MAX_MINOR_NUMBER : Nat := 8

def DEFAULT_MAX_MESSAGE_SIZE : Int := 64

def DEFAULT_MAX_STORAGE_SIZE : Int := 1280

def DEFAULT_SEND_TIMEOUT : Int := 0

def DEFAULT_RECV_TIMEOUT : Int := 0

/-- Command `_IO('a', 0)`: with the generic ioctl encoding this is `('a' <<< 8) ||| 0`. -/
def SET_SEND_TIMEOUT : Nat := 24832

/-- Command `_IO('a', 1)`. -/
def SET_RECV_TIMEOUT : Nat := 24833

/-- Command `_IO('a', 2)`. -/
def REVOKE_DELAYED_MESSAGES : Nat := 24834

/-! ## Machine integers -/

/-- Conversion of an `int` to `size_t` (the usual arithmetic conversion applied when an `int`
is compared with a `size_t`). -/
def size_t_of_int (i : Int) : Nat := (i % 18446744073709551616).toNat

/-- Addition of two `size_t` values. -/
def size_add (a b : Nat) : Nat := (a + b) % 18446744073709551616

/-- Subtraction of two `size_t` values; it wraps around when `a < b`. -/
def size_sub (a b : Nat) : Nat :=
  (a + (18446744073709551616 - b % 18446744073709551616)) % 18446744073709551616

/-- The cast `(long)param` of an `unsigned long`. -/
def long_of_ulong (u : Nat) : Int :=
  if u % 18446744073709551616 < 9223372036854775808 then
    ((u % 18446744073709551616 : Nat) : Int)
  else ((u % 18446744073709551616 : Nat) : Int) - 18446744073709551616

/-- The implicit conversion of a `long` to an `int` (as in `int send_timeout = ...`). -/
def int_of_long (l : Int) : Int := (l + 2147483648) % 4294967296 - 2147483648

/-- Addition on `int` (`available_readings += 1`, `available_readings -= 1`). Kernel code is
compiled with `-fno-strict-overflow`: a sum that leaves the range of `int` wraps around
modulo `2 ^ 32`. -/
def int_add (a b : Int) : Int := int_of_long (a + b)

/-! ## Data structures of the header -/

/-- The `struct message`: `addr` is the address of the struct (its `list` node), `text` the
`size` bytes allocated for the payload. -/
structure message where
  addr : Nat
  is_delayed : Bool
  size : Nat
  text : List Nat
deriving DecidableEq, Repr

/-- The `struct pending_write`. The embedded `message` carries the address of the enclosing
struct, which is what `container_of` recovers. `delayed_work_pending` is the state of the
`delayed_work`: `true` from `queue_delayed_work` until the work runs or is cancelled, that is
exactly while `cancel_delayed_work` would return `true`. -/
structure pending_write where
  delayed_work_pending : Bool
  message : message
  minor_number : Fin MAX_MINOR_NUMBER
deriving DecidableEq, Repr

/-- The `struct pending_read`. -/
structure pending_read where
  addr : Nat
  is_flushed : Bool
deriving DecidableEq, Repr

/-- The `struct session`; its workqueue exists exactly as long as the session is linked in the
registry of its minor (it is destroyed by `dev_release`). -/
structure session where
  addr : Nat
  pending_writes : List pending_write
  send_timeout : Int
  recv_timeout : Int
deriving DecidableEq, Repr

/-- Values of the cursor `struct list_head *message_to_read`: `NULL`, the list head
`&minors[i].messages` itself, or the node of a message. -/
inductive list_head_ptr
  | NULL
  | head
  | node (addr : Nat)
deriving DecidableEq, Repr

/-- The `struct minor`. The field `available_readings` holds the value of an `int`: it starts
at 0 and is only changed by `int_add`, which wraps around. The field `leaked` is ghost state:
the pending writes targeting this minor whose session has been freed by `dev_release`;
nothing frees or cancels them there, so they stay allocated, and their timers stay armed. -/
structure minor where
  messages : List message
  sessions : List session
  message_to_read : list_head_ptr
  pending_readings : List pending_read
  storage_size : Nat
  available_readings : Int
  leaked : List pending_write
deriving DecidableEq, Repr

/-- The globals of the module: the two module parameters, the array `minors` and the
allocation counter. -/
structure driver where
  max_message_size : Int
  max_storage_size : Int
  minors : Fin MAX_MINOR_NUMBER → minor
  next_addr : Nat

/-- The part of a `struct file` the driver uses: the minor of its inode and `private_data`,
the address of the session stored there by `dev_open`. -/
structure file where
  minor_number : Fin MAX_MINOR_NUMBER
  private_data : Nat
deriving DecidableEq, Repr

/-- The lines written by `printk` that tell the exits of `dev_write` and `dev_read` apart. -/
inductive audit
  | write_too_long
  | write_no_space
  | write_done
  | write_deferred
  | read_no_messages
  | read_timeout_expired
  | read_flushed
  | read_done
deriving DecidableEq, Repr

/-- What a call of `dev_write` gives back: the returned value and the audit line. -/
structure write_result where
  ret : Int
  log : audit
deriving DecidableEq, Repr

/-- What a call of `dev_read` does: it returns (`ret`, the bytes stored in the caller's buffer,
the audit line and, as ghost information, the message that was detached), or the thread goes
to sleep on the wait queue holding its `pending_read` and the timeout for that wait. -/
inductive read_outcome
  | returned (ret : Int) (data : List Nat) (log : audit) (detached : Option message)
  | sleeping (pending_read : Nat) (recv_timeout : Int)
deriving DecidableEq, Repr

/-! ## Kernel primitives -/

/-- The bytes `copy_from_user(text, buff, len)` leaves in `text`: `buff` is the readable user
memory at the source pointer; bytes that cannot be read are replaced by zero. -/
def copy_from_user_text (buff : List Nat) (len : Nat) : List Nat :=
  buff.take len ++ List.replicate (len - min len buff.length) 0

/-- The value returned by `copy_from_user`: the number of bytes that could not be copied. -/
def copy_from_user (buff : List Nat) (len : Nat) : Nat := len - min len buff.length

/-- The function `strlen` on the memory `mem`: the index of the first zero byte; `none` when
the scan reaches the end of the modelled memory. -/
def strlen : List Nat → Option Nat
  | [] => none
  | c :: cs => if c = 0 then some 0 else (strlen cs).map (fun n => n + 1)

/-- The function `cancel_delayed_work`: it succeeds exactly on a work that is still pending. -/
def cancel_delayed_work (pw : pending_write) : Bool := pw.delayed_work_pending

/-- The pointer `messages.prev`: the last node of the list, the head itself when empty. -/
def list_tail_ptr (l : List message) : list_head_ptr :=
  match l.getLast? with
  | none => list_head_ptr.head
  | some m => list_head_ptr.node m.addr

/-- The pointer `list.prev` of the node at address `a`: the node before it in the list, the
head when it is the first one (`before` is the predecessor of the current suffix). -/
def list_prev : List message → Nat → list_head_ptr → list_head_ptr
  | [], _, before => before
  | m :: ms, a, before =>
    if m.addr = a then before else list_prev ms a (list_head_ptr.node m.addr)

/-- Removal `list_del` of the message node at address `a`. -/
def list_del_message (l : List message) (a : Nat) : List message :=
  l.filter (fun x => x.addr != a)

/-- Removal `list_del` of the pending write at address `a` from a pending-write list. -/
def list_del_pending_write (l : List pending_write) (a : Nat) : List pending_write :=
  l.filter (fun x => x.message.addr != a)

/-- Removal `list_del` of the pending read at address `a`. -/
def list_del_pending_read (l : List pending_read) (a : Nat) : List pending_read :=
  l.filter (fun x => x.addr != a)

/-! ## The driver -/

/-- The state of a minor set up by `install_driver` (statics are zero). -/
def empty_minor : minor :=
  { messages := [], sessions := [], message_to_read := list_head_ptr.NULL,
    pending_readings := [], storage_size := 0, available_readings := 0, leaked := [] }

/-- The function `install_driver`, for given values of the two module parameters. -/
def install_driver (max_message_size max_storage_size : Int) : driver :=
  { max_message_size := max_message_size, max_storage_size := max_storage_size,
    minors := fun _ => empty_minor, next_addr := 1 }

/-- The session `file->private_data` points to, when it is linked in the registry. -/
def current_session (st : driver) (f : file) : Option session :=
  (st.minors f.minor_number).sessions.find? (fun s => s.addr == f.private_data)

/-- Replace the minor `i` of the array. -/
def set_minor (st : driver) (i : Fin MAX_MINOR_NUMBER) (m : minor) : driver :=
  { st with minors := Function.update st.minors i m }

/-- Apply `g` to the session at address `a` of a registry. -/
def update_session (l : List session) (a : Nat) (g : session → session) : List session :=
  l.map (fun s => if s.addr = a then g s else s)

/-- The function `dev_open`: returns 0 and the file with `private_data` set. -/
def dev_open (st : driver) (minor_number : Fin MAX_MINOR_NUMBER) : (Int × file) × driver :=
  let new_session : session :=
    { addr := st.next_addr, pending_writes := [],
      send_timeout := DEFAULT_SEND_TIMEOUT, recv_timeout := DEFAULT_RECV_TIMEOUT }
  let m := st.minors minor_number
  ((0, { minor_number := minor_number, private_data := new_session.addr }),
   { set_minor st minor_number { m with sessions := new_session :: m.sessions } with
     next_addr := st.next_addr + 1 })

/-- The function `dev_release`: the session is unlinked from the registry, its workqueue is
flushed and destroyed and the session is freed. `flush_workqueue` only waits for works that
are already running, which in an atomic execution is none; delayed works whose timer has not
expired are not touched. The pending writes of the session are neither cancelled nor freed:
they become `leaked`, still allocated and with their timers armed. -/
def dev_release (st : driver) (f : file) : Option (Int × driver) :=
  match current_session st f with
  | none => none
  | some s =>
    let m := st.minors f.minor_number
    some (0, set_minor st f.minor_number
      { m with sessions := m.sessions.filter (fun x => x.addr != f.private_data),
               leaked := s.pending_writes ++ m.leaked })

/-- The critical section shared by `enqueue_message` and the immediate branch of `dev_write`:
`list_add` after the head, one more available reading (and a `wake_up`). -/
def post_message (m : minor) (msg : message) : minor :=
  { m with messages := msg :: m.messages,
           available_readings := int_add m.available_readings 1 }

/-- The work state after the work function has been run: no longer pending. -/
def work_done (a : Nat) (pw : pending_write) : pending_write :=
  if pw.message.addr = a then { pw with delayed_work_pending := false } else pw

/-- The function `enqueue_message`, run for the pending write `pw` when its timer expires: the
embedded message is linked into the list of the target minor. The work of the pending write
at that address is no longer pending afterwards, wherever the pending write is kept. -/
def enqueue_message (st : driver) (pw : pending_write) : driver :=
  let m := st.minors pw.minor_number
  let sessions := m.sessions.map (fun s =>
    { s with pending_writes := s.pending_writes.map (work_done pw.message.addr) })
  let leaked := m.leaked.map (work_done pw.message.addr)
  set_minor st pw.minor_number
    (post_message { m with sessions := sessions, leaked := leaked } pw.message)

/-- The function `dev_write`; `buff` is the readable user memory at the source pointer. -/
def dev_write (st : driver) (f : file) (buff : List Nat) (len : Nat) :
    Option (write_result × driver) :=
  if len > size_t_of_int st.max_message_size then
    some ({ ret := -1, log := audit.write_too_long }, st)
  else
    let m := st.minors f.minor_number
    if size_add m.storage_size len > size_t_of_int st.max_storage_size then
      some ({ ret := -1, log := audit.write_no_space }, st)
    else
      let m1 := { m with storage_size := size_add m.storage_size len }
      let new_message : message :=
        { addr := st.next_addr, is_delayed := false, size := len,
          text := copy_from_user_text buff len }
      let unwritten_chars : Int := copy_from_user buff len
      match current_session st f with
      | none => none
      | some s =>
        let send_timeout := int_of_long s.send_timeout
        if send_timeout = 0 then
          some ({ ret := (len : Int) - unwritten_chars, log := audit.write_done },
                { set_minor st f.minor_number (post_message m1 new_message) with
                  next_addr := st.next_addr + 1 })
        else
          let pw : pending_write :=
            { delayed_work_pending := true,
              message := { new_message with is_delayed := true, addr := st.next_addr + 1 },
              minor_number := f.minor_number }
          let sessions := update_session m1.sessions f.private_data
            (fun x => { x with pending_writes := pw :: x.pending_writes })
          some ({ ret := 0, log := audit.write_deferred },
                { set_minor st f.minor_number { m1 with sessions := sessions } with
                  next_addr := st.next_addr + 2 })

/-- The tail of `dev_read` from `available_readings -= 1` on, executed with the lock of the
minor held. `pending_read` is the local pointer (`none` for `NULL`), `len` the requested
length, `writable` the number of bytes of the caller's buffer that can be written and `slack`
the kernel memory that follows the text of the message read. -/
def read_message (m : minor) (pending_read : Option Nat) (len writable : Nat)
    (slack : List Nat) : Option (read_outcome × minor) :=
  let pending_readings :=
    match pending_read with
    | none => m.pending_readings
    | some p => list_del_pending_read m.pending_readings p
  let cursor :=
    match m.message_to_read with
    | list_head_ptr.NULL => list_tail_ptr m.messages
    | c => c
  match cursor with
  | list_head_ptr.NULL => none
  | list_head_ptr.head => none
  | list_head_ptr.node a =>
    match m.messages.find? (fun x => x.addr == a) with
    | none => none
    | some message_to_read =>
      match (if message_to_read.size < len then strlen (message_to_read.text ++ slack)
             else some len) with
      | none => none
      | some len1 =>
        let copied := min len1 writable
        let unread_chars : Int := ((len1 - copied : Nat) : Int)
        let messages := list_del_message m.messages a
        let sessions :=
          if message_to_read.is_delayed then
            m.sessions.map (fun s =>
              { s with pending_writes := list_del_pending_write s.pending_writes a })
          else m.sessions
        let leaked :=
          if message_to_read.is_delayed then list_del_pending_write m.leaked a else m.leaked
        some (read_outcome.returned ((len1 : Int) - unread_chars)
                ((message_to_read.text ++ slack).take copied) audit.read_done
                (some message_to_read),
              { messages := messages,
                sessions := sessions,
                message_to_read :=
                  if messages.isEmpty then list_head_ptr.NULL
                  else list_prev m.messages a list_head_ptr.head,
                pending_readings := pending_readings,
                storage_size := size_sub m.storage_size message_to_read.size,
                available_readings := int_add m.available_readings (-1),
                leaked := leaked })

/-- The function `dev_read` up to its return or up to the first sleep of the thread. -/
def dev_read (st : driver) (f : file) (len writable : Nat) (slack : List Nat) :
    Option (read_outcome × driver) :=
  match current_session st f with
  | none => none
  | some s =>
    let recv_timeout := s.recv_timeout
    let m := st.minors f.minor_number
    if m.available_readings = 0 then
      if recv_timeout = 0 then
        some (read_outcome.returned (-1) [] audit.read_no_messages none, st)
      else
        let pending_read : pending_read := { addr := st.next_addr, is_flushed := false }
        some (read_outcome.sleeping pending_read.addr recv_timeout,
              { set_minor st f.minor_number
                  { m with pending_readings := pending_read :: m.pending_readings } with
                next_addr := st.next_addr + 1 })
    else
      match read_message m none len writable slack with
      | none => none
      | some (r, m1) => some (r, set_minor st f.minor_number m1)

/-- One iteration of the loop of a blocked `dev_read`, from the return of
`wait_event_timeout` with value `wait_outcome` to the next sleep or to the return of the
call. `pending_read` and `recv_timeout` are the locals of the sleeping thread. -/
def dev_read_wake (st : driver) (f : file) (pending_read : Nat) (recv_timeout : Int)
    (wait_outcome : Int) (len writable : Nat) (slack : List Nat) :
    Option (read_outcome × driver) :=
  let m := st.minors f.minor_number
  match m.pending_readings.find? (fun r => r.addr == pending_read) with
  | none => none
  | some r =>
    if wait_outcome = 0 then
      some (read_outcome.returned (-1) [] audit.read_timeout_expired none,
            set_minor st f.minor_number
              { m with pending_readings := list_del_pending_read m.pending_readings pending_read })
    else if r.is_flushed then
      some (read_outcome.returned (-1) [] audit.read_flushed none,
            set_minor st f.minor_number
              { m with pending_readings := list_del_pending_read m.pending_readings pending_read })
    else if m.available_readings = 0 then
      some (read_outcome.sleeping pending_read (recv_timeout - wait_outcome), st)
    else
      match read_message m (some pending_read) len writable slack with
      | none => none
      | some (r1, m1) => some (r1, set_minor st f.minor_number m1)

/-- The loop `list_for_each_safe` over a pending-write list shared by `dev_ioctl` and
`dev_flush`: every write whose work can be cancelled is unlinked and freed, its size is added
to `storage_freed`. Returns the remaining list and the new value of `storage_freed`. -/
def cancel_pending_writes : List pending_write → Nat → List pending_write × Nat
  | [], storage_freed => ([], storage_freed)
  | pw :: rest, storage_freed =>
    if cancel_delayed_work pw then
      cancel_pending_writes rest (size_add storage_freed pw.message.size)
    else
      let r := cancel_pending_writes rest storage_freed
      (pw :: r.1, r.2)

/-- The function `dev_ioctl`. -/
def dev_ioctl (st : driver) (f : file) (command : Nat) (param : Nat) : Option (Int × driver) :=
  match current_session st f with
  | none => none
  | some s =>
    let m := st.minors f.minor_number
    if command = SET_SEND_TIMEOUT then
      let sessions := update_session m.sessions f.private_data
        (fun x => { x with send_timeout := long_of_ulong param })
      some (0, set_minor st f.minor_number { m with sessions := sessions })
    else if command = SET_RECV_TIMEOUT then
      let sessions := update_session m.sessions f.private_data
        (fun x => { x with recv_timeout := long_of_ulong param })
      some (0, set_minor st f.minor_number { m with sessions := sessions })
    else if command = REVOKE_DELAYED_MESSAGES then
      let r := cancel_pending_writes s.pending_writes 0
      let sessions := update_session m.sessions f.private_data
        (fun x => { x with pending_writes := r.1 })
      some (0, set_minor st f.minor_number
        { m with sessions := sessions, storage_size := size_sub m.storage_size r.2 })
    else some (0, st)

/-- The outer loop of `dev_flush` over the sessions of the minor. -/
def flush_sessions : List session → Nat → List session × Nat
  | [], storage_freed => ([], storage_freed)
  | s :: rest, storage_freed =>
    let r := cancel_pending_writes s.pending_writes storage_freed
    let q := flush_sessions rest r.2
    ({ s with pending_writes := r.1 } :: q.1, q.2)

/-- The function `dev_flush`. -/
def dev_flush (st : driver) (f : file) : Int × driver :=
  let m := st.minors f.minor_number
  let r := flush_sessions m.sessions 0
  (0, set_minor st f.minor_number
    { m with sessions := r.1,
             storage_size := size_sub m.storage_size r.2,
             pending_readings := m.pending_readings.map (fun p => { p with is_flushed := true }) })

/-! ## Executions -/

/-- The calls a trace is made of: the six file operations, the resumption of a blocked read
after `wait_event_timeout` has returned, and the expiry of the timer of a pending write. -/
inductive op
  | do_open (minor_number : Fin MAX_MINOR_NUMBER)
  | do_release (f : file)
  | do_write (f : file) (buff : List Nat) (len : Nat)
  | do_read (f : file) (len writable : Nat) (slack : List Nat)
  | do_wake (f : file) (pending_read : Nat) (recv_timeout wait_outcome : Int)
      (len writable : Nat) (slack : List Nat)
  | do_ioctl (f : file) (command param : Nat)
  | do_flush (f : file)
  | do_timer (pw : pending_write)

/-- What a step makes visible on the message list of a minor. -/
inductive trace_event
  | posted (i : Fin MAX_MINOR_NUMBER) (m : message)
  | detached (i : Fin MAX_MINOR_NUMBER) (m : message)
  | quiet
deriving DecidableEq, Repr

/-- The timer of `pw` is armed: the pending write is allocated, in the pending writes of a
registered session or among those left behind by `dev_release`, and its work is pending.
`queue_delayed_work` arms the timer and only `cancel_delayed_work` (in `dev_ioctl` and
`dev_flush`) disarms it; `dev_release` does not, so closing the session leaves it armed. -/
def timer_armed (st : driver) (pw : pending_write) : Bool :=
  pw.delayed_work_pending &&
    (List.finRange MAX_MINOR_NUMBER).any (fun i =>
      (st.minors i).sessions.any (fun s => s.pending_writes.contains pw) ||
        (st.minors i).leaked.contains pw)

/-- The event of a read outcome on minor `i`. -/
def read_event (i : Fin MAX_MINOR_NUMBER) : read_outcome → trace_event
  | read_outcome.returned _ _ _ (some m) => trace_event.detached i m
  | _ => trace_event.quiet

/-- One step of an execution: the new state and the event, `none` when the call is undefined
or, for a timer, when no such timer is armed. The expiry of an armed timer runs the work
function `enqueue_message`; this includes the timers that `dev_release` has left armed.
(Their expiry reaches a workqueue that has been destroyed, and the source does not settle
whether the work function still runs: an execution in which it runs has the timer step, one
in which it does not has no step for it, so both are executions of the model.) -/
def exec (st : driver) : op → Option (driver × trace_event)
  | op.do_open i => some ((dev_open st i).2, trace_event.quiet)
  | op.do_release f => (dev_release st f).map (fun r => (r.2, trace_event.quiet))
  | op.do_write f buff len =>
    (dev_write st f buff len).map (fun r =>
      (r.2, if r.1.log = audit.write_done then
              trace_event.posted f.minor_number
                { addr := st.next_addr, is_delayed := false, size := len,
                  text := copy_from_user_text buff len }
            else trace_event.quiet))
  | op.do_read f len writable slack =>
    (dev_read st f len writable slack).map (fun r => (r.2, read_event f.minor_number r.1))
  | op.do_wake f pending_read recv_timeout wait_outcome len writable slack =>
    (dev_read_wake st f pending_read recv_timeout wait_outcome len writable slack).map
      (fun r => (r.2, read_event f.minor_number r.1))
  | op.do_ioctl f command param =>
    (dev_ioctl st f command param).map (fun r => (r.2, trace_event.quiet))
  | op.do_flush f => some ((dev_flush st f).2, trace_event.quiet)
  | op.do_timer pw =>
    if timer_armed st pw then
      some (enqueue_message st pw, trace_event.posted pw.minor_number pw.message)
    else none

/-- Run a sequence of calls, collecting the events in order. -/
def run (st : driver) : List op → Option (driver × List trace_event)
  | [] => some (st, [])
  | o :: rest =>
    match exec st o with
    | none => none
    | some (st1, e) =>
      match run st1 rest with
      | none => none
      | some (st2, es) => some (st2, e :: es)

/-- The messages posted on minor `i` during a trace, in order. -/
def posted_on (i : Fin MAX_MINOR_NUMBER) : List trace_event → List message
  | [] => []
  | trace_event.posted j m :: es => if j = i then m :: posted_on i es else posted_on i es
  | _ :: es => posted_on i es

/-- The messages detached from minor `i` by reads during a trace, in order. -/
def detached_on (i : Fin MAX_MINOR_NUMBER) : List trace_event → List message
  | [] => []
  | trace_event.detached j m :: es => if j = i then m :: detached_on i es else detached_on i es
  | _ :: es => detached_on i es

/-! ## Quantities and invariants -/

/-- All pending writes linked in the sessions of a registry. -/
def session_posts : List session → List pending_write
  | [] => []
  | s :: rest => s.pending_writes ++ session_posts rest

/-- The pending writes targeting a minor that are still allocated: those linked in a
registered session and the leaked ones. -/
def posts (m : minor) : List pending_write := session_posts m.sessions ++ m.leaked

/-- Sum of the sizes of the messages of a list. -/
def messages_bytes (l : List message) : Nat := (l.map (fun x => x.size)).sum

/-- Sum of the payload sizes of the pending writes of a list that are still scheduled, that
is neither published (their work has not run) nor cancelled (they are still allocated). -/
def scheduled_bytes (l : List pending_write) : Nat :=
  (l.map (fun p => if p.delayed_work_pending then p.message.size else 0)).sum

/-- The invariant of the minor `i`, for the storage limit `cap` (as a `size_t`) and the
allocation counter `brk`. -/
structure minor_inv (cap brk : Nat) (i : Fin MAX_MINOR_NUMBER) (m : minor) : Prop where
  avail : m.available_readings = int_of_long (m.messages.length : Int)
  cursor : m.message_to_read = list_head_ptr.NULL ∨
    (m.messages ≠ [] ∧ m.message_to_read = list_tail_ptr m.messages)
  storage : m.storage_size = messages_bytes m.messages + scheduled_bytes (posts m)
  bound : m.storage_size ≤ cap
  msg_lt : ∀ x ∈ m.messages, x.addr < brk
  post_lt : ∀ p ∈ posts m, p.message.addr < brk
  sess_lt : ∀ s ∈ m.sessions, s.addr < brk
  msg_nodup : (m.messages.map (fun x => x.addr)).Nodup
  post_nodup : ((posts m).map (fun p => p.message.addr)).Nodup
  sess_nodup : (m.sessions.map (fun s => s.addr)).Nodup
  apart : ∀ p ∈ posts m, p.delayed_work_pending = true →
    ∀ x ∈ m.messages, x.addr ≠ p.message.addr
  target : ∀ p ∈ posts m, p.minor_number = i
  msg_len : ∀ x ∈ m.messages, x.text.length = x.size
  post_len : ∀ p ∈ posts m, p.message.text.length = p.message.size

/-- The module parameters are non-negative values of type `int`. -/
def params_ok (st : driver) : Prop :=
  0 ≤ st.max_message_size ∧ st.max_message_size < 2147483648 ∧
  0 ≤ st.max_storage_size ∧ st.max_storage_size < 2147483648

/-- The invariant of the whole driver state. -/
def driver_inv (st : driver) : Prop :=
  params_ok st ∧ ∀ i, minor_inv (size_t_of_int st.max_storage_size) st.next_addr i (st.minors i)

/-- The pending writes a cancelling loop leaves linked: those whose work was not pending. -/
def uncancelled (l : List pending_write) : List pending_write :=
  l.filter (fun p => !cancel_delayed_work p)

/-- A session after a cancelling loop over its pending writes. -/
def strip_session (s : session) : session :=
  { s with pending_writes := uncancelled s.pending_writes }

/-- The minor left by `read_message` when it detaches `last` from `init ++ [last]`. -/
def minor_after_read (m : minor) (pending_read : Option Nat) (init : List message)
    (last : message) : minor :=
  { messages := init,
    sessions :=
      if last.is_delayed then
        m.sessions.map (fun s =>
          { s with pending_writes := list_del_pending_write s.pending_writes last.addr })
      else m.sessions,
    message_to_read := if init.isEmpty then list_head_ptr.NULL else list_tail_ptr init,
    pending_readings :=
      (match pending_read with
       | none => m.pending_readings
       | some p => list_del_pending_read m.pending_readings p),
    storage_size := size_sub m.storage_size last.size,
    available_readings := int_add m.available_readings (-1),
    leaked := if last.is_delayed then list_del_pending_write m.leaked last.addr else m.leaked }

/-- What a step does to the message lists, as told by its event. -/
def event_rel (st st1 : driver) : trace_event → Prop
  | trace_event.posted j m =>
    (st1.minors j).messages = m :: (st.minors j).messages ∧
      ∀ i, i ≠ j → (st1.minors i).messages = (st.minors i).messages
  | trace_event.detached j m =>
    (st.minors j).messages = (st1.minors j).messages ++ [m] ∧
      ∀ i, i ≠ j → (st1.minors i).messages = (st.minors i).messages
  | trace_event.quiet => ∀ i, (st1.minors i).messages = (st.minors i).messages

/-- The relation between the states before and after a step that the trace arguments use. -/
structure step_rel (st st1 : driver) (e : trace_event) : Prop where
  brk : st.next_addr ≤ st1.next_addr
  posts_from : ∀ i p, p ∈ posts (st1.minors i) → p.delayed_work_pending = true →
    p ∈ posts (st.minors i) ∨ st.next_addr ≤ p.message.addr
  msgs : event_rel st st1 e
  origin : ∀ j m, e = trace_event.posted j m → st.next_addr ≤ m.addr ∨
    ∃ p ∈ posts (st.minors j), p.delayed_work_pending = true ∧ p.message.addr = m.addr
  sess_from : ∀ i q, q ∈ session_posts (st1.minors i).sessions →
    (∃ q0 ∈ session_posts (st.minors i).sessions, q0.message.addr = q.message.addr) ∨
      st.next_addr ≤ q.message.addr

/-- Whether a call is a write through the session of the file `f`. -/
def writes_through (f : file) : op → Bool
  | op.do_write g _ _ => g.minor_number == f.minor_number && g.private_data == f.private_data
  | _ => false

/-- Whether a call is the expiry of the timer of a pending write. -/
def is_timer : op → Bool
  | op.do_timer _ => true
  | _ => false

/-- No pending write of the session at address `a` of the registry `l` has its work pending:
`cancel_delayed_work` fails on each of them. -/
def session_idle (l : List session) (a : Nat) : Prop :=
  ∀ s ∈ l, s.addr = a → ∀ p ∈ s.pending_writes, p.delayed_work_pending = false

/-! ## Arithmetic and list lemmas -/

theorem size_add_eq (a b : Nat) (h : a + b < 18446744073709551616) : size_add a b = a + b := by
  unfold size_add; exact Nat.mod_eq_of_lt h

theorem size_sub_eq (a b : Nat) (h : b ≤ a) (ha : a < 18446744073709551616) :
    size_sub a b = a - b := by
  unfold size_sub
  have hb : b % 18446744073709551616 = b := Nat.mod_eq_of_lt (by omega)
  rw [hb]
  omega

theorem int_of_long_eq (l : Int) (h0 : -2147483648 ≤ l) (h1 : l < 2147483648) :
    int_of_long l = l := by
  unfold int_of_long; omega

theorem int_of_long_add (a b : Int) : int_of_long (int_of_long a + b) = int_of_long (a + b) := by
  unfold int_of_long; omega

theorem int_add_post {a : Int} {n : Nat} (h : a = int_of_long (n : Int)) :
    int_add a 1 = int_of_long ((n + 1 : Nat) : Int) := by
  rw [h, int_add, int_of_long_add]
  congr 1

theorem int_add_read {a : Int} {n : Nat} (h : a = int_of_long ((n + 1 : Nat) : Int)) :
    int_add a (-1) = int_of_long (n : Int) := by
  rw [h, int_add, int_of_long_add]
  congr 1
  push_cast
  omega

theorem int_of_long_length_ne_zero {n : Nat} (h : int_of_long (n : Int) ≠ 0) : n ≠ 0 := by
  intro hn
  subst hn
  exact h (by decide)

theorem size_t_of_int_eq (i : Int) (h0 : 0 ≤ i) (h1 : i < 2147483648) :
    ((size_t_of_int i : Nat) : Int) = i := by
  unfold size_t_of_int
  omega

theorem messages_bytes_cons (x : message) (l : List message) :
    messages_bytes (x :: l) = x.size + messages_bytes l := by
  simp [messages_bytes]

theorem messages_bytes_append (l1 l2 : List message) :
    messages_bytes (l1 ++ l2) = messages_bytes l1 + messages_bytes l2 := by
  simp [messages_bytes]

theorem scheduled_bytes_nil : scheduled_bytes [] = 0 := rfl

theorem scheduled_bytes_cons (p : pending_write) (l : List pending_write) :
    scheduled_bytes (p :: l) =
      (if p.delayed_work_pending then p.message.size else 0) + scheduled_bytes l := by
  simp [scheduled_bytes]

theorem scheduled_bytes_append (l1 l2 : List pending_write) :
    scheduled_bytes (l1 ++ l2) = scheduled_bytes l1 + scheduled_bytes l2 := by
  simp [scheduled_bytes]

theorem scheduled_bytes_perm {l1 l2 : List pending_write} (h : l1.Perm l2) :
    scheduled_bytes l1 = scheduled_bytes l2 := by
  unfold scheduled_bytes
  exact (h.map _).sum_eq

theorem scheduled_bytes_uncancelled (l : List pending_write) :
    scheduled_bytes (uncancelled l) = 0 := by
  unfold uncancelled
  induction l with
  | nil => rfl
  | cons p l ih =>
    by_cases hp : p.delayed_work_pending = true
    · simp [List.filter, cancel_delayed_work, hp]
      simpa [cancel_delayed_work] using ih
    · simp [List.filter, cancel_delayed_work, hp, scheduled_bytes_cons]
      simpa [cancel_delayed_work] using ih

theorem cancel_pending_writes_eq (l : List pending_write) (acc : Nat)
    (hacc : acc < 18446744073709551616) :
    cancel_pending_writes l acc =
      (uncancelled l, (acc + scheduled_bytes l) % 18446744073709551616) := by
  unfold uncancelled
  induction l generalizing acc with
  | nil =>
    simp [cancel_pending_writes, scheduled_bytes_nil, Nat.mod_eq_of_lt hacc]
  | cons p l ih =>
    by_cases hp : p.delayed_work_pending = true
    · have h1 : size_add acc p.message.size < 18446744073709551616 := by
        unfold size_add; omega
      simp only [cancel_pending_writes, cancel_delayed_work, hp, if_true, ih _ h1,
        List.filter, scheduled_bytes_cons, Bool.not_true]
      simp only [size_add]
      congr 1
      omega
    · have hp2 : p.delayed_work_pending = false := by simpa using hp
      simp [cancel_pending_writes, cancel_delayed_work, hp2, ih _ hacc,
        List.filter, scheduled_bytes_cons]

theorem session_posts_cons (s : session) (l : List session) :
    session_posts (s :: l) = s.pending_writes ++ session_posts l := rfl

theorem session_posts_append (l1 l2 : List session) :
    session_posts (l1 ++ l2) = session_posts l1 ++ session_posts l2 := by
  induction l1 with
  | nil => rfl
  | cons s l ih => simp [session_posts, ih]

theorem flush_sessions_eq (l : List session) (acc : Nat) (hacc : acc < 18446744073709551616) :
    flush_sessions l acc =
      (l.map strip_session, (acc + scheduled_bytes (session_posts l)) % 18446744073709551616) := by
  induction l generalizing acc with
  | nil => simp [flush_sessions, session_posts, scheduled_bytes_nil, Nat.mod_eq_of_lt hacc]
  | cons s l ih =>
    have h1 : (acc + scheduled_bytes s.pending_writes) % 18446744073709551616
        < 18446744073709551616 := by omega
    simp only [flush_sessions, cancel_pending_writes_eq _ _ hacc, ih _ h1, List.map,
      session_posts, scheduled_bytes_append, strip_session]
    congr 1
    omega

theorem session_posts_map_filter (l : List session) (q : pending_write → Bool) :
    session_posts (l.map (fun s => { s with pending_writes := s.pending_writes.filter q })) =
      (session_posts l).filter q := by
  induction l with
  | nil => rfl
  | cons s l ih => simp [session_posts, ih]

theorem session_posts_map_map (l : List session) (g : pending_write → pending_write) :
    session_posts (l.map (fun s => { s with pending_writes := s.pending_writes.map g })) =
      (session_posts l).map g := by
  induction l with
  | nil => rfl
  | cons s l ih => simp [session_posts, ih]

theorem session_posts_strip (l : List session) :
    session_posts (l.map strip_session) = uncancelled (session_posts l) := by
  unfold uncancelled
  induction l with
  | nil => rfl
  | cons s l ih => simp [session_posts, ih, strip_session, uncancelled]

theorem uncancelled_sublist (l : List pending_write) : (uncancelled l).Sublist l :=
  List.filter_sublist _

/-! ## Sessions and invariant plumbing -/

theorem find_session_split (l : List session) (a : Nat) (s : session)
    (hf : l.find? (fun x => x.addr == a) = some s)
    (hn : (l.map (fun x => x.addr)).Nodup) :
    ∃ l1 l2, l = l1 ++ s :: l2 ∧ s.addr = a ∧ (∀ x ∈ l1, x.addr ≠ a) ∧
      (∀ x ∈ l2, x.addr ≠ a) := by
  induction l with
  | nil => simp at hf
  | cons y l ih =>
    rw [List.map_cons, List.nodup_cons] at hn
    by_cases hy : y.addr = a
    · have hb : (y.addr == a) = true := by simpa using hy
      rw [List.find?_cons, hb] at hf
      have : y = s := by simpa using hf
      subst this
      refine ⟨[], l, rfl, hy, by simp, ?_⟩
      intro x hx hxa
      exact hn.1 (List.mem_map.mpr ⟨x, hx, by rw [hxa, hy]⟩)
    · have hb : (y.addr == a) = false := by simpa using hy
      rw [List.find?_cons, hb] at hf
      have hf2 : l.find? (fun x => x.addr == a) = some s := hf
      obtain ⟨l1, l2, h1, h2, h3, h4⟩ := ih hf2 hn.2
      refine ⟨y :: l1, l2, by rw [h1]; rfl, h2, ?_, h4⟩
      intro x hx
      rcases List.mem_cons.mp hx with rfl | hx
      · exact hy
      · exact h3 x hx

theorem update_session_none (l : List session) (a : Nat) (g : session → session)
    (h : ∀ x ∈ l, x.addr ≠ a) : update_session l a g = l := by
  induction l with
  | nil => rfl
  | cons y l ih =>
    have hy : y.addr ≠ a := h y (List.mem_cons_self _ _)
    have := ih (fun x hx => h x (List.mem_cons_of_mem _ hx))
    simp only [update_session, List.map_cons, hy, if_false] at this ⊢
    rw [this]

theorem update_session_split (l1 l2 : List session) (s : session) (a : Nat)
    (g : session → session) (hs : s.addr = a) (h1 : ∀ x ∈ l1, x.addr ≠ a)
    (h2 : ∀ x ∈ l2, x.addr ≠ a) :
    update_session (l1 ++ s :: l2) a g = l1 ++ g s :: l2 := by
  have e1 := update_session_none l1 a g h1
  have e2 := update_session_none l2 a g h2
  simp only [update_session, List.map_append, List.map_cons, hs, if_true] at e1 e2 ⊢
  rw [e1, e2]

theorem filter_session_split (l1 l2 : List session) (s : session) (a : Nat)
    (hs : s.addr = a) (h1 : ∀ x ∈ l1, x.addr ≠ a) (h2 : ∀ x ∈ l2, x.addr ≠ a) :
    (l1 ++ s :: l2).filter (fun x => x.addr != a) = l1 ++ l2 := by
  have e1 : l1.filter (fun x => x.addr != a) = l1 :=
    List.filter_eq_self.mpr (fun x hx => by simpa using h1 x hx)
  have e2 : l2.filter (fun x => x.addr != a) = l2 :=
    List.filter_eq_self.mpr (fun x hx => by simpa using h2 x hx)
  simp [List.filter_append, List.filter_cons, hs, e1, e2]

theorem minor_inv_mono {cap b b2 : Nat} {i : Fin MAX_MINOR_NUMBER} {m : minor}
    (h : minor_inv cap b i m) (hb : b ≤ b2) : minor_inv cap b2 i m :=
  { h with
    msg_lt := fun x hx => lt_of_lt_of_le (h.msg_lt x hx) hb
    post_lt := fun p hp => lt_of_lt_of_le (h.post_lt p hp) hb
    sess_lt := fun s hs => lt_of_lt_of_le (h.sess_lt s hs) hb }

theorem empty_minor_inv (cap brk : Nat) (i : Fin MAX_MINOR_NUMBER) :
    minor_inv cap brk i empty_minor := by
  constructor <;>
    simp [empty_minor, posts, session_posts, messages_bytes, scheduled_bytes, int_of_long]

theorem driver_inv_update {st st2 : driver} {i : Fin MAX_MINOR_NUMBER} {m2 : minor}
    (h : driver_inv st) (h1 : st2.max_message_size = st.max_message_size)
    (h2 : st2.max_storage_size = st.max_storage_size)
    (h3 : st2.minors = Function.update st.minors i m2)
    (h4 : st.next_addr ≤ st2.next_addr)
    (hm : minor_inv (size_t_of_int st.max_storage_size) st2.next_addr i m2) :
    driver_inv st2 := by
  refine ⟨?_, ?_⟩
  · unfold params_ok; rw [h1, h2]; exact h.1
  · intro j
    rw [h2, h3]
    by_cases hj : j = i
    · subst hj; simpa using hm
    · rw [Function.update_noteq hj]
      exact minor_inv_mono (h.2 j) h4

/-! ## Message list cursor -/

theorem minor_inv_shrink {cap brk : Nat} {i : Fin MAX_MINOR_NUMBER} {m m2 : minor}
    (h : minor_inv cap brk i m)
    (hmsg : m2.messages.Sublist m.messages)
    (hpsub : ∀ p ∈ posts m2, p ∈ posts m)
    (hpnd : ((posts m2).map (fun p => p.message.addr)).Nodup)
    (hssub : ∀ s ∈ m2.sessions, ∃ s0 ∈ m.sessions, s0.addr = s.addr)
    (hsnd : (m2.sessions.map (fun s => s.addr)).Nodup)
    (havail : m2.available_readings = int_of_long (m2.messages.length : Int))
    (hcursor : m2.message_to_read = list_head_ptr.NULL ∨
      (m2.messages ≠ [] ∧ m2.message_to_read = list_tail_ptr m2.messages))
    (hstorage : m2.storage_size = messages_bytes m2.messages + scheduled_bytes (posts m2))
    (hbound : m2.storage_size ≤ m.storage_size) :
    minor_inv cap brk i m2 where
  avail := havail
  cursor := hcursor
  storage := hstorage
  bound := le_trans hbound h.bound
  msg_lt := fun x hx => h.msg_lt x (hmsg.subset hx)
  post_lt := fun p hp => h.post_lt p (hpsub p hp)
  sess_lt := fun s hs => by
    obtain ⟨s0, hs0, he⟩ := hssub s hs
    rw [← he]; exact h.sess_lt s0 hs0
  msg_nodup := h.msg_nodup.sublist (hmsg.map _)
  post_nodup := hpnd
  sess_nodup := hsnd
  apart := fun p hp hpp x hx => h.apart p (hpsub p hp) hpp x (hmsg.subset hx)
  target := fun p hp => h.target p (hpsub p hp)
  msg_len := fun x hx => h.msg_len x (hmsg.subset hx)
  post_len := fun p hp => h.post_len p (hpsub p hp)

theorem list_tail_ptr_concat (l : List message) (x : message) :
    list_tail_ptr (l ++ [x]) = list_head_ptr.node x.addr := by
  simp [list_tail_ptr]

theorem list_tail_ptr_cons (y : message) (l : List message) (hl : l ≠ []) :
    list_tail_ptr (y :: l) = list_tail_ptr l := by
  cases l with
  | nil => exact absurd rfl hl
  | cons z t => simp [list_tail_ptr, List.getLast?_cons_cons]

theorem find_last_message (l : List message) (x : message)
    (h : ∀ y ∈ l, y.addr ≠ x.addr) :
    (l ++ [x]).find? (fun y => y.addr == x.addr) = some x := by
  induction l with
  | nil => simp
  | cons y l ih =>
    have hy : (y.addr == x.addr) = false := by
      simpa using h y (List.mem_cons_self _ _)
    rw [List.cons_append, List.find?_cons, hy]
    exact ih (fun z hz => h z (List.mem_cons_of_mem _ hz))

theorem list_del_message_concat (l : List message) (x : message)
    (h : ∀ y ∈ l, y.addr ≠ x.addr) : list_del_message (l ++ [x]) x.addr = l := by
  unfold list_del_message
  rw [List.filter_append]
  have e1 : l.filter (fun y => y.addr != x.addr) = l :=
    List.filter_eq_self.mpr (fun y hy => by simpa using h y hy)
  rw [e1]; simp

theorem list_prev_concat (l : List message) (x : message) (before : list_head_ptr)
    (h : ∀ y ∈ l, y.addr ≠ x.addr) :
    list_prev (l ++ [x]) x.addr before =
      (match l.getLast? with
       | none => before
       | some z => list_head_ptr.node z.addr) := by
  induction l generalizing before with
  | nil => simp [list_prev]
  | cons y l ih =>
    have hy : y.addr ≠ x.addr := h y (List.mem_cons_self _ _)
    rw [List.cons_append, list_prev, if_neg hy,
      ih _ (fun z hz => h z (List.mem_cons_of_mem _ hz))]
    cases l with
    | nil => simp
    | cons z t =>
      rw [List.getLast?_cons_cons]
      have hne : (z :: t).getLast? = some ((z :: t).getLast (by simp)) :=
        List.getLast?_eq_getLast _ _
      rw [hne]

theorem nodup_concat_addr {l : List message} {x : message}
    (h : ((l ++ [x]).map (fun y => y.addr)).Nodup) : ∀ y ∈ l, y.addr ≠ x.addr := by
  intro y hy he
  rw [List.map_append, List.nodup_append] at h
  exact h.2.2 (List.mem_map.mpr ⟨y, hy, rfl⟩) (by simp [he])

/-! ## The read step -/

theorem read_message_eq (m : minor) (pending_read : Option Nat) (len writable : Nat)
    (slack : List Nat) (init : List message) (last : message)
    (hm : m.messages = init ++ [last]) (hnd : ∀ y ∈ init, y.addr ≠ last.addr)
    (hc : m.message_to_read = list_head_ptr.NULL ∨
      m.message_to_read = list_head_ptr.node last.addr) :
    read_message m pending_read len writable slack =
      (if last.size < len then strlen (last.text ++ slack) else some len).map
        (fun (len1 : Nat) =>
          (read_outcome.returned ((len1 : Int) - ((len1 - min len1 writable : Nat) : Int))
            ((last.text ++ slack).take (min len1 writable)) audit.read_done (some last),
           minor_after_read m pending_read init last)) := by
  have hprev : (if init.isEmpty then list_head_ptr.NULL
      else (match init.getLast? with
        | none => list_head_ptr.head
        | some z => list_head_ptr.node z.addr)) =
      (if init.isEmpty then list_head_ptr.NULL else list_tail_ptr init) := rfl
  unfold read_message
  rcases hc with hc | hc
  · rw [hc, hm]
    simp only [list_tail_ptr_concat, find_last_message init last hnd,
      list_del_message_concat init last hnd, list_prev_concat init last _ hnd, hprev]
    cases hlen : (if last.size < len then strlen (last.text ++ slack) else some len)
    · simp
    · simp only [Option.map_some', minor_after_read, hprev]
  · rw [hc, hm]
    simp only [find_last_message init last hnd,
      list_del_message_concat init last hnd, list_prev_concat init last _ hnd, hprev]
    cases hlen : (if last.size < len then strlen (last.text ++ slack) else some len)
    · simp
    · simp only [Option.map_some', minor_after_read, hprev]

/-! ## Invariant preservation: read -/

theorem scheduled_bytes_list_del (l : List pending_write) (a : Nat)
    (h : ∀ p ∈ l, p.delayed_work_pending = true → p.message.addr ≠ a) :
    scheduled_bytes (list_del_pending_write l a) = scheduled_bytes l := by
  induction l with
  | nil => rfl
  | cons p l ih =>
    have ih2 := ih (fun q hq => h q (List.mem_cons_of_mem _ hq))
    unfold list_del_pending_write at ih2 ⊢
    by_cases hp : p.message.addr = a
    · have hpp : p.delayed_work_pending = false := by
        by_contra hc
        exact h p (List.mem_cons_self _ _) (by simpa using hc) hp
      simp [List.filter_cons, hp, scheduled_bytes_cons, hpp, ih2]
    · simp [List.filter_cons, hp, scheduled_bytes_cons, ih2]

theorem sessions_map_addr (l : List session) (g : List pending_write → List pending_write) :
    (l.map (fun s => { s with pending_writes := g s.pending_writes })).map (fun s => s.addr) =
      l.map (fun s => s.addr) := by
  simp [List.map_map, Function.comp]

theorem posts_after_read (m : minor) (pending_read : Option Nat) (init : List message)
    (last : message) :
    posts (minor_after_read m pending_read init last) =
      if last.is_delayed then list_del_pending_write (posts m) last.addr else posts m := by
  unfold posts minor_after_read
  by_cases hd : last.is_delayed = true
  · simp only [hd, if_true]
    unfold list_del_pending_write
    rw [List.filter_append, ← session_posts_map_filter]
  · simp [hd]

theorem minor_inv_after_read {cap brk : Nat} {i : Fin MAX_MINOR_NUMBER} {m : minor}
    (pending_read : Option Nat) {init : List message} {last : message}
    (h : minor_inv cap brk i m) (hm : m.messages = init ++ [last])
    (hcap : cap < 18446744073709551616) :
    minor_inv cap brk i (minor_after_read m pending_read init last) := by
  have hlast : last ∈ m.messages := by rw [hm]; simp
  have hsub : (posts (minor_after_read m pending_read init last)).Sublist (posts m) := by
    rw [posts_after_read]
    split
    · exact List.filter_sublist _
    · exact List.Sublist.refl _
  have hsched : scheduled_bytes (posts (minor_after_read m pending_read init last)) =
      scheduled_bytes (posts m) := by
    rw [posts_after_read]
    split
    · apply scheduled_bytes_list_del
      intro p hp hpp he
      exact h.apart p hp hpp last hlast he.symm
    · rfl
  have hst := h.storage
  rw [hm, messages_bytes_append] at hst
  have hlb : messages_bytes [last] = last.size := by simp [messages_bytes]
  rw [hlb] at hst
  have hbd := h.bound
  have hsz : size_sub m.storage_size last.size = m.storage_size - last.size :=
    size_sub_eq _ _ (by omega) (by omega)
  apply minor_inv_shrink h
  · show init.Sublist m.messages
    rw [hm]; exact List.sublist_append_left _ _
  · exact fun p hp => hsub.subset hp
  · exact h.post_nodup.sublist (hsub.map _)
  · intro s hs
    show ∃ s0 ∈ m.sessions, s0.addr = s.addr
    unfold minor_after_read at hs
    simp only at hs
    split at hs
    · obtain ⟨s0, hs0, rfl⟩ := List.mem_map.mp hs
      exact ⟨s0, hs0, rfl⟩
    · exact ⟨s, hs, rfl⟩
  · show ((minor_after_read m pending_read init last).sessions.map (fun s => s.addr)).Nodup
    unfold minor_after_read
    simp only
    split
    · rw [sessions_map_addr m.sessions (fun l => list_del_pending_write l last.addr)]
      exact h.sess_nodup
    · exact h.sess_nodup
  · show int_add m.available_readings (-1) = int_of_long (init.length : Int)
    apply int_add_read
    rw [h.avail, hm, List.length_append, List.length_singleton]
  · show (if init.isEmpty then list_head_ptr.NULL else list_tail_ptr init) = list_head_ptr.NULL ∨
      (init ≠ [] ∧ (if init.isEmpty then list_head_ptr.NULL else list_tail_ptr init) =
        list_tail_ptr init)
    cases init with
    | nil => left; rfl
    | cons y t => right; exact ⟨by simp, by simp⟩
  · rw [hsched]
    show size_sub m.storage_size last.size = messages_bytes init + scheduled_bytes (posts m)
    rw [hsz]; omega
  · show size_sub m.storage_size last.size ≤ m.storage_size
    rw [hsz]; omega

/-! ## Invariant preservation: open and immediate write -/

theorem minor_inv_same {cap brk : Nat} {i : Fin MAX_MINOR_NUMBER} {m m2 : minor}
    (h : minor_inv cap brk i m)
    (h1 : m2.messages = m.messages)
    (h2 : session_posts m2.sessions = session_posts m.sessions)
    (h3 : m2.sessions.map (fun s => s.addr) = m.sessions.map (fun s => s.addr))
    (h4 : m2.message_to_read = m.message_to_read)
    (h5 : m2.storage_size = m.storage_size)
    (h6 : m2.available_readings = m.available_readings)
    (h7 : m2.leaked = m.leaked) : minor_inv cap brk i m2 := by
  have hp : posts m2 = posts m := by unfold posts; rw [h2, h7]
  apply minor_inv_shrink h
  · rw [h1]
  · rw [hp]; exact fun p hp => hp
  · rw [hp]; exact h.post_nodup
  · intro s hs
    have : s.addr ∈ m2.sessions.map (fun s => s.addr) := List.mem_map.mpr ⟨s, hs, rfl⟩
    rw [h3] at this
    obtain ⟨s0, hs0, he⟩ := List.mem_map.mp this
    exact ⟨s0, hs0, he⟩
  · rw [h3]; exact h.sess_nodup
  · rw [h6, h1]; exact h.avail
  · rw [h4, h1]; exact h.cursor
  · rw [h5, h1, hp]; exact h.storage
  · rw [h5]

theorem update_session_addr (l : List session) (a : Nat) (g : session → session)
    (hg : ∀ x, (g x).addr = x.addr) :
    (update_session l a g).map (fun s => s.addr) = l.map (fun s => s.addr) := by
  induction l with
  | nil => rfl
  | cons y l ih =>
    unfold update_session at ih ⊢
    simp only [List.map_cons, ih]
    congr 1
    split
    · exact hg y
    · rfl

theorem update_session_posts_same (l : List session) (a : Nat) (g : session → session)
    (hg : ∀ x, (g x).pending_writes = x.pending_writes) :
    session_posts (update_session l a g) = session_posts l := by
  induction l with
  | nil => rfl
  | cons y l ih =>
    unfold update_session at ih ⊢
    simp only [List.map_cons, session_posts, ih]
    congr 1
    split
    · exact hg y
    · rfl

theorem minor_inv_open {cap brk : Nat} {i : Fin MAX_MINOR_NUMBER} {m : minor}
    (h : minor_inv cap brk i m) (t1 t2 : Int) :
    minor_inv cap (brk + 1) i
      { m with sessions :=
          { addr := brk, pending_writes := [], send_timeout := t1, recv_timeout := t2 } ::
            m.sessions } := by
  have h' := minor_inv_mono h (Nat.le_succ brk)
  exact
    { avail := h.avail
      cursor := h.cursor
      storage := h.storage
      bound := h.bound
      msg_lt := h'.msg_lt
      post_lt := h'.post_lt
      sess_lt := by
        intro s hs
        rcases List.mem_cons.mp hs with rfl | hs
        · exact Nat.lt_succ_self _
        · exact h'.sess_lt s hs
      msg_nodup := h.msg_nodup
      post_nodup := h.post_nodup
      sess_nodup := by
        show ((_ :: m.sessions).map (fun s => s.addr)).Nodup
        rw [List.map_cons, List.nodup_cons]
        refine ⟨?_, h.sess_nodup⟩
        intro hmem
        obtain ⟨s0, hs0, he⟩ := List.mem_map.mp hmem
        have := h.sess_lt s0 hs0
        simp only at he
        omega
      apart := h.apart
      target := h.target
      msg_len := h.msg_len
      post_len := h.post_len }

theorem minor_inv_post {cap brk : Nat} {i : Fin MAX_MINOR_NUMBER} {m : minor}
    (h : minor_inv cap brk i m) (msg : message) (hsize : m.storage_size + msg.size ≤ cap)
    (haddr : msg.addr = brk) (htext : msg.text.length = msg.size) :
    minor_inv cap (brk + 1) i
      (post_message { m with storage_size := m.storage_size + msg.size } msg) := by
  have h' := minor_inv_mono h (Nat.le_succ brk)
  exact
    { avail := by
        show int_add m.available_readings 1 = int_of_long ((msg :: m.messages).length : Int)
        exact int_add_post h.avail
      cursor := by
        show m.message_to_read = list_head_ptr.NULL ∨
          (msg :: m.messages ≠ [] ∧ m.message_to_read = list_tail_ptr (msg :: m.messages))
        rcases h.cursor with hc | ⟨hne, hc⟩
        · left; exact hc
        · right; exact ⟨by simp, by rw [list_tail_ptr_cons _ _ hne]; exact hc⟩
      storage := by
        show m.storage_size + msg.size =
          messages_bytes (msg :: m.messages) + scheduled_bytes (posts m)
        rw [messages_bytes_cons, h.storage]; omega
      bound := hsize
      msg_lt := by
        intro x hx
        rcases List.mem_cons.mp hx with rfl | hx
        · rw [haddr]; exact Nat.lt_succ_self _
        · exact h'.msg_lt x hx
      post_lt := h'.post_lt
      sess_lt := h'.sess_lt
      msg_nodup := by
        show ((msg :: m.messages).map (fun x => x.addr)).Nodup
        rw [List.map_cons, List.nodup_cons]
        refine ⟨?_, h.msg_nodup⟩
        intro hmem
        obtain ⟨x, hx, he⟩ := List.mem_map.mp hmem
        have := h.msg_lt x hx
        omega
      post_nodup := h.post_nodup
      sess_nodup := h.sess_nodup
      apart := by
        intro p hp hpp x hx
        rcases List.mem_cons.mp hx with rfl | hx
        · have := h.post_lt p hp
          omega
        · exact h.apart p hp hpp x hx
      target := h.target
      msg_len := by
        intro x hx
        rcases List.mem_cons.mp hx with rfl | hx
        · exact htext
        · exact h.msg_len x hx
      post_len := h.post_len }

theorem copy_from_user_text_length (buff : List Nat) (len : Nat) :
    (copy_from_user_text buff len).length = len := by
  unfold copy_from_user_text
  rw [List.length_append, List.length_take, List.length_replicate]
  omega

/-! ## Invariant preservation: deferred write and release -/

theorem session_posts_split (l1 l2 : List session) (s : session) :
    session_posts (l1 ++ s :: l2) = session_posts l1 ++ (s.pending_writes ++ session_posts l2) := by
  rw [session_posts_append, session_posts_cons]

theorem posts_defer_perm (m : minor) (s : session) (a n : Nat) (pw : pending_write)
    (hf : m.sessions.find? (fun x => x.addr == a) = some s)
    (hn : (m.sessions.map (fun x => x.addr)).Nodup) :
    (posts { m with
        storage_size := n,
        sessions := update_session m.sessions a
          (fun x => { x with pending_writes := pw :: x.pending_writes }) }).Perm
      (pw :: posts m) := by
  obtain ⟨l1, l2, hl, hs, h1, h2⟩ := find_session_split _ _ _ hf hn
  unfold posts
  simp only
  rw [hl, update_session_split l1 l2 s a _ hs h1 h2, session_posts_split, session_posts_split]
  simp only [List.cons_append, List.append_assoc]
  exact List.perm_middle

theorem posts_release_perm (m : minor) (s : session) (a : Nat)
    (hf : m.sessions.find? (fun x => x.addr == a) = some s)
    (hn : (m.sessions.map (fun x => x.addr)).Nodup) :
    (posts
      { m with sessions := m.sessions.filter (fun x => x.addr != a),
               leaked := s.pending_writes ++ m.leaked }).Perm (posts m) := by
  obtain ⟨l1, l2, hl, hs, h1, h2⟩ := find_session_split _ _ _ hf hn
  unfold posts
  simp only
  rw [hl, filter_session_split l1 l2 s a hs h1 h2, session_posts_split, session_posts_append]
  simp only [List.append_assoc]
  refine List.Perm.append_left _ ?_
  rw [← List.append_assoc, ← List.append_assoc]
  exact List.Perm.append_right _ List.perm_append_comm

theorem minor_inv_defer {cap brk : Nat} {i : Fin MAX_MINOR_NUMBER} {m : minor}
    (h : minor_inv cap brk i m) (s : session) (a : Nat) (pw : pending_write)
    (hf : m.sessions.find? (fun x => x.addr == a) = some s)
    (hpend : pw.delayed_work_pending = true) (haddr : pw.message.addr = brk + 1)
    (hmin : pw.minor_number = i) (hsize : m.storage_size + pw.message.size ≤ cap)
    (htext : pw.message.text.length = pw.message.size) :
    minor_inv cap (brk + 2) i
      { m with
        storage_size := m.storage_size + pw.message.size,
        sessions := update_session m.sessions a
          (fun x => { x with pending_writes := pw :: x.pending_writes }) } := by
  have h' := minor_inv_mono h (show brk ≤ brk + 2 by omega)
  have hperm := posts_defer_perm m s a (m.storage_size + pw.message.size) pw hf h.sess_nodup
  have hmem : ∀ p ∈ posts { m with
        storage_size := m.storage_size + pw.message.size,
        sessions := update_session m.sessions a
          (fun x => { x with pending_writes := pw :: x.pending_writes }) },
      p = pw ∨ p ∈ posts m := fun p hp => List.mem_cons.mp (hperm.subset hp)
  exact
    { avail := h.avail
      cursor := h.cursor
      storage := by
        rw [scheduled_bytes_perm hperm, scheduled_bytes_cons, hpend]
        show m.storage_size + pw.message.size = messages_bytes m.messages + _
        rw [h.storage]; simp only [if_true]; omega
      bound := hsize
      msg_lt := h'.msg_lt
      post_lt := by
        intro p hp
        rcases hmem p hp with rfl | hp
        · omega
        · exact h'.post_lt p hp
      sess_lt := by
        intro x hx
        have : x.addr ∈ (update_session m.sessions a
            (fun x => { x with pending_writes := pw :: x.pending_writes })).map
            (fun s => s.addr) := List.mem_map.mpr ⟨x, hx, rfl⟩
        rw [update_session_addr m.sessions a
          (fun x => { x with pending_writes := pw :: x.pending_writes }) (fun _ => rfl)] at this
        obtain ⟨s0, hs0, he⟩ := List.mem_map.mp this
        rw [← he]; exact h'.sess_lt s0 hs0
      msg_nodup := h.msg_nodup
      post_nodup := by
        refine (hperm.map _).nodup_iff.mpr ?_
        rw [List.map_cons, List.nodup_cons]
        refine ⟨?_, h.post_nodup⟩
        intro hmem
        obtain ⟨p, hp, he⟩ := List.mem_map.mp hmem
        have := h.post_lt p hp
        omega
      sess_nodup := by
        show ((update_session m.sessions a _).map (fun s => s.addr)).Nodup
        rw [update_session_addr m.sessions a
          (fun x => { x with pending_writes := pw :: x.pending_writes }) (fun _ => rfl)]
        exact h.sess_nodup
      apart := by
        intro p hp hpp x hx
        rcases hmem p hp with rfl | hp
        · have := h.msg_lt x hx
          omega
        · exact h.apart p hp hpp x hx
      target := by
        intro p hp
        rcases hmem p hp with rfl | hp
        · exact hmin
        · exact h.target p hp
      msg_len := h.msg_len
      post_len := by
        intro p hp
        rcases hmem p hp with rfl | hp
        · exact htext
        · exact h.post_len p hp }

theorem minor_inv_release {cap brk : Nat} {i : Fin MAX_MINOR_NUMBER} {m : minor}
    (h : minor_inv cap brk i m) (s : session) (a : Nat)
    (hf : m.sessions.find? (fun x => x.addr == a) = some s) :
    minor_inv cap brk i
      { m with sessions := m.sessions.filter (fun x => x.addr != a),
               leaked := s.pending_writes ++ m.leaked } := by
  have hperm := posts_release_perm m s a hf h.sess_nodup
  apply minor_inv_shrink h
  · exact List.Sublist.refl _
  · exact fun p hp => hperm.subset hp
  · exact (hperm.map _).nodup_iff.mpr h.post_nodup
  · intro x hx
    exact ⟨x, (List.mem_filter.mp hx).1, rfl⟩
  · exact h.sess_nodup.sublist ((List.filter_sublist _).map _)
  · exact h.avail
  · exact h.cursor
  · rw [scheduled_bytes_perm hperm]; exact h.storage
  · exact le_refl _

/-! ## Invariant preservation: revoke and flush -/

theorem posts_revoke_eq (m : minor) (s : session) (a n : Nat)
    (hf : m.sessions.find? (fun x => x.addr == a) = some s)
    (hn : (m.sessions.map (fun x => x.addr)).Nodup) :
    ∃ l1 l2, posts m = l1 ++ (s.pending_writes ++ l2) ∧
      posts { m with
        sessions := update_session m.sessions a
          (fun x => { x with pending_writes := uncancelled s.pending_writes }),
        storage_size := n } = l1 ++ (uncancelled s.pending_writes ++ l2) := by
  obtain ⟨l1, l2, hl, hs, h1, h2⟩ := find_session_split _ _ _ hf hn
  refine ⟨session_posts l1, session_posts l2 ++ m.leaked, ?_, ?_⟩
  · unfold posts; rw [hl, session_posts_split]; simp only [List.append_assoc]
  · unfold posts
    simp only
    rw [hl, update_session_split l1 l2 s a _ hs h1 h2, session_posts_split]
    simp only [List.append_assoc]

theorem minor_inv_revoke {cap brk : Nat} {i : Fin MAX_MINOR_NUMBER} {m : minor}
    (h : minor_inv cap brk i m) (s : session) (a : Nat)
    (hf : m.sessions.find? (fun x => x.addr == a) = some s)
    (hcap : cap < 18446744073709551616) :
    minor_inv cap brk i
      { m with
        sessions := update_session m.sessions a
          (fun x => { x with pending_writes := (cancel_pending_writes s.pending_writes 0).1 }),
        storage_size := size_sub m.storage_size (cancel_pending_writes s.pending_writes 0).2 } := by
  rw [cancel_pending_writes_eq _ _ (by norm_num)]
  simp only [Nat.zero_add]
  obtain ⟨l1, l2, hposts, hposts2⟩ := posts_revoke_eq m s a
    (size_sub m.storage_size (scheduled_bytes s.pending_writes % 18446744073709551616))
    hf h.sess_nodup
  have hsub : (l1 ++ (uncancelled s.pending_writes ++ l2)).Sublist (posts m) := by
    rw [hposts]
    exact List.Sublist.append_left (List.Sublist.append_right (uncancelled_sublist _) _) _
  have hst := h.storage
  have hbd := h.bound
  rw [hposts] at hst
  simp only [scheduled_bytes_append] at hst
  have hmod : scheduled_bytes s.pending_writes % 18446744073709551616 =
      scheduled_bytes s.pending_writes := Nat.mod_eq_of_lt (by omega)
  have hsz : size_sub m.storage_size (scheduled_bytes s.pending_writes % 18446744073709551616) =
      m.storage_size - scheduled_bytes s.pending_writes := by
    rw [hmod]; exact size_sub_eq _ _ (by omega) (by omega)
  apply minor_inv_shrink h
  · exact List.Sublist.refl _
  · rw [hposts2]; exact fun p hp => hsub.subset hp
  · rw [hposts2]; exact h.post_nodup.sublist (hsub.map _)
  · intro x hx
    have : x.addr ∈ (update_session m.sessions a
        (fun x => { x with pending_writes := uncancelled s.pending_writes })).map
        (fun s => s.addr) := List.mem_map.mpr ⟨x, hx, rfl⟩
    rw [update_session_addr m.sessions a
      (fun x => { x with pending_writes := uncancelled s.pending_writes })
      (fun _ => rfl)] at this
    obtain ⟨s0, hs0, he⟩ := List.mem_map.mp this
    exact ⟨s0, hs0, he⟩
  · show ((update_session m.sessions a _).map (fun s => s.addr)).Nodup
    rw [update_session_addr m.sessions a
      (fun x => { x with pending_writes := uncancelled s.pending_writes }) (fun _ => rfl)]
    exact h.sess_nodup
  · exact h.avail
  · exact h.cursor
  · rw [hposts2]
    simp only [scheduled_bytes_append, scheduled_bytes_uncancelled]
    show size_sub m.storage_size _ = _
    rw [hsz]; omega
  · show size_sub m.storage_size _ ≤ m.storage_size
    rw [hsz]; omega

theorem posts_flush_eq (m : minor) (n : Nat) (rs : List pending_read) :
    posts { m with sessions := m.sessions.map strip_session, storage_size := n,
                   pending_readings := rs } =
      uncancelled (session_posts m.sessions) ++ m.leaked := by
  unfold posts
  simp only
  rw [session_posts_strip]

theorem minor_inv_flush {cap brk : Nat} {i : Fin MAX_MINOR_NUMBER} {m : minor}
    (h : minor_inv cap brk i m) (hcap : cap < 18446744073709551616) :
    minor_inv cap brk i
      { m with
        sessions := (flush_sessions m.sessions 0).1,
        storage_size := size_sub m.storage_size (flush_sessions m.sessions 0).2,
        pending_readings := m.pending_readings.map (fun p => { p with is_flushed := true }) } := by
  rw [flush_sessions_eq _ _ (by norm_num)]
  simp only [Nat.zero_add]
  have hposts2 : posts { m with
        sessions := m.sessions.map strip_session,
        storage_size := size_sub m.storage_size
          (scheduled_bytes (session_posts m.sessions) % 18446744073709551616),
        pending_readings := m.pending_readings.map (fun p => { p with is_flushed := true }) } =
      uncancelled (session_posts m.sessions) ++ m.leaked := by
    unfold posts
    simp only
    rw [session_posts_strip]
  have hsub : (posts { m with
        sessions := m.sessions.map strip_session,
        storage_size := size_sub m.storage_size
          (scheduled_bytes (session_posts m.sessions) % 18446744073709551616),
        pending_readings := m.pending_readings.map (fun p => { p with is_flushed := true }) }).Sublist
      (posts m) := by
    rw [hposts2]
    exact List.Sublist.append_right (uncancelled_sublist _) _
  have hst := h.storage
  have hbd := h.bound
  unfold posts at hst
  simp only [scheduled_bytes_append] at hst
  have hmod : scheduled_bytes (session_posts m.sessions) % 18446744073709551616 =
      scheduled_bytes (session_posts m.sessions) := Nat.mod_eq_of_lt (by omega)
  have hsz : size_sub m.storage_size
      (scheduled_bytes (session_posts m.sessions) % 18446744073709551616) =
      m.storage_size - scheduled_bytes (session_posts m.sessions) := by
    rw [hmod]; exact size_sub_eq _ _ (by omega) (by omega)
  apply minor_inv_shrink h
  · exact List.Sublist.refl _
  · exact fun p hp => hsub.subset hp
  · exact h.post_nodup.sublist (hsub.map _)
  · intro x hx
    obtain ⟨s0, hs0, rfl⟩ := List.mem_map.mp hx
    exact ⟨s0, hs0, rfl⟩
  · show ((m.sessions.map strip_session).map (fun (s : session) => s.addr)).Nodup
    rw [List.map_map]
    exact h.sess_nodup
  · exact h.avail
  · exact h.cursor
  · rw [hposts2]
    simp only [scheduled_bytes_append, scheduled_bytes_uncancelled]
    show size_sub m.storage_size _ = _
    rw [hsz]; omega
  · show size_sub m.storage_size _ ≤ m.storage_size
    rw [hsz]; omega

/-! ## Invariant preservation: timer -/

theorem work_done_addr (a : Nat) (l : List pending_write) :
    (l.map (work_done a)).map (fun p => p.message.addr) = l.map (fun p => p.message.addr) := by
  rw [List.map_map]
  apply List.map_congr_left
  intro p _
  simp only [Function.comp, work_done]
  split <;> rfl

theorem work_done_of_ne (a : Nat) (l : List pending_write)
    (h : ∀ p ∈ l, p.message.addr ≠ a) : l.map (work_done a) = l := by
  induction l with
  | nil => rfl
  | cons p l ih =>
    rw [List.map_cons, ih (fun q hq => h q (List.mem_cons_of_mem _ hq))]
    simp [work_done, h p (List.mem_cons_self _ _)]

theorem scheduled_bytes_work_done (l : List pending_write) (pw : pending_write)
    (hmem : pw ∈ l) (hpend : pw.delayed_work_pending = true)
    (hnd : (l.map (fun p => p.message.addr)).Nodup) :
    scheduled_bytes (l.map (work_done pw.message.addr)) + pw.message.size =
      scheduled_bytes l := by
  induction l with
  | nil => simp at hmem
  | cons q l ih =>
    rw [List.map_cons, List.nodup_cons] at hnd
    rcases List.mem_cons.mp hmem with rfl | hin
    · have hne : ∀ p ∈ l, p.message.addr ≠ pw.message.addr := by
        intro p hp he
        exact hnd.1 (List.mem_map.mpr ⟨p, hp, he⟩)
      rw [List.map_cons, work_done_of_ne _ _ hne, scheduled_bytes_cons, scheduled_bytes_cons]
      simp [work_done, hpend]
      omega
    · have hq : q.message.addr ≠ pw.message.addr := by
        intro he
        exact hnd.1 (List.mem_map.mpr ⟨pw, hin, he.symm⟩)
      have := ih hin hnd.2
      rw [List.map_cons, scheduled_bytes_cons, scheduled_bytes_cons]
      simp only [work_done, hq, if_false]
      omega

theorem posts_enqueue_eq (m : minor) (pw : pending_write) :
    posts (post_message
        { m with
          sessions := m.sessions.map (fun s =>
            { s with pending_writes := s.pending_writes.map (work_done pw.message.addr) }),
          leaked := m.leaked.map (work_done pw.message.addr) }
        pw.message) = (posts m).map (work_done pw.message.addr) := by
  unfold posts post_message
  simp only
  rw [session_posts_map_map, List.map_append]

theorem minor_inv_enqueue {cap brk : Nat} {i : Fin MAX_MINOR_NUMBER} {m : minor}
    (h : minor_inv cap brk i m) (pw : pending_write)
    (hpw : pw ∈ posts m) (hpend : pw.delayed_work_pending = true) :
    minor_inv cap brk i
      (post_message
        { m with
          sessions := m.sessions.map (fun s =>
            { s with pending_writes := s.pending_writes.map (work_done pw.message.addr) }),
          leaked := m.leaked.map (work_done pw.message.addr) }
        pw.message) := by
  have hposts2 := posts_enqueue_eq m pw
  have hnd := h.post_nodup
  have hfresh : ∀ x ∈ m.messages, x.addr ≠ pw.message.addr := h.apart pw hpw hpend
  have hback : ∀ p ∈ (posts m).map (work_done pw.message.addr),
      ∃ q ∈ posts m, p = work_done pw.message.addr q := by
    intro p hp
    obtain ⟨q, hq, he⟩ := List.mem_map.mp hp
    exact ⟨q, hq, he.symm⟩
  exact
    { avail := by
        show int_add m.available_readings 1 =
          int_of_long ((pw.message :: m.messages).length : Int)
        exact int_add_post h.avail
      cursor := by
        show m.message_to_read = list_head_ptr.NULL ∨
          (pw.message :: m.messages ≠ [] ∧
            m.message_to_read = list_tail_ptr (pw.message :: m.messages))
        rcases h.cursor with hc | ⟨hne, hc⟩
        · left; exact hc
        · right; exact ⟨by simp, by rw [list_tail_ptr_cons _ _ hne]; exact hc⟩
      storage := by
        rw [hposts2]
        show m.storage_size = messages_bytes (pw.message :: m.messages) + _
        have e := scheduled_bytes_work_done _ pw hpw hpend hnd
        have hst := h.storage
        rw [messages_bytes_cons]
        omega
      bound := h.bound
      msg_lt := by
        intro x hx
        rcases List.mem_cons.mp hx with rfl | hx
        · exact h.post_lt pw hpw
        · exact h.msg_lt x hx
      post_lt := by
        intro p hp
        rw [hposts2] at hp
        obtain ⟨q, hq, rfl⟩ := hback p hp
        have := h.post_lt q hq
        unfold work_done
        split <;> exact this
      sess_lt := by
        intro s hs
        obtain ⟨s0, hs0, rfl⟩ := List.mem_map.mp hs
        exact h.sess_lt s0 hs0
      msg_nodup := by
        show ((pw.message :: m.messages).map (fun x => x.addr)).Nodup
        rw [List.map_cons, List.nodup_cons]
        refine ⟨?_, h.msg_nodup⟩
        intro hm
        obtain ⟨x, hx, he⟩ := List.mem_map.mp hm
        exact hfresh x hx he
      post_nodup := by
        rw [hposts2, work_done_addr]
        exact h.post_nodup
      sess_nodup := by
        show ((m.sessions.map _).map (fun (s : session) => s.addr)).Nodup
        rw [List.map_map]
        exact h.sess_nodup
      apart := by
        intro p hp hpp x hx
        rw [hposts2] at hp
        obtain ⟨q, hq, rfl⟩ := hback p hp
        have hqa : q.message.addr ≠ pw.message.addr := by
          intro he
          simp [work_done, he] at hpp
        have hwq : work_done pw.message.addr q = q := by simp [work_done, hqa]
        rw [hwq] at hpp ⊢
        rcases List.mem_cons.mp hx with rfl | hx
        · exact fun he => hqa he.symm
        · exact h.apart q hq hpp x hx
      target := by
        intro p hp
        rw [hposts2] at hp
        obtain ⟨q, hq, rfl⟩ := hback p hp
        have := h.target q hq
        unfold work_done
        split <;> exact this
      msg_len := by
        intro x hx
        rcases List.mem_cons.mp hx with rfl | hx
        · exact h.post_len pw hpw
        · exact h.msg_len x hx
      post_len := by
        intro p hp
        rw [hposts2] at hp
        obtain ⟨q, hq, rfl⟩ := hback p hp
        have := h.post_len q hq
        unfold work_done
        split <;> exact this }

/-! ## Driver-level preservation -/

theorem mem_session_posts {p : pending_write} {l : List session} :
    p ∈ session_posts l ↔ ∃ s ∈ l, p ∈ s.pending_writes := by
  induction l with
  | nil => simp [session_posts]
  | cons s l ih => simp [session_posts, ih]

theorem inv_messages_ready {cap brk : Nat} {i : Fin MAX_MINOR_NUMBER} {m : minor}
    (h : minor_inv cap brk i m) (hnil : m.messages ≠ []) :
    ∃ init last, m.messages = init ++ [last] ∧ (∀ y ∈ init, y.addr ≠ last.addr) ∧
      (m.message_to_read = list_head_ptr.NULL ∨
        m.message_to_read = list_head_ptr.node last.addr) := by
  obtain ⟨init, last, hm⟩ : ∃ init last, m.messages = init ++ [last] :=
    ⟨m.messages.dropLast, m.messages.getLast hnil, (List.dropLast_append_getLast hnil).symm⟩
  refine ⟨init, last, hm, ?_, ?_⟩
  · apply nodup_concat_addr
    rw [← hm]; exact h.msg_nodup
  · rcases h.cursor with hc | ⟨_, hc⟩
    · left; exact hc
    · right; rw [hc, hm, list_tail_ptr_concat]

theorem inv_read_ready {cap brk : Nat} {i : Fin MAX_MINOR_NUMBER} {m : minor}
    (h : minor_inv cap brk i m) (hne : m.available_readings ≠ 0) :
    ∃ init last, m.messages = init ++ [last] ∧ (∀ y ∈ init, y.addr ≠ last.addr) ∧
      (m.message_to_read = list_head_ptr.NULL ∨
        m.message_to_read = list_head_ptr.node last.addr) := by
  apply inv_messages_ready h
  intro he
  apply hne
  rw [h.avail, he]; rfl

theorem params_cap {st : driver} (h : params_ok st) :
    size_t_of_int st.max_storage_size < 2147483648 ∧
      size_t_of_int st.max_message_size < 2147483648 := by
  obtain ⟨h1, h2, h3, h4⟩ := h
  have e1 := size_t_of_int_eq _ h3 h4
  have e2 := size_t_of_int_eq _ h1 h2
  constructor <;> omega

theorem read_message_inv {cap brk : Nat} {i : Fin MAX_MINOR_NUMBER} {m m1 : minor}
    {pending_read : Option Nat} {len writable : Nat} {slack : List Nat} {r : read_outcome}
    (h : minor_inv cap brk i m) (hne : m.available_readings ≠ 0)
    (hcap : cap < 18446744073709551616)
    (hr : read_message m pending_read len writable slack = some (r, m1)) :
    minor_inv cap brk i m1 := by
  obtain ⟨init, last, hm, hnd, hc⟩ := inv_read_ready h hne
  rw [read_message_eq m pending_read len writable slack init last hm hnd hc] at hr
  cases hlen : (if last.size < len then strlen (last.text ++ slack) else some len) with
  | none => rw [hlen] at hr; simp at hr
  | some len1 =>
    rw [hlen] at hr
    simp only [Option.map_some', Option.some.injEq, Prod.mk.injEq] at hr
    rw [← hr.2]
    exact minor_inv_after_read pending_read h hm hcap

theorem dev_open_inv {st : driver} (i : Fin MAX_MINOR_NUMBER) (h : driver_inv st) :
    driver_inv (dev_open st i).2 := by
  refine driver_inv_update (i := i) h rfl rfl rfl (Nat.le_succ _) ?_
  exact minor_inv_open (h.2 i) _ _

theorem dev_release_inv {st st2 : driver} {f : file} {r : Int} (h : driver_inv st)
    (he : dev_release st f = some (r, st2)) : driver_inv st2 := by
  unfold dev_release at he
  cases hcs : current_session st f with
  | none => rw [hcs] at he; simp at he
  | some s =>
    rw [hcs] at he
    simp only [Option.some.injEq, Prod.mk.injEq] at he
    rw [← he.2]
    refine driver_inv_update (i := f.minor_number) h rfl rfl rfl (le_refl _) ?_
    exact minor_inv_release (h.2 f.minor_number) s f.private_data hcs

theorem dev_flush_inv {st : driver} (f : file) (h : driver_inv st) :
    driver_inv (dev_flush st f).2 := by
  refine driver_inv_update (i := f.minor_number) h rfl rfl rfl (le_refl _) ?_
  exact minor_inv_flush (h.2 f.minor_number) (by have := (params_cap h.1).1; omega)

/-! ## Every step preserves the invariant -/

theorem dev_write_inv {st st2 : driver} {f : file} {buff : List Nat} {len : Nat}
    {r : write_result} (h : driver_inv st)
    (he : dev_write st f buff len = some (r, st2)) : driver_inv st2 := by
  have hcap := params_cap h.1
  have hm := h.2 f.minor_number
  have hbd := hm.bound
  unfold dev_write at he
  by_cases h1 : len > size_t_of_int st.max_message_size
  · rw [if_pos h1] at he
    simp only [Option.some.injEq, Prod.mk.injEq] at he
    rw [← he.2]; exact h
  · rw [if_neg h1] at he
    have hadd : size_add (st.minors f.minor_number).storage_size len =
        (st.minors f.minor_number).storage_size + len := size_add_eq _ _ (by omega)
    simp only [hadd] at he
    by_cases h2 : (st.minors f.minor_number).storage_size + len >
        size_t_of_int st.max_storage_size
    · rw [if_pos h2] at he
      simp only [Option.some.injEq, Prod.mk.injEq] at he
      rw [← he.2]; exact h
    · rw [if_neg h2] at he
      cases hcs : current_session st f with
      | none => rw [hcs] at he; simp at he
      | some s =>
        rw [hcs] at he
        simp only at he
        by_cases h3 : int_of_long s.send_timeout = 0
        · rw [if_pos h3] at he
          simp only [Option.some.injEq, Prod.mk.injEq] at he
          rw [← he.2]
          refine driver_inv_update (i := f.minor_number) h rfl rfl rfl (Nat.le_succ _) ?_
          exact minor_inv_post hm
            { addr := st.next_addr, is_delayed := false, size := len,
              text := copy_from_user_text buff len } (by simp only; omega) rfl
            (copy_from_user_text_length buff len)
        · rw [if_neg h3] at he
          simp only [Option.some.injEq, Prod.mk.injEq] at he
          rw [← he.2]
          refine driver_inv_update (i := f.minor_number) h rfl rfl rfl (by simp) ?_
          exact minor_inv_defer hm s f.private_data
            { delayed_work_pending := true,
              message := { addr := st.next_addr + 1, is_delayed := true, size := len,
                           text := copy_from_user_text buff len },
              minor_number := f.minor_number } hcs rfl rfl rfl (by simp only; omega)
            (copy_from_user_text_length buff len)

theorem dev_read_inv {st st2 : driver} {f : file} {len writable : Nat} {slack : List Nat}
    {r : read_outcome} (h : driver_inv st)
    (he : dev_read st f len writable slack = some (r, st2)) : driver_inv st2 := by
  have hcap := params_cap h.1
  have hm := h.2 f.minor_number
  unfold dev_read at he
  cases hcs : current_session st f with
  | none => rw [hcs] at he; simp at he
  | some s =>
    rw [hcs] at he
    simp only at he
    by_cases h1 : (st.minors f.minor_number).available_readings = 0
    · rw [if_pos h1] at he
      by_cases h2 : s.recv_timeout = 0
      · rw [if_pos h2] at he
        simp only [Option.some.injEq, Prod.mk.injEq] at he
        rw [← he.2]; exact h
      · rw [if_neg h2] at he
        simp only [Option.some.injEq, Prod.mk.injEq] at he
        rw [← he.2]
        refine driver_inv_update (i := f.minor_number) h rfl rfl rfl (Nat.le_succ _) ?_
        exact minor_inv_mono (minor_inv_same hm rfl rfl rfl rfl rfl rfl rfl) (Nat.le_succ _)
    · rw [if_neg h1] at he
      cases hr : read_message (st.minors f.minor_number) none len writable slack with
      | none => rw [hr] at he; simp at he
      | some p =>
        obtain ⟨r1, m1⟩ := p
        rw [hr] at he
        simp only [Option.some.injEq, Prod.mk.injEq] at he
        rw [← he.2]
        refine driver_inv_update (i := f.minor_number) h rfl rfl rfl (le_refl _) ?_
        exact read_message_inv hm h1 (by omega) hr

theorem dev_read_wake_inv {st st2 : driver} {f : file} {pending_read : Nat}
    {recv_timeout wait_outcome : Int} {len writable : Nat} {slack : List Nat}
    {r : read_outcome} (h : driver_inv st)
    (he : dev_read_wake st f pending_read recv_timeout wait_outcome len writable slack =
      some (r, st2)) : driver_inv st2 := by
  have hcap := params_cap h.1
  have hm := h.2 f.minor_number
  unfold dev_read_wake at he
  dsimp only at he
  cases hpr : (st.minors f.minor_number).pending_readings.find?
      (fun r => r.addr == pending_read) with
  | none => rw [hpr] at he; simp at he
  | some pr =>
    rw [hpr] at he
    simp only at he
    by_cases h0 : wait_outcome = 0
    · rw [if_pos h0] at he
      simp only [Option.some.injEq, Prod.mk.injEq] at he
      rw [← he.2]
      refine driver_inv_update (i := f.minor_number) h rfl rfl rfl (le_refl _) ?_
      exact minor_inv_same hm rfl rfl rfl rfl rfl rfl rfl
    · rw [if_neg h0] at he
      by_cases hfl : pr.is_flushed = true
      · rw [if_pos hfl] at he
        simp only [Option.some.injEq, Prod.mk.injEq] at he
        rw [← he.2]
        refine driver_inv_update (i := f.minor_number) h rfl rfl rfl (le_refl _) ?_
        exact minor_inv_same hm rfl rfl rfl rfl rfl rfl rfl
      · rw [if_neg hfl] at he
        by_cases h1 : (st.minors f.minor_number).available_readings = 0
        · rw [if_pos h1] at he
          simp only [Option.some.injEq, Prod.mk.injEq] at he
          rw [← he.2]; exact h
        · rw [if_neg h1] at he
          cases hr : read_message (st.minors f.minor_number) (some pending_read) len writable
              slack with
          | none => rw [hr] at he; simp at he
          | some p =>
            obtain ⟨r1, m1⟩ := p
            rw [hr] at he
            simp only [Option.some.injEq, Prod.mk.injEq] at he
            rw [← he.2]
            refine driver_inv_update (i := f.minor_number) h rfl rfl rfl (le_refl _) ?_
            exact read_message_inv hm h1 (by omega) hr

theorem dev_ioctl_inv {st st2 : driver} {f : file} {command param : Nat} {r : Int}
    (h : driver_inv st) (he : dev_ioctl st f command param = some (r, st2)) :
    driver_inv st2 := by
  have hcap := params_cap h.1
  have hm := h.2 f.minor_number
  unfold dev_ioctl at he
  cases hcs : current_session st f with
  | none => rw [hcs] at he; simp at he
  | some s =>
    rw [hcs] at he
    simp only at he
    by_cases h1 : command = SET_SEND_TIMEOUT
    · rw [if_pos h1] at he
      simp only [Option.some.injEq, Prod.mk.injEq] at he
      rw [← he.2]
      refine driver_inv_update (i := f.minor_number) h rfl rfl rfl (le_refl _) ?_
      exact minor_inv_same hm rfl
        (update_session_posts_same _ _ _ (fun _ => rfl))
        (update_session_addr _ _ _ (fun _ => rfl)) rfl rfl rfl rfl
    · rw [if_neg h1] at he
      by_cases h2 : command = SET_RECV_TIMEOUT
      · rw [if_pos h2] at he
        simp only [Option.some.injEq, Prod.mk.injEq] at he
        rw [← he.2]
        refine driver_inv_update (i := f.minor_number) h rfl rfl rfl (le_refl _) ?_
        exact minor_inv_same hm rfl
          (update_session_posts_same _ _ _ (fun _ => rfl))
          (update_session_addr _ _ _ (fun _ => rfl)) rfl rfl rfl rfl
      · rw [if_neg h2] at he
        by_cases h3 : command = REVOKE_DELAYED_MESSAGES
        · rw [if_pos h3] at he
          simp only [Option.some.injEq, Prod.mk.injEq] at he
          rw [← he.2]
          refine driver_inv_update (i := f.minor_number) h rfl rfl rfl (le_refl _) ?_
          exact minor_inv_revoke hm s f.private_data hcs (by omega)
        · rw [if_neg h3] at he
          simp only [Option.some.injEq, Prod.mk.injEq] at he
          rw [← he.2]; exact h

theorem timer_armed_mem {st : driver} {pw : pending_write} (h : driver_inv st)
    (ha : timer_armed st pw = true) :
    pw.delayed_work_pending = true ∧ pw ∈ posts (st.minors pw.minor_number) := by
  unfold timer_armed at ha
  rw [Bool.and_eq_true] at ha
  refine ⟨ha.1, ?_⟩
  obtain ⟨i, _, hi⟩ := List.any_eq_true.mp ha.2
  have hin : pw ∈ posts (st.minors i) := by
    rw [Bool.or_eq_true] at hi
    rcases hi with hi | hi
    · obtain ⟨s, hs, hp⟩ := List.any_eq_true.mp hi
      have hp2 : pw ∈ s.pending_writes := by simpa using hp
      exact List.mem_append_left _ (mem_session_posts.mpr ⟨s, hs, hp2⟩)
    · exact List.mem_append_right _ (by simpa using hi)
  have ht := (h.2 i).target pw hin
  rw [ht]; exact hin

theorem enqueue_message_inv {st : driver} {pw : pending_write} (h : driver_inv st)
    (ha : timer_armed st pw = true) : driver_inv (enqueue_message st pw) := by
  obtain ⟨hp, hin⟩ := timer_armed_mem h ha
  refine driver_inv_update (i := pw.minor_number) h rfl rfl rfl (le_refl _) ?_
  exact minor_inv_enqueue (h.2 pw.minor_number) pw hin hp

theorem exec_inv {st st2 : driver} {o : op} {e : trace_event} (h : driver_inv st)
    (he : exec st o = some (st2, e)) : driver_inv st2 := by
  cases o with
  | do_open i =>
    simp only [exec, Option.some.injEq, Prod.mk.injEq] at he
    rw [← he.1]; exact dev_open_inv i h
  | do_release f =>
    simp only [exec, Option.map_eq_some', Prod.mk.injEq] at he
    obtain ⟨⟨r, s⟩, hr, rfl, _⟩ := he
    exact dev_release_inv h hr
  | do_write f buff len =>
    simp only [exec, Option.map_eq_some', Prod.mk.injEq] at he
    obtain ⟨⟨r, s⟩, hr, rfl, _⟩ := he
    exact dev_write_inv h hr
  | do_read f len writable slack =>
    simp only [exec, Option.map_eq_some', Prod.mk.injEq] at he
    obtain ⟨⟨r, s⟩, hr, rfl, _⟩ := he
    exact dev_read_inv h hr
  | do_wake f pr rt wo len writable slack =>
    simp only [exec, Option.map_eq_some', Prod.mk.injEq] at he
    obtain ⟨⟨r, s⟩, hr, rfl, _⟩ := he
    exact dev_read_wake_inv h hr
  | do_ioctl f command param =>
    simp only [exec, Option.map_eq_some', Prod.mk.injEq] at he
    obtain ⟨⟨r, s⟩, hr, rfl, _⟩ := he
    exact dev_ioctl_inv h hr
  | do_flush f =>
    simp only [exec, Option.some.injEq, Prod.mk.injEq] at he
    rw [← he.1]; exact dev_flush_inv f h
  | do_timer pw =>
    simp only [exec] at he
    by_cases ha : timer_armed st pw = true
    · rw [if_pos ha] at he
      simp only [Option.some.injEq, Prod.mk.injEq] at he
      rw [← he.1]; exact enqueue_message_inv h ha
    · rw [if_neg ha] at he; simp at he

theorem run_inv {st st2 : driver} {ops : List op} {es : List trace_event}
    (h : driver_inv st) (hr : run st ops = some (st2, es)) : driver_inv st2 := by
  induction ops generalizing st es with
  | nil =>
    simp only [run, Option.some.injEq, Prod.mk.injEq] at hr
    rw [← hr.1]; exact h
  | cons o rest ih =>
    simp only [run] at hr
    cases he : exec st o with
    | none => rw [he] at hr; simp at hr
    | some p =>
      obtain ⟨st1, e⟩ := p
      rw [he] at hr
      simp only at hr
      cases hr2 : run st1 rest with
      | none => rw [hr2] at hr; simp at hr
      | some q =>
        obtain ⟨st3, es3⟩ := q
        rw [hr2] at hr
        simp only [Option.some.injEq, Prod.mk.injEq] at hr
        have h3 := hr.1
        subst h3
        exact ih (exec_inv h he) hr2

theorem install_driver_inv (a b : Int) (ha : 0 ≤ a ∧ a < 2147483648)
    (hb : 0 ≤ b ∧ b < 2147483648) : driver_inv (install_driver a b) :=
  ⟨⟨ha.1, ha.2, hb.1, hb.2⟩, fun i => empty_minor_inv _ _ i⟩

/-! ## The step relation -/

theorem step_rel_refl (st : driver) : step_rel st st trace_event.quiet where
  brk := le_refl _
  posts_from := fun _ _ hp _ => Or.inl hp
  msgs := fun _ => rfl
  origin := fun _ _ he => by cases he
  sess_from := fun _ q hq => Or.inl ⟨q, hq, rfl⟩

theorem sess_from_update {st st1 : driver} {j : Fin MAX_MINOR_NUMBER} {m1 : minor}
    (h3 : st1.minors = Function.update st.minors j m1)
    (hs : ∀ q ∈ session_posts m1.sessions,
      (∃ q0 ∈ session_posts (st.minors j).sessions, q0.message.addr = q.message.addr) ∨
        st.next_addr ≤ q.message.addr) :
    ∀ i q, q ∈ session_posts (st1.minors i).sessions →
      (∃ q0 ∈ session_posts (st.minors i).sessions, q0.message.addr = q.message.addr) ∨
        st.next_addr ≤ q.message.addr := by
  intro i q hq
  rw [h3] at hq
  by_cases hi : i = j
  · subst hi
    rw [Function.update_same] at hq
    exact hs q hq
  · rw [Function.update_noteq hi] at hq
    exact Or.inl ⟨q, hq, rfl⟩

theorem sess_from_subset {st : driver} {j : Fin MAX_MINOR_NUMBER} {l : List pending_write}
    (h : ∀ q ∈ l, q ∈ session_posts (st.minors j).sessions) :
    ∀ q ∈ l,
      (∃ q0 ∈ session_posts (st.minors j).sessions, q0.message.addr = q.message.addr) ∨
        st.next_addr ≤ q.message.addr :=
  fun q hq => Or.inl ⟨q, h q hq, rfl⟩

theorem step_rel_quiet {st st1 : driver} {j : Fin MAX_MINOR_NUMBER} {m1 : minor}
    (h3 : st1.minors = Function.update st.minors j m1)
    (h4 : st.next_addr ≤ st1.next_addr)
    (hp : ∀ p ∈ posts m1, p.delayed_work_pending = true →
      p ∈ posts (st.minors j) ∨ st.next_addr ≤ p.message.addr)
    (hm : m1.messages = (st.minors j).messages)
    (hs : ∀ q ∈ session_posts m1.sessions,
      (∃ q0 ∈ session_posts (st.minors j).sessions, q0.message.addr = q.message.addr) ∨
        st.next_addr ≤ q.message.addr) : step_rel st st1 trace_event.quiet where
  sess_from := sess_from_update h3 hs
  brk := h4
  posts_from := by
    intro i p hpi hpp
    rw [h3] at hpi
    by_cases hi : i = j
    · subst hi
      rw [Function.update_same] at hpi
      exact hp p hpi hpp
    · rw [Function.update_noteq hi] at hpi
      exact Or.inl hpi
  msgs := by
    intro i
    rw [h3]
    by_cases hi : i = j
    · subst hi; rw [Function.update_same]; exact hm
    · rw [Function.update_noteq hi]
  origin := fun _ _ he => by cases he

theorem step_rel_posted {st st1 : driver} {j : Fin MAX_MINOR_NUMBER} {m1 : minor} {x : message}
    (h3 : st1.minors = Function.update st.minors j m1)
    (h4 : st.next_addr ≤ st1.next_addr)
    (hp : ∀ p ∈ posts m1, p.delayed_work_pending = true →
      p ∈ posts (st.minors j) ∨ st.next_addr ≤ p.message.addr)
    (hm : m1.messages = x :: (st.minors j).messages)
    (ho : st.next_addr ≤ x.addr ∨
      ∃ p ∈ posts (st.minors j), p.delayed_work_pending = true ∧ p.message.addr = x.addr)
    (hs : ∀ q ∈ session_posts m1.sessions,
      (∃ q0 ∈ session_posts (st.minors j).sessions, q0.message.addr = q.message.addr) ∨
        st.next_addr ≤ q.message.addr) :
    step_rel st st1 (trace_event.posted j x) where
  sess_from := sess_from_update h3 hs
  brk := h4
  posts_from := by
    intro i p hpi hpp
    rw [h3] at hpi
    by_cases hi : i = j
    · subst hi
      rw [Function.update_same] at hpi
      exact hp p hpi hpp
    · rw [Function.update_noteq hi] at hpi
      exact Or.inl hpi
  msgs := by
    refine ⟨?_, ?_⟩
    · rw [h3, Function.update_same]; exact hm
    · intro i hi
      rw [h3, Function.update_noteq hi]
  origin := by
    intro k y he
    cases he
    exact ho

theorem step_rel_detached {st st1 : driver} {j : Fin MAX_MINOR_NUMBER} {m1 : minor}
    {x : message}
    (h3 : st1.minors = Function.update st.minors j m1)
    (h4 : st.next_addr ≤ st1.next_addr)
    (hp : ∀ p ∈ posts m1, p.delayed_work_pending = true →
      p ∈ posts (st.minors j) ∨ st.next_addr ≤ p.message.addr)
    (hm : (st.minors j).messages = m1.messages ++ [x])
    (hs : ∀ q ∈ session_posts m1.sessions,
      (∃ q0 ∈ session_posts (st.minors j).sessions, q0.message.addr = q.message.addr) ∨
        st.next_addr ≤ q.message.addr) :
    step_rel st st1 (trace_event.detached j x) where
  sess_from := sess_from_update h3 hs
  brk := h4
  posts_from := by
    intro i p hpi hpp
    rw [h3] at hpi
    by_cases hi : i = j
    · subst hi
      rw [Function.update_same] at hpi
      exact hp p hpi hpp
    · rw [Function.update_noteq hi] at hpi
      exact Or.inl hpi
  msgs := by
    refine ⟨?_, ?_⟩
    · rw [h3, Function.update_same]; exact hm
    · intro i hi
      rw [h3, Function.update_noteq hi]
  origin := fun _ _ he => by cases he

theorem read_message_step {st : driver} {j : Fin MAX_MINOR_NUMBER} {m1 : minor}
    {pending_read : Option Nat} {len writable : Nat} {slack : List Nat} {r : read_outcome}
    (h : driver_inv st) (hne : (st.minors j).available_readings ≠ 0)
    (hr : read_message (st.minors j) pending_read len writable slack = some (r, m1)) :
    step_rel st (set_minor st j m1) (read_event j r) := by
  obtain ⟨init, last, hm, hnd, hc⟩ := inv_read_ready (h.2 j) hne
  rw [read_message_eq _ pending_read len writable slack init last hm hnd hc] at hr
  cases hlen : (if last.size < len then strlen (last.text ++ slack) else some len) with
  | none => rw [hlen] at hr; simp at hr
  | some len1 =>
    rw [hlen] at hr
    simp only [Option.map_some', Option.some.injEq, Prod.mk.injEq] at hr
    rw [← hr.1, ← hr.2]
    refine step_rel_detached (j := j) rfl (le_refl _) ?_ hm ?_
    · intro p hp _
      left
      rw [posts_after_read] at hp
      split at hp
      · exact (List.filter_sublist _).subset hp
      · exact hp
    · apply sess_from_subset
      intro q hq
      unfold minor_after_read at hq
      simp only at hq
      split at hq
      · unfold list_del_pending_write at hq
        rw [session_posts_map_filter] at hq
        exact (List.filter_sublist _).subset hq
      · exact hq

theorem session_posts_defer_perm (l : List session) (s : session) (a : Nat)
    (pw : pending_write) (hf : l.find? (fun x => x.addr == a) = some s)
    (hn : (l.map (fun x => x.addr)).Nodup) :
    (session_posts (update_session l a
      (fun x => { x with pending_writes := pw :: x.pending_writes }))).Perm
      (pw :: session_posts l) := by
  obtain ⟨l1, l2, hl, hs, h1, h2⟩ := find_session_split _ _ _ hf hn
  rw [hl, update_session_split l1 l2 s a _ hs h1 h2, session_posts_split, session_posts_split]
  simp only [List.cons_append]
  exact List.perm_middle

theorem session_posts_revoke_sub (l : List session) (s : session) (a : Nat)
    (hf : l.find? (fun x => x.addr == a) = some s)
    (hn : (l.map (fun x => x.addr)).Nodup) :
    (session_posts (update_session l a
      (fun x => { x with pending_writes := uncancelled s.pending_writes }))).Sublist
      (session_posts l) := by
  obtain ⟨l1, l2, hl, hs, h1, h2⟩ := find_session_split _ _ _ hf hn
  rw [hl, update_session_split l1 l2 s a _ hs h1 h2, session_posts_split, session_posts_split]
  exact List.Sublist.append_left (List.Sublist.append_right (uncancelled_sublist _) _) _

theorem session_posts_filter_sublist (l : List session) (q : session → Bool) :
    (session_posts (l.filter q)).Sublist (session_posts l) := by
  induction l with
  | nil => exact List.Sublist.refl _
  | cons s l ih =>
    rw [List.filter_cons]
    split
    · rw [session_posts_cons, session_posts_cons]
      exact List.Sublist.append_left ih _
    · rw [session_posts_cons]
      exact ih.trans (List.sublist_append_right _ _)

/-! ## Every step satisfies the step relation -/

theorem dev_open_step (st : driver) (i : Fin MAX_MINOR_NUMBER) :
    step_rel st (dev_open st i).2 trace_event.quiet :=
  step_rel_quiet (j := i) rfl (Nat.le_succ _) (fun _ hp _ => Or.inl hp) rfl
    (sess_from_subset (fun _ hq => hq))

theorem dev_release_step {st st2 : driver} {f : file} {r : Int} (h : driver_inv st)
    (he : dev_release st f = some (r, st2)) : step_rel st st2 trace_event.quiet := by
  unfold dev_release at he
  cases hcs : current_session st f with
  | none => rw [hcs] at he; simp at he
  | some s =>
    rw [hcs] at he
    simp only [Option.some.injEq, Prod.mk.injEq] at he
    rw [← he.2]
    refine step_rel_quiet (j := f.minor_number) rfl (le_refl _) ?_ rfl ?_
    · intro p hp _
      exact Or.inl ((posts_release_perm _ s f.private_data hcs
        (h.2 f.minor_number).sess_nodup).subset hp)
    · exact sess_from_subset (fun _ hq => (session_posts_filter_sublist _ _).subset hq)

theorem dev_flush_step (st : driver) (f : file) :
    step_rel st (dev_flush st f).2 trace_event.quiet := by
  have e : (flush_sessions (st.minors f.minor_number).sessions 0).1 =
      (st.minors f.minor_number).sessions.map strip_session := by
    rw [flush_sessions_eq _ _ (by norm_num)]
  refine step_rel_quiet (j := f.minor_number) rfl (le_refl _) ?_ rfl ?_
  · intro p hp _
    left
    rw [e, posts_flush_eq] at hp
    exact (List.Sublist.append_right (uncancelled_sublist _) _).subset hp
  · apply sess_from_subset
    intro q hq
    have hq2 : q ∈ session_posts (flush_sessions (st.minors f.minor_number).sessions 0).1 := hq
    rw [e, session_posts_strip] at hq2
    exact (uncancelled_sublist _).subset hq2

theorem dev_write_step {st st2 : driver} {f : file} {buff : List Nat} {len : Nat}
    {r : write_result} (h : driver_inv st)
    (he : dev_write st f buff len = some (r, st2)) :
    step_rel st st2
      (if r.log = audit.write_done then
        trace_event.posted f.minor_number
          { addr := st.next_addr, is_delayed := false, size := len,
            text := copy_from_user_text buff len }
       else trace_event.quiet) := by
  unfold dev_write at he
  by_cases h1 : len > size_t_of_int st.max_message_size
  · rw [if_pos h1] at he
    simp only [Option.some.injEq, Prod.mk.injEq] at he
    rw [← he.1, ← he.2]
    exact step_rel_refl st
  · rw [if_neg h1] at he
    dsimp only at he
    by_cases h2 : size_add (st.minors f.minor_number).storage_size len >
        size_t_of_int st.max_storage_size
    · rw [if_pos h2] at he
      simp only [Option.some.injEq, Prod.mk.injEq] at he
      rw [← he.1, ← he.2]
      exact step_rel_refl st
    · rw [if_neg h2] at he
      cases hcs : current_session st f with
      | none => rw [hcs] at he; simp at he
      | some s =>
        rw [hcs] at he
        simp only at he
        by_cases h3 : int_of_long s.send_timeout = 0
        · rw [if_pos h3] at he
          simp only [Option.some.injEq, Prod.mk.injEq] at he
          rw [← he.1, ← he.2]
          exact step_rel_posted (j := f.minor_number) rfl (Nat.le_succ _)
            (fun _ hp _ => Or.inl hp) rfl (Or.inl (le_refl _))
            (sess_from_subset (fun _ hq => hq))
        · rw [if_neg h3] at he
          simp only [Option.some.injEq, Prod.mk.injEq] at he
          rw [← he.1, ← he.2]
          refine step_rel_quiet (j := f.minor_number) rfl (by simp) ?_ rfl ?_
          · intro p hp _
            have hperm := posts_defer_perm (st.minors f.minor_number) s f.private_data
              (size_add (st.minors f.minor_number).storage_size len)
              { delayed_work_pending := true,
                message := { addr := st.next_addr + 1, is_delayed := true, size := len,
                             text := copy_from_user_text buff len },
                minor_number := f.minor_number } hcs (h.2 f.minor_number).sess_nodup
            rcases List.mem_cons.mp (hperm.subset hp) with rfl | hp
            · right; simp
            · left; exact hp
          · intro q hq
            have hperm := session_posts_defer_perm (st.minors f.minor_number).sessions s
              f.private_data
              { delayed_work_pending := true,
                message := { addr := st.next_addr + 1, is_delayed := true, size := len,
                             text := copy_from_user_text buff len },
                minor_number := f.minor_number } hcs (h.2 f.minor_number).sess_nodup
            rcases List.mem_cons.mp (hperm.subset hq) with rfl | hq
            · right; simp
            · exact Or.inl ⟨q, hq, rfl⟩

theorem dev_read_step {st st2 : driver} {f : file} {len writable : Nat} {slack : List Nat}
    {r : read_outcome} (h : driver_inv st)
    (he : dev_read st f len writable slack = some (r, st2)) :
    step_rel st st2 (read_event f.minor_number r) := by
  unfold dev_read at he
  cases hcs : current_session st f with
  | none => rw [hcs] at he; simp at he
  | some s =>
    rw [hcs] at he
    simp only at he
    by_cases h1 : (st.minors f.minor_number).available_readings = 0
    · rw [if_pos h1] at he
      by_cases h2 : s.recv_timeout = 0
      · rw [if_pos h2] at he
        simp only [Option.some.injEq, Prod.mk.injEq] at he
        rw [← he.1, ← he.2]
        exact step_rel_refl st
      · rw [if_neg h2] at he
        simp only [Option.some.injEq, Prod.mk.injEq] at he
        rw [← he.1, ← he.2]
        exact step_rel_quiet (j := f.minor_number) rfl (Nat.le_succ _)
          (fun _ hp _ => Or.inl hp) rfl (sess_from_subset (fun _ hq => hq))
    · rw [if_neg h1] at he
      cases hr : read_message (st.minors f.minor_number) none len writable slack with
      | none => rw [hr] at he; simp at he
      | some p =>
        obtain ⟨r1, m1⟩ := p
        rw [hr] at he
        simp only [Option.some.injEq, Prod.mk.injEq] at he
        rw [← he.1, ← he.2]
        exact read_message_step h h1 hr

theorem dev_read_wake_step {st st2 : driver} {f : file} {pending_read : Nat}
    {recv_timeout wait_outcome : Int} {len writable : Nat} {slack : List Nat}
    {r : read_outcome} (h : driver_inv st)
    (he : dev_read_wake st f pending_read recv_timeout wait_outcome len writable slack =
      some (r, st2)) : step_rel st st2 (read_event f.minor_number r) := by
  unfold dev_read_wake at he
  dsimp only at he
  cases hpr : (st.minors f.minor_number).pending_readings.find?
      (fun r => r.addr == pending_read) with
  | none => rw [hpr] at he; simp at he
  | some pr =>
    rw [hpr] at he
    simp only at he
    by_cases h0 : wait_outcome = 0
    · rw [if_pos h0] at he
      simp only [Option.some.injEq, Prod.mk.injEq] at he
      rw [← he.1, ← he.2]
      exact step_rel_quiet (j := f.minor_number) rfl (le_refl _)
        (fun _ hp _ => Or.inl hp) rfl (sess_from_subset (fun _ hq => hq))
    · rw [if_neg h0] at he
      by_cases hfl : pr.is_flushed = true
      · rw [if_pos hfl] at he
        simp only [Option.some.injEq, Prod.mk.injEq] at he
        rw [← he.1, ← he.2]
        exact step_rel_quiet (j := f.minor_number) rfl (le_refl _)
          (fun _ hp _ => Or.inl hp) rfl (sess_from_subset (fun _ hq => hq))
      · rw [if_neg hfl] at he
        by_cases h1 : (st.minors f.minor_number).available_readings = 0
        · rw [if_pos h1] at he
          simp only [Option.some.injEq, Prod.mk.injEq] at he
          rw [← he.1, ← he.2]
          exact step_rel_refl st
        · rw [if_neg h1] at he
          cases hr : read_message (st.minors f.minor_number) (some pending_read) len writable
              slack with
          | none => rw [hr] at he; simp at he
          | some p =>
            obtain ⟨r1, m1⟩ := p
            rw [hr] at he
            simp only [Option.some.injEq, Prod.mk.injEq] at he
            rw [← he.1, ← he.2]
            exact read_message_step h h1 hr

theorem dev_ioctl_step {st st2 : driver} {f : file} {command param : Nat} {r : Int}
    (h : driver_inv st) (he : dev_ioctl st f command param = some (r, st2)) :
    step_rel st st2 trace_event.quiet := by
  unfold dev_ioctl at he
  cases hcs : current_session st f with
  | none => rw [hcs] at he; simp at he
  | some s =>
    rw [hcs] at he
    simp only at he
    by_cases h1 : command = SET_SEND_TIMEOUT
    · rw [if_pos h1] at he
      simp only [Option.some.injEq, Prod.mk.injEq] at he
      rw [← he.2]
      have e := update_session_posts_same (st.minors f.minor_number).sessions f.private_data
        (fun x => { x with send_timeout := long_of_ulong param }) (fun _ => rfl)
      refine step_rel_quiet (j := f.minor_number) rfl (le_refl _) ?_ rfl ?_
      · intro p hp _
        left
        unfold posts at hp ⊢
        simp only [e] at hp
        exact hp
      · apply sess_from_subset
        intro q hq
        simp only [e] at hq
        exact hq
    · rw [if_neg h1] at he
      by_cases h2 : command = SET_RECV_TIMEOUT
      · rw [if_pos h2] at he
        simp only [Option.some.injEq, Prod.mk.injEq] at he
        rw [← he.2]
        have e := update_session_posts_same (st.minors f.minor_number).sessions f.private_data
          (fun x => { x with recv_timeout := long_of_ulong param }) (fun _ => rfl)
        refine step_rel_quiet (j := f.minor_number) rfl (le_refl _) ?_ rfl ?_
        · intro p hp _
          left
          unfold posts at hp ⊢
          simp only [e] at hp
          exact hp
        · apply sess_from_subset
          intro q hq
          simp only [e] at hq
          exact hq
      · rw [if_neg h2] at he
        by_cases h3 : command = REVOKE_DELAYED_MESSAGES
        · rw [if_pos h3] at he
          simp only [Option.some.injEq, Prod.mk.injEq] at he
          rw [← he.2]
          refine step_rel_quiet (j := f.minor_number) rfl (le_refl _) ?_ rfl ?_
          · intro p hp _
            left
            rw [cancel_pending_writes_eq _ _ (by norm_num)] at hp
            obtain ⟨l1, l2, hposts, hposts2⟩ := posts_revoke_eq (st.minors f.minor_number) s
              f.private_data
              (size_sub (st.minors f.minor_number).storage_size
                ((0 + scheduled_bytes s.pending_writes) % 18446744073709551616))
              hcs (h.2 f.minor_number).sess_nodup
            rw [hposts2] at hp
            rw [hposts]
            exact (List.Sublist.append_left
              (List.Sublist.append_right (uncancelled_sublist _) _) _).subset hp
          · apply sess_from_subset
            intro q hq
            rw [cancel_pending_writes_eq _ _ (by norm_num)] at hq
            exact (session_posts_revoke_sub _ s f.private_data hcs
              (h.2 f.minor_number).sess_nodup).subset hq
        · rw [if_neg h3] at he
          simp only [Option.some.injEq, Prod.mk.injEq] at he
          rw [← he.2]
          exact step_rel_refl st

theorem enqueue_message_step {st : driver} {pw : pending_write} (h : driver_inv st)
    (ha : timer_armed st pw = true) :
    step_rel st (enqueue_message st pw) (trace_event.posted pw.minor_number pw.message) := by
  obtain ⟨hp, hin⟩ := timer_armed_mem h ha
  refine step_rel_posted (j := pw.minor_number) rfl (le_refl _) ?_ rfl
    (Or.inr ⟨pw, hin, hp, rfl⟩) ?_
  · intro p hpm hpp
    left
    rw [posts_enqueue_eq] at hpm
    obtain ⟨q, hq2, rfl⟩ := List.mem_map.mp hpm
    have hqa : q.message.addr ≠ pw.message.addr := by
      intro he
      simp [work_done, he] at hpp
    have hwq : work_done pw.message.addr q = q := by simp [work_done, hqa]
    rw [hwq]
    exact hq2
  · intro q hq
    left
    have hq2 : q ∈ session_posts ((st.minors pw.minor_number).sessions.map (fun s =>
        { s with pending_writes := s.pending_writes.map (work_done pw.message.addr) })) := hq
    rw [session_posts_map_map] at hq2
    obtain ⟨q0, hq0, rfl⟩ := List.mem_map.mp hq2
    refine ⟨q0, hq0, ?_⟩
    unfold work_done
    split <;> rfl

theorem exec_step {st st2 : driver} {o : op} {e : trace_event} (h : driver_inv st)
    (he : exec st o = some (st2, e)) : step_rel st st2 e := by
  cases o with
  | do_open i =>
    simp only [exec, Option.some.injEq, Prod.mk.injEq] at he
    rw [← he.1, ← he.2]; exact dev_open_step st i
  | do_release f =>
    simp only [exec, Option.map_eq_some', Prod.mk.injEq] at he
    obtain ⟨⟨r, s⟩, hr, rfl, rfl⟩ := he
    exact dev_release_step h hr
  | do_write f buff len =>
    simp only [exec, Option.map_eq_some', Prod.mk.injEq] at he
    obtain ⟨⟨r, s⟩, hr, rfl, rfl⟩ := he
    exact dev_write_step h hr
  | do_read f len writable slack =>
    simp only [exec, Option.map_eq_some', Prod.mk.injEq] at he
    obtain ⟨⟨r, s⟩, hr, rfl, rfl⟩ := he
    exact dev_read_step h hr
  | do_wake f pr rt wo len writable slack =>
    simp only [exec, Option.map_eq_some', Prod.mk.injEq] at he
    obtain ⟨⟨r, s⟩, hr, rfl, rfl⟩ := he
    exact dev_read_wake_step h hr
  | do_ioctl f command param =>
    simp only [exec, Option.map_eq_some', Prod.mk.injEq] at he
    obtain ⟨⟨r, s⟩, hr, rfl, rfl⟩ := he
    exact dev_ioctl_step h hr
  | do_flush f =>
    simp only [exec, Option.some.injEq, Prod.mk.injEq] at he
    rw [← he.1, ← he.2]; exact dev_flush_step st f
  | do_timer pw =>
    simp only [exec] at he
    by_cases ha : timer_armed st pw = true
    · rw [if_pos ha] at he
      simp only [Option.some.injEq, Prod.mk.injEq] at he
      rw [← he.1, ← he.2]; exact enqueue_message_step h ha
    · rw [if_neg ha] at he; simp at he

/-! ## Traces -/

theorem run_cons {st st2 : driver} {o : op} {rest : List op} {es : List trace_event}
    (hr : run st (o :: rest) = some (st2, es)) :
    ∃ st1 e es1, exec st o = some (st1, e) ∧ run st1 rest = some (st2, es1) ∧
      es = e :: es1 := by
  simp only [run] at hr
  cases he : exec st o with
  | none => rw [he] at hr; simp at hr
  | some p =>
    obtain ⟨st1, e⟩ := p
    rw [he] at hr
    simp only at hr
    cases hr2 : run st1 rest with
    | none => rw [hr2] at hr; simp at hr
    | some q =>
      obtain ⟨st3, es3⟩ := q
      rw [hr2] at hr
      simp only [Option.some.injEq, Prod.mk.injEq] at hr
      exact ⟨st1, e, es3, rfl, by rw [← hr.1]; exact hr2, hr.2.symm⟩

theorem posted_on_cons (i : Fin MAX_MINOR_NUMBER) (e : trace_event) (es : List trace_event) :
    posted_on i (e :: es) =
      (match e with
       | trace_event.posted j m => if j = i then [m] else []
       | _ => []) ++ posted_on i es := by
  cases e with
  | posted j m =>
    simp only [posted_on]
    split <;> simp
  | detached j m => simp [posted_on]
  | quiet => simp [posted_on]

theorem detached_on_cons (i : Fin MAX_MINOR_NUMBER) (e : trace_event) (es : List trace_event) :
    detached_on i (e :: es) =
      (match e with
       | trace_event.detached j m => if j = i then [m] else []
       | _ => []) ++ detached_on i es := by
  cases e with
  | posted j m => simp [detached_on]
  | detached j m =>
    simp only [detached_on]
    split <;> simp
  | quiet => simp [detached_on]

theorem run_queue {st st2 : driver} {ops : List op} {es : List trace_event}
    (h : driver_inv st) (hr : run st ops = some (st2, es)) (i : Fin MAX_MINOR_NUMBER) :
    detached_on i es ++ (st2.minors i).messages.reverse =
      (st.minors i).messages.reverse ++ posted_on i es := by
  induction ops generalizing st es with
  | nil =>
    simp only [run, Option.some.injEq, Prod.mk.injEq] at hr
    rw [← hr.1, ← hr.2]; simp [detached_on, posted_on]
  | cons o rest ih =>
    obtain ⟨st1, e, es1, he, hr1, rfl⟩ := run_cons hr
    have ih1 := ih (exec_inv h he) hr1
    have hs := (exec_step h he).msgs
    rw [posted_on_cons, detached_on_cons]
    cases e with
    | posted j m =>
      obtain ⟨hm1, hm2⟩ := hs
      by_cases hj : j = i
      · subst hj
        simp only [if_true, List.nil_append]
        rw [ih1, hm1]
        simp
      · simp only [if_neg hj, List.nil_append]
        rw [ih1, hm2 i (fun hc => hj hc.symm)]
    | detached j m =>
      obtain ⟨hm1, hm2⟩ := hs
      by_cases hj : j = i
      · subst hj
        simp only [if_true, List.nil_append]
        rw [hm1, List.append_assoc, ih1]
        simp
      · simp only [if_neg hj, List.nil_append]
        rw [ih1, hm2 i (fun hc => hj hc.symm)]
    | quiet =>
      simp only [List.nil_append]
      rw [ih1, hs i]

theorem run_origin {st st2 : driver} {ops : List op} {es : List trace_event}
    (h : driver_inv st) (hr : run st ops = some (st2, es)) (i : Fin MAX_MINOR_NUMBER) :
    ∀ x ∈ posted_on i es, st.next_addr ≤ x.addr ∨
      ∃ p ∈ posts (st.minors i), p.delayed_work_pending = true ∧ p.message.addr = x.addr := by
  induction ops generalizing st es with
  | nil =>
    simp only [run, Option.some.injEq, Prod.mk.injEq] at hr
    rw [← hr.2]; simp [posted_on]
  | cons o rest ih =>
    obtain ⟨st1, e, es1, he, hr1, rfl⟩ := run_cons hr
    have ih1 := ih (exec_inv h he) hr1
    have hs := exec_step h he
    intro x hx
    rw [posted_on_cons] at hx
    rcases List.mem_append.mp hx with hx | hx
    · cases e with
      | posted j m =>
        simp only at hx
        by_cases hj : j = i
        · subst hj
          simp only [if_true, List.mem_singleton] at hx
          subst hx
          exact hs.origin j x rfl
        · simp [hj] at hx
      | detached j m => simp at hx
      | quiet => simp at hx
    · rcases ih1 x hx with h1 | ⟨p, hp, hpp, hpa⟩
      · exact Or.inl (le_trans hs.brk h1)
      · rcases hs.posts_from i p hp hpp with h2 | h2
        · exact Or.inr ⟨p, h2, hpp, hpa⟩
        · left; rw [← hpa]; exact h2

theorem run_absent {st st2 : driver} {ops : List op} {es : List trace_event}
    (h : driver_inv st) (hr : run st ops = some (st2, es)) (i : Fin MAX_MINOR_NUMBER) :
    ∀ x ∈ posted_on i es, ∀ y ∈ (st.minors i).messages, y.addr ≠ x.addr := by
  intro x hx y hy
  rcases run_origin h hr i x hx with h1 | ⟨p, hp, hpp, hpa⟩
  · have := (h.2 i).msg_lt y hy
    omega
  · rw [← hpa]; exact (h.2 i).apart p hp hpp y hy

theorem run_nodup {st st2 : driver} {ops : List op} {es : List trace_event}
    (h : driver_inv st) (hr : run st ops = some (st2, es)) (i : Fin MAX_MINOR_NUMBER) :
    ((posted_on i es).map (fun x => x.addr)).Nodup := by
  induction ops generalizing st es with
  | nil =>
    simp only [run, Option.some.injEq, Prod.mk.injEq] at hr
    rw [← hr.2]; simp [posted_on]
  | cons o rest ih =>
    obtain ⟨st1, e, es1, he, hr1, rfl⟩ := run_cons hr
    have h1 := exec_inv h he
    have ih1 := ih h1 hr1
    have hs := (exec_step h he).msgs
    rw [posted_on_cons]
    cases e with
    | posted j m =>
      by_cases hj : j = i
      · subst hj
        simp only [if_true, List.singleton_append, List.map_cons, List.nodup_cons]
        refine ⟨?_, ih1⟩
        intro hmem
        obtain ⟨x, hx, hxa⟩ := List.mem_map.mp hmem
        have := run_absent h1 hr1 j x hx m (by rw [hs.1]; exact List.mem_cons_self _ _)
        exact this hxa.symm
      · simpa [hj] using ih1
    | detached j m => simpa using ih1
    | quiet => simpa using ih1

/-! ## Claims -/

/-- C1. The round trip fails on a payload with a zero byte: on a fresh minor, a write of the
three bytes `a`, 0, `b` through a session with `send_timeout = 0` returns 3, and the following
read with a buffer of 8 bytes returns 1 and stores the single byte `a`, whatever lies in
memory after the text (`dev_read` shortens the length to `strlen` of the text when the
message is smaller than the buffer). -/
theorem round_trip_fails_on_zero_byte :
    ∃ st es st1,
      run (install_driver 64 1280) [op.do_open 3] = some (st, es) ∧
      (st.minors 3).messages = [] ∧ (st.minors 3).storage_size = 0 ∧
      current_session st ⟨3, 1⟩ = some ⟨1, [], 0, 0⟩ ∧
      dev_write st ⟨3, 1⟩ [97, 0, 98] 3 =
        some ({ ret := 3, log := audit.write_done }, st1) ∧
      ∀ slack : List Nat, ∃ st2,
        dev_read st1 ⟨3, 1⟩ 8 8 slack =
          some (read_outcome.returned 1 [97] audit.read_done
            (some ⟨2, false, 3, [97, 0, 98]⟩), st2) := by
  refine ⟨_, _, _, rfl, rfl, rfl, rfl, rfl, ?_⟩
  intro slack
  exact ⟨_, rfl⟩

theorem scheduled_bytes_eq_filter (l : List pending_write) :
    scheduled_bytes l =
      ((l.filter (fun p => p.delayed_work_pending)).map (fun p => p.message.size)).sum := by
  induction l with
  | nil => rfl
  | cons p l ih =>
    rw [scheduled_bytes_cons, ih]
    by_cases hp : p.delayed_work_pending = true
    · simp [List.filter_cons, hp]
    · simp [List.filter_cons, hp]

theorem reach_inv {a b : Int} {ops : List op} {st : driver} {es : List trace_event}
    (ha : 0 ≤ a ∧ a < 2147483648) (hb : 0 ≤ b ∧ b < 2147483648)
    (hrun : run (install_driver a b) ops = some (st, es)) : driver_inv st :=
  run_inv (install_driver_inv a b ha hb) hrun

/-- C2. In every execution from the installed driver (module parameters non-negative
`int`s), on every minor: the messages detached by reads so far, followed by the messages
still in the list from the oldest to the newest, are exactly the messages posted so far (by
immediate writes and timer expiries) in posting order, so the k-th successful read returns
the k-th posted message; the posted messages are pairwise distinct objects, hence no message
is detached by two reads; a read step detaches the last (oldest) element of the list and a
posting step inserts at its front. -/
theorem fifo_delivery (a b : Int) (ha : 0 ≤ a ∧ a < 2147483648)
    (hb : 0 ≤ b ∧ b < 2147483648) (ops : List op) (st : driver) (es : List trace_event)
    (hrun : run (install_driver a b) ops = some (st, es)) (i : Fin MAX_MINOR_NUMBER) :
    detached_on i es ++ (st.minors i).messages.reverse = posted_on i es ∧
    ((posted_on i es).map (fun x => x.addr)).Nodup ∧
    ((detached_on i es).map (fun x => x.addr)).Nodup ∧
    (∀ o st2 m, exec st o = some (st2, trace_event.detached i m) →
      (st.minors i).messages = (st2.minors i).messages ++ [m]) ∧
    (∀ o st2 m, exec st o = some (st2, trace_event.posted i m) →
      (st2.minors i).messages = m :: (st.minors i).messages) := by
  have h0 := install_driver_inv a b ha hb
  have hinv := reach_inv ha hb hrun
  have hq : detached_on i es ++ (st.minors i).messages.reverse = posted_on i es := by
    have := run_queue h0 hrun i
    simpa [install_driver, empty_minor] using this
  have hn := run_nodup h0 hrun i
  refine ⟨hq, hn, ?_, ?_, ?_⟩
  · rw [← hq, List.map_append] at hn
    exact (List.nodup_append.mp hn).1
  · intro o st2 m he
    exact (exec_step hinv he).msgs.1
  · intro o st2 m he
    exact (exec_step hinv he).msgs.1

/-- Witness for C2: three immediate writes interleaved with two reads on minor 3. -/
theorem fifo_delivery_witness :
    ∃ st es,
      run (install_driver 64 1280)
        [op.do_open 3, op.do_write ⟨3, 1⟩ [1] 1, op.do_write ⟨3, 1⟩ [2] 1,
         op.do_read ⟨3, 1⟩ 1 1 [], op.do_write ⟨3, 1⟩ [3] 1, op.do_read ⟨3, 1⟩ 1 1 []] =
        some (st, es) ∧
      detached_on 3 es = [⟨2, false, 1, [1]⟩, ⟨3, false, 1, [2]⟩] ∧
      (st.minors 3).messages = [⟨4, false, 1, [3]⟩] ∧
      detached_on 3 es ++ (st.minors 3).messages.reverse = posted_on 3 es := by
  refine ⟨_, _, rfl, rfl, rfl, ?_⟩
  exact (fifo_delivery 64 1280 (by decide) (by decide)
    [op.do_open 3, op.do_write ⟨3, 1⟩ [1] 1, op.do_write ⟨3, 1⟩ [2] 1,
     op.do_read ⟨3, 1⟩ 1 1 [], op.do_write ⟨3, 1⟩ [3] 1, op.do_read ⟨3, 1⟩ 1 1 []]
    _ _ rfl 3).1

/-- C3. In every state reachable from the installed driver (module parameters non-negative
`int`s) by any sequence of open, release, write, read (with its wake-ups), ioctl, flush and
timer steps, the storage size of every minor is the sum of the sizes of its published
messages plus the sum of the payload sizes of the pending writes targeting it that are still
scheduled (neither published nor cancelled), whether their session is still registered or
has been closed; the pending writes recorded for a minor all target that minor. -/
theorem storage_accounting (a b : Int) (ha : 0 ≤ a ∧ a < 2147483648)
    (hb : 0 ≤ b ∧ b < 2147483648) (ops : List op) (st : driver) (es : List trace_event)
    (hrun : run (install_driver a b) ops = some (st, es)) (i : Fin MAX_MINOR_NUMBER) :
    (st.minors i).storage_size =
      ((st.minors i).messages.map (fun x => x.size)).sum +
      (((posts (st.minors i)).filter (fun p => p.delayed_work_pending)).map
        (fun p => p.message.size)).sum ∧
    (∀ j, ∀ p ∈ posts (st.minors j), p.minor_number = j) := by
  have hinv := reach_inv ha hb hrun
  refine ⟨?_, fun j => (hinv.2 j).target⟩
  rw [← scheduled_bytes_eq_filter]
  exact (hinv.2 i).storage

/-- Witness for C3: one published message, one fired and one still scheduled pending
write. -/
theorem storage_accounting_witness :
    ∃ st es,
      run (install_driver 64 1280)
        [op.do_open 3, op.do_write ⟨3, 1⟩ [104, 105] 2,
         op.do_ioctl ⟨3, 1⟩ SET_SEND_TIMEOUT 100, op.do_write ⟨3, 1⟩ [88] 1,
         op.do_write ⟨3, 1⟩ [89, 90, 91] 3,
         op.do_timer ⟨true, ⟨4, true, 1, [88]⟩, 3⟩] = some (st, es) ∧
      (st.minors 3).storage_size = 6 ∧
      (st.minors 3).storage_size =
        ((st.minors 3).messages.map (fun x => x.size)).sum +
        (((posts (st.minors 3)).filter (fun p => p.delayed_work_pending)).map
          (fun p => p.message.size)).sum := by
  refine ⟨_, _, rfl, rfl, ?_⟩
  exact (storage_accounting 64 1280 (by decide) (by decide)
    [op.do_open 3, op.do_write ⟨3, 1⟩ [104, 105] 2,
     op.do_ioctl ⟨3, 1⟩ SET_SEND_TIMEOUT 100, op.do_write ⟨3, 1⟩ [88] 1,
     op.do_write ⟨3, 1⟩ [89, 90, 91] 3,
     op.do_timer ⟨true, ⟨4, true, 1, [88]⟩, 3⟩] _ _ rfl 3).1

theorem dev_write_accepted (st : driver) (f : file) (buff : List Nat) (len : Nat)
    (s : session) (hcs : current_session st f = some s)
    (h1 : ¬ len > size_t_of_int st.max_message_size)
    (h2 : ¬ size_add (st.minors f.minor_number).storage_size len >
      size_t_of_int st.max_storage_size) :
    ∃ r st2, dev_write st f buff len = some (r, st2) ∧ 0 ≤ r.ret ∧
      (r.log = audit.write_done ∨ r.log = audit.write_deferred) ∧
      (st2.minors f.minor_number).storage_size =
        size_add (st.minors f.minor_number).storage_size len := by
  unfold dev_write
  rw [if_neg h1]
  dsimp only
  rw [if_neg h2, hcs]
  dsimp only
  by_cases h3 : int_of_long s.send_timeout = 0
  · rw [if_pos h3]
    refine ⟨_, _, rfl, ?_, Or.inl rfl, ?_⟩
    · show (0 : Int) ≤ (len : Int) - ((copy_from_user buff len : Nat) : Int)
      unfold copy_from_user
      omega
    · simp [set_minor, post_message]
  · rw [if_neg h3]
    refine ⟨_, _, rfl, le_refl _, Or.inr rfl, ?_⟩
    simp [set_minor]

/-- C4. A write of `len ≤ max_message_size` bytes on a minor whose storage size plus `len`
exceeds `max_storage_size` returns -1 with the audit line of the space check and leaves the
whole driver state (storage size, message list, available readings, pending writes) as it
was; when storage size plus `len` is within `max_storage_size` and the session is registered,
the write is accepted: it returns a non-negative value and adds `len` to the storage size.
The module parameters are non-negative `int`s and the `size_t` sum does not wrap. -/
theorem write_no_space (st : driver) (f : file) (buff : List Nat) (len : Nat)
    (hp : params_ok st) (hlen : (len : Int) ≤ st.max_message_size)
    (hwrap : (st.minors f.minor_number).storage_size + len < 18446744073709551616) :
    ((((st.minors f.minor_number).storage_size + len : Nat) : Int) > st.max_storage_size →
      dev_write st f buff len =
        some ({ ret := -1, log := audit.write_no_space }, st)) ∧
    ((((st.minors f.minor_number).storage_size + len : Nat) : Int) ≤ st.max_storage_size →
      ∀ s, current_session st f = some s →
        ∃ r st2, dev_write st f buff len = some (r, st2) ∧ 0 ≤ r.ret ∧
          r.log ≠ audit.write_no_space ∧
          (st2.minors f.minor_number).storage_size =
            (st.minors f.minor_number).storage_size + len) := by
  obtain ⟨p1, p2, p3, p4⟩ := hp
  have e1 := size_t_of_int_eq _ p1 p2
  have e2 := size_t_of_int_eq _ p3 p4
  have hadd := size_add_eq _ _ hwrap
  have h1 : ¬ len > size_t_of_int st.max_message_size := by omega
  constructor
  · intro hgt
    unfold dev_write
    rw [if_neg h1]
    dsimp only
    rw [if_pos (by rw [hadd]; omega)]
  · intro hle s hcs
    obtain ⟨r, st2, hw, hr, hlog, hst⟩ := dev_write_accepted st f buff len s hcs h1
      (by rw [hadd]; omega)
    refine ⟨r, st2, hw, hr, ?_, by rw [hst, hadd]⟩
    rcases hlog with h | h <;> rw [h] <;> decide

/-- Witness for C4: the endpoint is filled with twenty messages of 64 bytes, the next write
fails. -/
theorem write_no_space_witness :
    ∃ st es,
      run (install_driver 64 1280)
        (op.do_open 3 :: List.replicate 20 (op.do_write ⟨3, 1⟩ (List.replicate 64 7) 64)) =
        some (st, es) ∧
      (st.minors 3).storage_size = 1280 ∧
      dev_write st ⟨3, 1⟩ (List.replicate 64 7) 64 =
        some ({ ret := -1, log := audit.write_no_space }, st) := by
  refine ⟨_, _, rfl, rfl, ?_⟩
  exact (write_no_space _ ⟨3, 1⟩ (List.replicate 64 7) 64
    ⟨by decide, by decide, by decide, by decide⟩ (by decide) (by decide)).1 (by decide)

/-- C5. A write is rejected with the audit line of the length check exactly when
`len > max_message_size`, and then the driver state is unchanged; a write of exactly
`max_message_size` bytes through a registered session is accepted (non-negative return value)
when the storage size plus `max_message_size` is within `max_storage_size`; a write of
`max_message_size + 1` bytes is rejected. The module parameters are non-negative `int`s. -/
theorem write_too_large (st : driver) (f : file) (buff : List Nat) (len : Nat)
    (hp : params_ok st) :
    ((len : Int) > st.max_message_size →
      dev_write st f buff len = some ({ ret := -1, log := audit.write_too_long }, st)) ∧
    (∀ r st2, dev_write st f buff len = some (r, st2) → r.log = audit.write_too_long →
      (len : Int) > st.max_message_size) ∧
    ((len : Int) = st.max_message_size →
      (((st.minors f.minor_number).storage_size + len : Nat) : Int) ≤ st.max_storage_size →
      ∀ s, current_session st f = some s →
        ∃ r st2, dev_write st f buff len = some (r, st2) ∧ 0 ≤ r.ret ∧
          (r.log = audit.write_done ∨ r.log = audit.write_deferred)) ∧
    ((len : Int) = st.max_message_size + 1 →
      dev_write st f buff len = some ({ ret := -1, log := audit.write_too_long }, st)) := by
  obtain ⟨p1, p2, p3, p4⟩ := hp
  have e1 := size_t_of_int_eq _ p1 p2
  have e2 := size_t_of_int_eq _ p3 p4
  have hrej : (len : Int) > st.max_message_size →
      dev_write st f buff len = some ({ ret := -1, log := audit.write_too_long }, st) := by
    intro hgt
    unfold dev_write
    rw [if_pos (by omega)]
  refine ⟨hrej, ?_, ?_, fun h => hrej (by omega)⟩
  · intro r st2 hw hlog
    by_contra hle
    have h1 : ¬ len > size_t_of_int st.max_message_size := by omega
    unfold dev_write at hw
    rw [if_neg h1] at hw
    dsimp only at hw
    by_cases h2 : size_add (st.minors f.minor_number).storage_size len >
        size_t_of_int st.max_storage_size
    · rw [if_pos h2] at hw
      simp only [Option.some.injEq, Prod.mk.injEq] at hw
      rw [← hw.1] at hlog
      exact absurd hlog (by decide)
    · rw [if_neg h2] at hw
      cases hcs : current_session st f with
      | none => rw [hcs] at hw; simp at hw
      | some s =>
        obtain ⟨r1, st3, hw1, _, hlog1, _⟩ := dev_write_accepted st f buff len s hcs h1 h2
        unfold dev_write at hw1
        rw [if_neg h1] at hw1
        dsimp only at hw1
        rw [if_neg h2] at hw1
        rw [hw1] at hw
        simp only [Option.some.injEq, Prod.mk.injEq] at hw
        rw [← hw.1] at hlog
        rcases hlog1 with h | h <;> rw [h] at hlog <;> exact absurd hlog (by decide)
  · intro heq hle s hcs
    have hadd := size_add_eq (st.minors f.minor_number).storage_size len (by omega)
    obtain ⟨r, st2, hw, hr, hlog, _⟩ := dev_write_accepted st f buff len s hcs (by omega)
      (by rw [hadd]; omega)
    exact ⟨r, st2, hw, hr, hlog⟩

/-- Witness for C5: a write of 65 bytes with the default limit of 64. -/
theorem write_too_large_witness :
    dev_write (dev_open (install_driver 64 1280) 3).2 ⟨3, 1⟩ (List.replicate 65 7) 65 =
      some ({ ret := -1, log := audit.write_too_long },
        (dev_open (install_driver 64 1280) 3).2) :=
  (write_too_large (dev_open (install_driver 64 1280) 3).2 ⟨3, 1⟩ (List.replicate 65 7) 65
    ⟨by decide, by decide, by decide, by decide⟩).1 (by decide)

theorem dev_read_available (st : driver) (f : file) (s : session) (len writable : Nat)
    (slack : List Nat) (hcs : current_session st f = some s)
    (hne : (st.minors f.minor_number).available_readings ≠ 0) :
    dev_read st f len writable slack =
      (read_message (st.minors f.minor_number) none len writable slack).map
        (fun p => (p.1, set_minor st f.minor_number p.2)) := by
  unfold dev_read
  rw [hcs]
  dsimp only
  rw [if_neg hne]
  cases read_message (st.minors f.minor_number) none len writable slack with
  | none => rfl
  | some p => rfl

theorem dev_read_wake_available (st : driver) (f : file) (pending_read : Nat)
    (pr : TimedMessaging.pending_read) (recv_timeout wait_outcome : Int) (len writable : Nat)
    (slack : List Nat)
    (hpr : (st.minors f.minor_number).pending_readings.find?
      (fun r => r.addr == pending_read) = some pr)
    (hw : wait_outcome ≠ 0) (hfl : pr.is_flushed = false)
    (hne : (st.minors f.minor_number).available_readings ≠ 0) :
    dev_read_wake st f pending_read recv_timeout wait_outcome len writable slack =
      (read_message (st.minors f.minor_number) (some pending_read) len writable slack).map
        (fun p => (p.1, set_minor st f.minor_number p.2)) := by
  unfold dev_read_wake
  dsimp only
  rw [hpr]
  dsimp only
  rw [if_neg hw, if_neg (by simp [hfl]), if_neg hne]
  cases read_message (st.minors f.minor_number) (some pending_read) len writable slack with
  | none => rfl
  | some p => rfl

theorem find_session_after_update (l1 l2 : List session) (s : session) (a : Nat)
    (hs : s.addr = a) (h1 : ∀ x ∈ l1, x.addr ≠ a) :
    (l1 ++ s :: l2).find? (fun x => x.addr == a) = some s := by
  induction l1 with
  | nil => simp [hs]
  | cons y l ih =>
    have hy : (y.addr == a) = false := by simpa using h1 y (List.mem_cons_self _ _)
    rw [List.cons_append, List.find?_cons, hy]
    exact ih (fun x hx => h1 x (List.mem_cons_of_mem _ hx))

theorem dev_ioctl_revoke (st : driver) (f : file) (s : session) (param : Nat)
    (hcs : current_session st f = some s) :
    dev_ioctl st f REVOKE_DELAYED_MESSAGES param =
      some (0, set_minor st f.minor_number
        { st.minors f.minor_number with
          sessions := update_session (st.minors f.minor_number).sessions f.private_data
            (fun x => { x with pending_writes := (cancel_pending_writes s.pending_writes 0).1 }),
          storage_size := size_sub (st.minors f.minor_number).storage_size
            (cancel_pending_writes s.pending_writes 0).2 }) := by
  unfold dev_ioctl
  rw [hcs]
  dsimp only
  rw [if_neg (by decide), if_neg (by decide), if_pos rfl]

/-- C7. In every reachable state, the ioctl command that revokes the delayed messages,
issued through a registered session, returns 0; it removes from the pending writes of that
session exactly those whose work is still pending and keeps the others (the registry is
otherwise unchanged); the storage size of the minor decreases by exactly the sum of the sizes
of the removed pending writes; the message list and the available readings are unchanged;
and in no continuation of the execution is a message carrying the address of a removed
pending write posted on the minor. -/
theorem revoke_pending (a b : Int) (ha : 0 ≤ a ∧ a < 2147483648)
    (hb : 0 ≤ b ∧ b < 2147483648) (ops : List op) (st : driver) (es : List trace_event)
    (hrun : run (install_driver a b) ops = some (st, es))
    (f : file) (s : session) (hcs : current_session st f = some s) (param : Nat) :
    ∃ st2,
      dev_ioctl st f REVOKE_DELAYED_MESSAGES param = some (0, st2) ∧
      (∃ l1 l2, (st.minors f.minor_number).sessions = l1 ++ s :: l2 ∧
        (st2.minors f.minor_number).sessions = l1 ++
          { s with pending_writes := s.pending_writes.filter (fun p => !p.delayed_work_pending) }
            :: l2) ∧
      current_session st2 f = some
        { s with pending_writes := s.pending_writes.filter (fun p => !p.delayed_work_pending) } ∧
      (st2.minors f.minor_number).storage_size +
        ((s.pending_writes.filter (fun p => p.delayed_work_pending)).map
          (fun p => p.message.size)).sum = (st.minors f.minor_number).storage_size ∧
      (st2.minors f.minor_number).messages = (st.minors f.minor_number).messages ∧
      (st2.minors f.minor_number).available_readings =
        (st.minors f.minor_number).available_readings ∧
      (∀ pw ∈ s.pending_writes, pw.delayed_work_pending = true →
        ∀ ops2 st3 es2, run st2 ops2 = some (st3, es2) →
          ∀ x ∈ posted_on f.minor_number es2, x.addr ≠ pw.message.addr) := by
  have hinv := reach_inv ha hb hrun
  have hmi := hinv.2 f.minor_number
  have hcap := params_cap hinv.1
  have hio := dev_ioctl_revoke st f s param hcs
  have hce := cancel_pending_writes_eq s.pending_writes 0 (by norm_num)
  rw [hce] at hio
  simp only [Nat.zero_add] at hio
  have hinv2 := dev_ioctl_inv hinv hio
  obtain ⟨l1, l2, hl, hs, h1, h2⟩ := find_session_split _ _ _ hcs hmi.sess_nodup
  obtain ⟨q1, q2, hposts, hposts2⟩ := posts_revoke_eq (st.minors f.minor_number) s
    f.private_data (size_sub (st.minors f.minor_number).storage_size
      (scheduled_bytes s.pending_writes % 18446744073709551616)) hcs hmi.sess_nodup
  have hst := hmi.storage
  have hbd := hmi.bound
  rw [hposts] at hst
  simp only [scheduled_bytes_append] at hst
  have hmod : scheduled_bytes s.pending_writes % 18446744073709551616 =
      scheduled_bytes s.pending_writes := Nat.mod_eq_of_lt (by omega)
  have hsz : size_sub (st.minors f.minor_number).storage_size
      (scheduled_bytes s.pending_writes % 18446744073709551616) =
      (st.minors f.minor_number).storage_size - scheduled_bytes s.pending_writes := by
    rw [hmod]; exact size_sub_eq _ _ (by omega) (by omega)
  have hsess : update_session (st.minors f.minor_number).sessions f.private_data
      (fun x => { x with pending_writes := uncancelled s.pending_writes }) =
      l1 ++ { s with pending_writes := uncancelled s.pending_writes } :: l2 := by
    rw [hl, update_session_split l1 l2 s f.private_data _ hs h1 h2]
  have hfind : (l1 ++ { s with pending_writes := uncancelled s.pending_writes } :: l2).find?
      (fun x => x.addr == f.private_data) =
      some { s with pending_writes := uncancelled s.pending_writes } :=
    find_session_after_update l1 l2 _ f.private_data hs h1
  refine ⟨_, hio, ⟨l1, l2, hl, ?_⟩, ?_, ?_, ?_, ?_, ?_⟩
  · simp only [set_minor, Function.update_same]
    exact hsess
  · unfold current_session
    simp only [set_minor, Function.update_same]
    rw [hsess]
    exact hfind
  · simp only [set_minor, Function.update_same]
    rw [hsz, ← scheduled_bytes_eq_filter]
    omega
  · simp [set_minor]
  · simp [set_minor]
  · intro pw hpw hpend ops2 st3 es2 hrun2 x hx
    have hpw_posts : pw ∈ posts (st.minors f.minor_number) := by
      rw [hposts]
      exact List.mem_append_right _ (List.mem_append_left _ hpw)
    have hlt := hmi.post_lt pw hpw_posts
    have hnd := hmi.post_nodup
    rw [hposts, List.map_append, List.map_append, List.nodup_append] at hnd
    obtain ⟨_, hnd2, hdis1⟩ := hnd
    rw [List.nodup_append] at hnd2
    obtain ⟨hnd3, _, hdis2⟩ := hnd2
    rcases run_origin hinv2 hrun2 f.minor_number x hx with hge | ⟨p, hp, hpp, hpa⟩
    · have : st.next_addr ≤ x.addr := hge
      omega
    · intro hxa
      have hp2 : p ∈ q1 ++ (uncancelled s.pending_writes ++ q2) := by
        have := hp
        simp only [set_minor, Function.update_same] at this
        rw [hposts2] at this
        exact this
      have hpaddr : p.message.addr = pw.message.addr := by rw [hpa, hxa]
      rcases List.mem_append.mp hp2 with hq | hq
      · exact hdis1 (List.mem_map.mpr ⟨p, hq, hpaddr⟩)
          (List.mem_append_left _ (List.mem_map.mpr ⟨pw, hpw, rfl⟩))
      · rcases List.mem_append.mp hq with hq | hq
        · have hmem := (List.mem_filter.mp hq).2
          simp [cancel_delayed_work, hpp] at hmem
        · exact hdis2 (List.mem_map.mpr ⟨pw, hpw, rfl⟩)
            (List.mem_map.mpr ⟨p, hq, hpaddr⟩)

/-- Witness for C7: a deferred write of one byte is revoked before its timer expires. -/
theorem revoke_pending_witness :
    ∃ st es,
      run (install_driver 64 1280)
        [op.do_open 3, op.do_ioctl ⟨3, 1⟩ SET_SEND_TIMEOUT 1000, op.do_write ⟨3, 1⟩ [65] 1] =
        some (st, es) ∧
      (st.minors 3).storage_size = 1 ∧
      ∃ st2, dev_ioctl st ⟨3, 1⟩ REVOKE_DELAYED_MESSAGES 0 = some (0, st2) ∧
        current_session st2 ⟨3, 1⟩ = some ⟨1, [], 1000, 0⟩ ∧
        (st2.minors 3).storage_size + 1 = 1 ∧
        (st2.minors 3).messages = [] := by
  refine ⟨_, _, rfl, rfl, ?_⟩
  obtain ⟨st2, h1, _, h3, h4, h5, _⟩ :=
    revoke_pending 64 1280 (by decide) (by decide)
      [op.do_open 3, op.do_ioctl ⟨3, 1⟩ SET_SEND_TIMEOUT 1000, op.do_write ⟨3, 1⟩ [65] 1]
      _ _ rfl ⟨3, 1⟩ ⟨1, [⟨true, ⟨3, true, 1, [65]⟩, 3⟩], 1000, 0⟩ rfl 0
  exact ⟨st2, h1, h3, h4, h5⟩

/-- C8. In every reachable state, flush on a minor returns 0; in every session registered on
the minor it removes exactly the pending writes whose work is still pending and keeps the
others; the storage size decreases by exactly the total size of the removed pending writes;
every pending read of the minor gets its flushed flag set (none is added or removed); the
message list and the available readings are unchanged; the other minors are unchanged. -/
theorem flush_endpoint (a b : Int) (ha : 0 ≤ a ∧ a < 2147483648)
    (hb : 0 ≤ b ∧ b < 2147483648) (ops : List op) (st : driver) (es : List trace_event)
    (hrun : run (install_driver a b) ops = some (st, es)) (f : file) :
    ∃ st2,
      dev_flush st f = (0, st2) ∧
      (st2.minors f.minor_number).sessions =
        (st.minors f.minor_number).sessions.map (fun s =>
          { s with pending_writes := s.pending_writes.filter (fun p => !p.delayed_work_pending) })
        ∧
      (st2.minors f.minor_number).storage_size +
        (((session_posts (st.minors f.minor_number).sessions).filter
          (fun p => p.delayed_work_pending)).map (fun p => p.message.size)).sum =
        (st.minors f.minor_number).storage_size ∧
      (st2.minors f.minor_number).pending_readings =
        (st.minors f.minor_number).pending_readings.map
          (fun r => { r with is_flushed := true }) ∧
      (∀ r ∈ (st2.minors f.minor_number).pending_readings, r.is_flushed = true) ∧
      (st2.minors f.minor_number).messages = (st.minors f.minor_number).messages ∧
      (st2.minors f.minor_number).available_readings =
        (st.minors f.minor_number).available_readings ∧
      (st2.minors f.minor_number).leaked = (st.minors f.minor_number).leaked ∧
      (∀ j, j ≠ f.minor_number → st2.minors j = st.minors j) := by
  have hinv := reach_inv ha hb hrun
  have hmi := hinv.2 f.minor_number
  have hcap := params_cap hinv.1
  have hfe := flush_sessions_eq (st.minors f.minor_number).sessions 0 (by norm_num)
  have hst := hmi.storage
  have hbd := hmi.bound
  unfold posts at hst
  rw [scheduled_bytes_append] at hst
  have hmod : (0 + scheduled_bytes (session_posts (st.minors f.minor_number).sessions)) %
      18446744073709551616 =
      scheduled_bytes (session_posts (st.minors f.minor_number).sessions) := by
    rw [Nat.zero_add]; exact Nat.mod_eq_of_lt (by omega)
  refine ⟨(dev_flush st f).2, rfl, ?_, ?_, ?_, ?_, ?_, ?_, ?_, ?_⟩
  · simp only [dev_flush, set_minor, Function.update_same, hfe]
    rfl
  · simp only [dev_flush, set_minor, Function.update_same, hfe, hmod]
    rw [size_sub_eq _ _ (by omega) (by omega), ← scheduled_bytes_eq_filter]
    omega
  · simp [dev_flush, set_minor]
  · intro r hr
    simp only [dev_flush, set_minor, Function.update_same, List.mem_map] at hr
    obtain ⟨r0, _, rfl⟩ := hr
    rfl
  · simp [dev_flush, set_minor]
  · simp [dev_flush, set_minor]
  · simp [dev_flush, set_minor]
  · intro j hj
    simp [dev_flush, set_minor, Function.update_noteq hj]

/-- Witness for C8: flush with one scheduled pending write and one blocked reader. -/
theorem flush_endpoint_witness :
    ∃ st es,
      run (install_driver 64 1280)
        [op.do_open 3, op.do_open 3, op.do_ioctl ⟨3, 1⟩ SET_SEND_TIMEOUT 100,
         op.do_ioctl ⟨3, 2⟩ SET_RECV_TIMEOUT 50, op.do_write ⟨3, 1⟩ [88, 89] 2,
         op.do_read ⟨3, 2⟩ 4 4 []] = some (st, es) ∧
      (st.minors 3).storage_size = 2 ∧
      (st.minors 3).pending_readings = [⟨5, false⟩] ∧
      ∃ st2, dev_flush st ⟨3, 2⟩ = (0, st2) ∧
        (st2.minors 3).storage_size + 2 = 2 ∧
        (st2.minors 3).pending_readings = [⟨5, true⟩] ∧
        ((st2.minors 3).sessions.map (fun s => s.pending_writes)) = [[], []] := by
  refine ⟨_, _, rfl, rfl, rfl, ?_⟩
  obtain ⟨st2, h1, h2, h4, h5, _⟩ :=
    flush_endpoint 64 1280 (by decide) (by decide)
      [op.do_open 3, op.do_open 3, op.do_ioctl ⟨3, 1⟩ SET_SEND_TIMEOUT 100,
       op.do_ioctl ⟨3, 2⟩ SET_RECV_TIMEOUT 50, op.do_write ⟨3, 1⟩ [88, 89] 2,
       op.do_read ⟨3, 2⟩ 4 4 []] _ _ rfl ⟨3, 2⟩
  refine ⟨st2, h1, h4, h5, ?_⟩
  rw [h2]
  rfl

/-- C9. Close does not return the storage reserved for still-scheduled pending writes. A
session holding one still-scheduled pending write of one byte is closed: the storage size of
the minor is 1 before and still 1 after `dev_release`, it has not decreased by the size of
the pending write, whereas `dev_flush` in the same state cancels the pending write and brings
the storage size to 0. -/
theorem close_keeps_storage_charged :
    ∃ st es st2,
      run (install_driver 64 1280)
        [op.do_open 3, op.do_ioctl ⟨3, 1⟩ SET_SEND_TIMEOUT 100, op.do_write ⟨3, 1⟩ [88] 1] =
        some (st, es) ∧
      current_session st ⟨3, 1⟩ = some ⟨1, [⟨true, ⟨3, true, 1, [88]⟩, 3⟩], 100, 0⟩ ∧
      dev_release st ⟨3, 1⟩ = some (0, st2) ∧
      (st.minors 3).storage_size = 1 ∧
      (st2.minors 3).storage_size = 1 ∧
      ¬ ((st2.minors 3).storage_size + 1 = (st.minors 3).storage_size) ∧
      ((dev_flush st ⟨3, 1⟩).2.minors 3).storage_size = 0 := by
  exact ⟨_, _, _, rfl, rfl, rfl, rfl, rfl, by decide, rfl⟩

/-- C10. A closed session leaves a pending write that is still scheduled. After open, a
deferred write and close, the pending write created through the closed session is still
allocated with its work pending and its timer armed: `dev_release` has neither waited for it
nor cancelled it, and its bytes stay charged to the minor. -/
theorem close_leaves_post_scheduled :
    ∃ st es,
      run (install_driver 64 1280)
        [op.do_open 3, op.do_ioctl ⟨3, 1⟩ SET_SEND_TIMEOUT 100, op.do_write ⟨3, 1⟩ [88] 1,
         op.do_release ⟨3, 1⟩] = some (st, es) ∧
      (st.minors 3).sessions = [] ∧
      (st.minors 3).leaked = [⟨true, ⟨3, true, 1, [88]⟩, 3⟩] ∧
      (st.minors 3).messages = [] ∧
      (st.minors 3).storage_size = 1 ∧
      timer_armed st ⟨true, ⟨3, true, 1, [88]⟩, 3⟩ = true := by
  exact ⟨_, _, rfl, rfl, rfl, rfl, rfl, rfl⟩

/-! ## Deferred publication -/

theorem timer_armed_of_mem {st : driver} {pw : pending_write} {s : session}
    (hp : pw.delayed_work_pending = true)
    (hs : s ∈ (st.minors pw.minor_number).sessions) (hpw : pw ∈ s.pending_writes) :
    timer_armed st pw = true := by
  unfold timer_armed
  rw [Bool.and_eq_true]
  refine ⟨hp, ?_⟩
  rw [List.any_eq_true]
  refine ⟨pw.minor_number, List.mem_finRange _, ?_⟩
  rw [Bool.or_eq_true, List.any_eq_true]
  exact Or.inl ⟨s, hs, by simpa using hpw⟩

theorem enqueue_message_effect (st : driver) (pw : pending_write) :
    ((enqueue_message st pw).minors pw.minor_number).messages =
        pw.message :: (st.minors pw.minor_number).messages ∧
      ((enqueue_message st pw).minors pw.minor_number).available_readings =
        int_add (st.minors pw.minor_number).available_readings 1 ∧
      ∀ i, ((enqueue_message st pw).minors i).storage_size = (st.minors i).storage_size := by
  unfold enqueue_message
  simp only [set_minor, post_message, Function.update_same, true_and]
  intro i
  by_cases hi : i = pw.minor_number
  · rw [hi, Function.update_same]
  · rw [Function.update_noteq hi]

/-- Deferred publication, for a session whose send timeout is not 0 as an `int`. In every
reachable state, a write of `len` bytes within both limits through such a session returns 0,
links one pending write carrying the payload at the head of the pending writes of the
session, adds `len` to the storage size and leaves the message list and the available
readings unchanged, so that a non-blocking read on a minor that was empty still fails; the
work of the pending write can then run, and whenever it runs the message becomes the first
(newest) element of the message list, the available readings grow by one (in `int`
arithmetic) and no storage size changes. -/
theorem deferred_write_publication (a b : Int) (ha : 0 ≤ a ∧ a < 2147483648)
    (hb : 0 ≤ b ∧ b < 2147483648) (ops : List op) (st : driver) (es : List trace_event)
    (hrun : run (install_driver a b) ops = some (st, es))
    (f : file) (s : session) (hcs : current_session st f = some s)
    (hdelay : int_of_long s.send_timeout ≠ 0)
    (buff : List Nat) (len : Nat) (hlen : (len : Int) ≤ st.max_message_size)
    (hroom : (((st.minors f.minor_number).storage_size + len : Nat) : Int) ≤
      st.max_storage_size) :
    ∃ st2 pw,
      dev_write st f buff len = some ({ ret := 0, log := audit.write_deferred }, st2) ∧
      pw.delayed_work_pending = true ∧ pw.minor_number = f.minor_number ∧
      pw.message.size = len ∧ pw.message.text = copy_from_user_text buff len ∧
      (len ≤ buff.length → pw.message.text = buff.take len) ∧
      current_session st2 f = some { s with pending_writes := pw :: s.pending_writes } ∧
      (st2.minors f.minor_number).storage_size =
        (st.minors f.minor_number).storage_size + len ∧
      (st2.minors f.minor_number).messages = (st.minors f.minor_number).messages ∧
      (st2.minors f.minor_number).available_readings =
        (st.minors f.minor_number).available_readings ∧
      ((st.minors f.minor_number).available_readings = 0 → s.recv_timeout = 0 →
        ∀ len2 writable slack, dev_read st2 f len2 writable slack =
          some (read_outcome.returned (-1) [] audit.read_no_messages none, st2)) ∧
      exec st2 (op.do_timer pw) =
        some (enqueue_message st2 pw, trace_event.posted f.minor_number pw.message) ∧
      (∀ st3 st4 e, exec st3 (op.do_timer pw) = some (st4, e) →
        (st4.minors f.minor_number).messages =
          pw.message :: (st3.minors f.minor_number).messages ∧
        (st4.minors f.minor_number).available_readings =
          int_add (st3.minors f.minor_number).available_readings 1 ∧
        ∀ i, (st4.minors i).storage_size = (st3.minors i).storage_size) := by
  have hinv := reach_inv ha hb hrun
  have hmi := hinv.2 f.minor_number
  have hcap := params_cap hinv.1
  obtain ⟨p1, p2, p3, p4⟩ := hinv.1
  have e1 := size_t_of_int_eq _ p1 p2
  have e2 := size_t_of_int_eq _ p3 p4
  have hbd := hmi.bound
  have hadd := size_add_eq (st.minors f.minor_number).storage_size len (by omega)
  obtain ⟨l1, l2, hl, hs, h1, h2⟩ := find_session_split _ _ _ hcs hmi.sess_nodup
  have hw : dev_write st f buff len = some ({ ret := 0, log := audit.write_deferred },
      { set_minor st f.minor_number
          { st.minors f.minor_number with
            storage_size := size_add (st.minors f.minor_number).storage_size len,
            sessions := update_session (st.minors f.minor_number).sessions f.private_data
              (fun x => { x with pending_writes :=
                ({ delayed_work_pending := true,
                   message := { addr := st.next_addr + 1, is_delayed := true, size := len,
                                text := copy_from_user_text buff len },
                   minor_number := f.minor_number } : pending_write) :: x.pending_writes }) }
        with next_addr := st.next_addr + 2 }) := by
    unfold dev_write
    rw [if_neg (by omega)]
    dsimp only
    rw [if_neg (by rw [hadd]; omega), hcs]
    dsimp only
    rw [if_neg hdelay]
  have hsess : update_session (st.minors f.minor_number).sessions f.private_data
      (fun x => { x with pending_writes :=
        ({ delayed_work_pending := true,
           message := { addr := st.next_addr + 1, is_delayed := true, size := len,
                        text := copy_from_user_text buff len },
           minor_number := f.minor_number } : pending_write) :: x.pending_writes }) =
      l1 ++ { s with pending_writes :=
        ({ delayed_work_pending := true,
           message := { addr := st.next_addr + 1, is_delayed := true, size := len,
                        text := copy_from_user_text buff len },
           minor_number := f.minor_number } : pending_write) :: s.pending_writes } :: l2 := by
    rw [hl, update_session_split l1 l2 s f.private_data _ hs h1 h2]
  have hcs2 : current_session
      { set_minor st f.minor_number
          { st.minors f.minor_number with
            storage_size := size_add (st.minors f.minor_number).storage_size len,
            sessions := update_session (st.minors f.minor_number).sessions f.private_data
              (fun x => { x with pending_writes :=
                ({ delayed_work_pending := true,
                   message := { addr := st.next_addr + 1, is_delayed := true, size := len,
                                text := copy_from_user_text buff len },
                   minor_number := f.minor_number } : pending_write) :: x.pending_writes }) }
        with next_addr := st.next_addr + 2 } f =
      some { s with pending_writes :=
        ({ delayed_work_pending := true,
           message := { addr := st.next_addr + 1, is_delayed := true, size := len,
                        text := copy_from_user_text buff len },
           minor_number := f.minor_number } : pending_write) :: s.pending_writes } := by
    unfold current_session
    simp only [set_minor, Function.update_same]
    rw [hsess]
    exact find_session_after_update l1 l2 _ f.private_data hs h1
  refine ⟨_, _, hw, rfl, rfl, rfl, rfl, ?_, hcs2, ?_, ?_, ?_, ?_, ?_, ?_⟩
  · intro hle
    simp [copy_from_user_text, hle]
  · simp only [set_minor, Function.update_same]
    exact hadd
  · simp only [set_minor, Function.update_same]
  · simp only [set_minor, Function.update_same]
  · intro h0 hr0 len2 writable slack
    unfold dev_read
    rw [hcs2]
    simp only [set_minor, Function.update_same]
    rw [if_pos h0, if_pos hr0]
  · simp only [exec]
    rw [if_pos]
    refine timer_armed_of_mem (s := { s with pending_writes :=
        ({ delayed_work_pending := true,
           message := { addr := st.next_addr + 1, is_delayed := true, size := len,
                        text := copy_from_user_text buff len },
           minor_number := f.minor_number } : pending_write) :: s.pending_writes }) rfl ?_ ?_
    · simp only [set_minor, Function.update_same]
      rw [hsess]
      simp
    · simp
  · intro st3 st4 e he
    simp only [exec] at he
    split at he
    · simp only [Option.some.injEq, Prod.mk.injEq] at he
      rw [← he.1]
      exact enqueue_message_effect st3 _
    · simp at he

/-- Example of deferred publication: a write of one byte through a session with a send
timeout of 100 ticks, on an empty minor. -/
theorem deferred_write_publication_example :
    ∃ st es,
      run (install_driver 64 1280)
        [op.do_open 3, op.do_ioctl ⟨3, 1⟩ SET_SEND_TIMEOUT 100] = some (st, es) ∧
      ∃ st2 pw,
        dev_write st ⟨3, 1⟩ [88] 1 = some ({ ret := 0, log := audit.write_deferred }, st2) ∧
        pw.message.size = 1 ∧ pw.message.text = [88] ∧
        current_session st2 ⟨3, 1⟩ = some ⟨1, [pw], 100, 0⟩ ∧
        (st2.minors 3).storage_size = 1 ∧ (st2.minors 3).messages = [] ∧
        (st2.minors 3).available_readings = 0 ∧
        dev_read st2 ⟨3, 1⟩ 1 1 [] =
          some (read_outcome.returned (-1) [] audit.read_no_messages none, st2) ∧
        exec st2 (op.do_timer pw) =
          some (enqueue_message st2 pw, trace_event.posted 3 pw.message) ∧
        ((enqueue_message st2 pw).minors 3).messages = [pw.message] ∧
        ((enqueue_message st2 pw).minors 3).available_readings = 1 ∧
        ((enqueue_message st2 pw).minors 3).storage_size = 1 := by
  refine ⟨_, _, rfl, ?_⟩
  obtain ⟨st2, pw, h1, _, _, h2, _, h3, h4, h5, h6, h7, h8, h9, h10⟩ :=
    deferred_write_publication 64 1280 (by decide) (by decide)
      [op.do_open 3, op.do_ioctl ⟨3, 1⟩ SET_SEND_TIMEOUT 100] _ _ rfl
      ⟨3, 1⟩ ⟨1, [], 100, 0⟩ rfl (by decide) [88] 1 (by decide) (by decide)
  obtain ⟨h11, h12, h13⟩ := h10 _ _ _ h9
  refine ⟨st2, pw, h1, h2, h3 (by decide), h4, h5, h6, h7, h8 rfl rfl 1 1 [], h9, ?_, ?_, ?_⟩
  · rw [h11, h6]; rfl
  · rw [h12, h7]; rfl
  · rw [h13 3, h5]; rfl

/-- C11. Deferred publication fails for a session whose send timeout is 4294967296 ticks:
`dev_write` tests the timeout after storing it in an `int`, where it is 0, so a write of one
byte within both limits does not return 0 with the message list and the available readings
unchanged: it returns 1 and publishes the message at once, with no pending write, and an
immediate read returns the byte. -/
theorem deferred_write_truncates_timeout :
    ∃ st es st2,
      run (install_driver 64 1280)
        [op.do_open 3, op.do_ioctl ⟨3, 1⟩ SET_SEND_TIMEOUT 4294967296] = some (st, es) ∧
      current_session st ⟨3, 1⟩ = some ⟨1, [], 4294967296, 0⟩ ∧
      (st.minors 3).messages = [] ∧ (st.minors 3).available_readings = 0 ∧
      dev_write st ⟨3, 1⟩ [65] 1 = some (⟨1, audit.write_done⟩, st2) ∧
      (st2.minors 3).messages = [⟨2, false, 1, [65]⟩] ∧
      (st2.minors 3).available_readings = 1 ∧
      (st2.minors 3).storage_size = 1 ∧
      current_session st2 ⟨3, 1⟩ = some ⟨1, [], 4294967296, 0⟩ ∧
      (dev_read st2 ⟨3, 1⟩ 1 1 []).map (fun r => r.1) =
        some (read_outcome.returned 1 [65] audit.read_done (some ⟨2, false, 1, [65]⟩)) :=
  ⟨_, _, _, rfl, rfl, rfl, rfl, rfl, rfl, rfl, rfl, rfl, rfl⟩

/-! ## Idempotence of the revoke command -/

theorem session_idle_map {l : List session} {a : Nat} (g : session → session)
    (hg : ∀ s, (g s).addr = s.addr)
    (hp : ∀ s, s.addr = a → ∀ p ∈ (g s).pending_writes, p.delayed_work_pending = true →
      p ∈ s.pending_writes)
    (h : session_idle l a) : session_idle (l.map g) a := by
  intro s1 hs1 ha p hpm
  rw [List.mem_map] at hs1
  obtain ⟨s, hs, rfl⟩ := hs1
  rw [hg] at ha
  cases hpp : p.delayed_work_pending with
  | false => rfl
  | true =>
    have := h s hs ha p (hp s ha p hpm hpp)
    rw [hpp] at this
    exact this

theorem session_idle_filter {l : List session} {a : Nat} (q : session → Bool)
    (h : session_idle l a) : session_idle (l.filter q) a :=
  fun s hs => h s (List.mem_filter.mp hs).1

theorem session_idle_update {st : driver} {f : file} {j : Fin MAX_MINOR_NUMBER} {m1 : minor}
    (h : session_idle (st.minors f.minor_number).sessions f.private_data)
    (hs : j = f.minor_number → session_idle m1.sessions f.private_data) :
    session_idle ((Function.update st.minors j m1) f.minor_number).sessions f.private_data := by
  by_cases hj : f.minor_number = j
  · rw [hj, Function.update_same]
    exact hs hj.symm
  · rw [Function.update_noteq hj]
    exact h

theorem session_idle_read {m m1 : minor} {cap brk : Nat} {i : Fin MAX_MINOR_NUMBER}
    {pending_read : Option Nat} {len writable : Nat} {slack : List Nat} {r : read_outcome}
    {a : Nat} (hm : minor_inv cap brk i m) (hne : m.available_readings ≠ 0)
    (hr : read_message m pending_read len writable slack = some (r, m1))
    (h : session_idle m.sessions a) : session_idle m1.sessions a := by
  obtain ⟨init, last, hml, hnd, hc⟩ := inv_read_ready hm hne
  rw [read_message_eq m pending_read len writable slack init last hml hnd hc] at hr
  rw [Option.map_eq_some'] at hr
  obtain ⟨len1, _, hr⟩ := hr
  simp only [Prod.mk.injEq] at hr
  rw [← hr.2]
  unfold minor_after_read
  simp only
  split
  · refine session_idle_map _ (fun _ => rfl) ?_ h
    intro s _ p hp _
    exact (List.mem_filter.mp hp).1
  · exact h

theorem exec_idle {st st1 : driver} {o : op} {e : trace_event} {f : file}
    (hinv : driver_inv st) (he : exec st o = some (st1, e))
    (hw : writes_through f o = false)
    (h : session_idle (st.minors f.minor_number).sessions f.private_data) :
    session_idle (st1.minors f.minor_number).sessions f.private_data := by
  cases o with
  | do_open j =>
    simp only [exec, Option.some.injEq, Prod.mk.injEq] at he
    rw [← he.1]
    refine session_idle_update (j := j) h ?_
    intro hj s hs ha p hp
    rw [List.mem_cons] at hs
    rcases hs with rfl | hs
    · simp at hp
    · exact h s (hj ▸ hs) ha p hp
  | do_release g =>
    simp only [exec, Option.map_eq_some'] at he
    obtain ⟨⟨r, st2⟩, he, heq⟩ := he
    simp only [Prod.mk.injEq] at heq
    rw [← heq.1]
    unfold dev_release at he
    cases hcs : current_session st g with
    | none => rw [hcs] at he; simp at he
    | some s =>
      rw [hcs] at he
      simp only [Option.some.injEq, Prod.mk.injEq] at he
      rw [← he.2]
      refine session_idle_update (j := g.minor_number) h ?_
      intro hj
      exact session_idle_filter _ (hj ▸ h)
  | do_write g buff len =>
    simp only [exec, Option.map_eq_some'] at he
    obtain ⟨⟨r, st2⟩, he, heq⟩ := he
    simp only [Prod.mk.injEq] at heq
    rw [← heq.1]
    unfold dev_write at he
    by_cases h1 : len > size_t_of_int st.max_message_size
    · rw [if_pos h1] at he
      simp only [Option.some.injEq, Prod.mk.injEq] at he
      rw [← he.2]; exact h
    · rw [if_neg h1] at he
      simp only at he
      by_cases h2 : size_add (st.minors g.minor_number).storage_size len >
          size_t_of_int st.max_storage_size
      · rw [if_pos h2] at he
        simp only [Option.some.injEq, Prod.mk.injEq] at he
        rw [← he.2]; exact h
      · rw [if_neg h2] at he
        cases hcs : current_session st g with
        | none => rw [hcs] at he; simp at he
        | some s =>
          rw [hcs] at he
          simp only at he
          by_cases h3 : int_of_long s.send_timeout = 0
          · rw [if_pos h3] at he
            simp only [Option.some.injEq, Prod.mk.injEq] at he
            rw [← he.2]
            refine session_idle_update (j := g.minor_number) h ?_
            intro hj
            exact hj ▸ h
          · rw [if_neg h3] at he
            simp only [Option.some.injEq, Prod.mk.injEq] at he
            rw [← he.2]
            refine session_idle_update (j := g.minor_number) h ?_
            intro hj
            have hne : g.private_data ≠ f.private_data := by
              intro hpd
              simp [writes_through, hj, hpd] at hw
            unfold update_session
            refine session_idle_map _ ?_ ?_ (hj ▸ h)
            · intro x; split <;> rfl
            · intro x hx p hp _
              rw [if_neg (by rw [hx]; exact fun hh => hne hh.symm)] at hp
              exact hp
  | do_read g len writable slack =>
    simp only [exec, Option.map_eq_some'] at he
    obtain ⟨⟨r, st2⟩, he, heq⟩ := he
    simp only [Prod.mk.injEq] at heq
    rw [← heq.1]
    unfold dev_read at he
    cases hcs : current_session st g with
    | none => rw [hcs] at he; simp at he
    | some s =>
      rw [hcs] at he
      simp only at he
      by_cases h1 : (st.minors g.minor_number).available_readings = 0
      · rw [if_pos h1] at he
        by_cases h2 : s.recv_timeout = 0
        · rw [if_pos h2] at he
          simp only [Option.some.injEq, Prod.mk.injEq] at he
          rw [← he.2]; exact h
        · rw [if_neg h2] at he
          simp only [Option.some.injEq, Prod.mk.injEq] at he
          rw [← he.2]
          refine session_idle_update (j := g.minor_number) h ?_
          intro hj
          exact hj ▸ h
      · rw [if_neg h1] at he
        cases hr : read_message (st.minors g.minor_number) none len writable slack with
        | none => rw [hr] at he; simp at he
        | some p =>
          obtain ⟨r1, m1⟩ := p
          rw [hr] at he
          simp only [Option.some.injEq, Prod.mk.injEq] at he
          rw [← he.2]
          refine session_idle_update (j := g.minor_number) h ?_
          intro hj
          exact session_idle_read (hinv.2 g.minor_number) h1 hr (hj ▸ h)
  | do_wake g pending_read recv_timeout wait_outcome len writable slack =>
    simp only [exec, Option.map_eq_some'] at he
    obtain ⟨⟨r, st2⟩, he, heq⟩ := he
    simp only [Prod.mk.injEq] at heq
    rw [← heq.1]
    unfold dev_read_wake at he
    dsimp only at he
    cases hpr : (st.minors g.minor_number).pending_readings.find?
        (fun r => r.addr == pending_read) with
    | none => rw [hpr] at he; simp at he
    | some pr =>
      rw [hpr] at he
      simp only at he
      by_cases h0 : wait_outcome = 0
      · rw [if_pos h0] at he
        simp only [Option.some.injEq, Prod.mk.injEq] at he
        rw [← he.2]
        refine session_idle_update (j := g.minor_number) h ?_
        intro hj
        exact hj ▸ h
      · rw [if_neg h0] at he
        by_cases hfl : pr.is_flushed = true
        · rw [if_pos hfl] at he
          simp only [Option.some.injEq, Prod.mk.injEq] at he
          rw [← he.2]
          refine session_idle_update (j := g.minor_number) h ?_
          intro hj
          exact hj ▸ h
        · rw [if_neg hfl] at he
          by_cases h1 : (st.minors g.minor_number).available_readings = 0
          · rw [if_pos h1] at he
            simp only [Option.some.injEq, Prod.mk.injEq] at he
            rw [← he.2]; exact h
          · rw [if_neg h1] at he
            cases hr : read_message (st.minors g.minor_number) (some pending_read) len writable
                slack with
            | none => rw [hr] at he; simp at he
            | some p =>
              obtain ⟨r1, m1⟩ := p
              rw [hr] at he
              simp only [Option.some.injEq, Prod.mk.injEq] at he
              rw [← he.2]
              refine session_idle_update (j := g.minor_number) h ?_
              intro hj
              exact session_idle_read (hinv.2 g.minor_number) h1 hr (hj ▸ h)
  | do_ioctl g command param =>
    simp only [exec, Option.map_eq_some'] at he
    obtain ⟨⟨r, st2⟩, he, heq⟩ := he
    simp only [Prod.mk.injEq] at heq
    rw [← heq.1]
    unfold dev_ioctl at he
    cases hcs : current_session st g with
    | none => rw [hcs] at he; simp at he
    | some s =>
      rw [hcs] at he
      simp only at he
      by_cases h1 : command = SET_SEND_TIMEOUT
      · rw [if_pos h1] at he
        simp only [Option.some.injEq, Prod.mk.injEq] at he
        rw [← he.2]
        refine session_idle_update (j := g.minor_number) h ?_
        intro hj
        unfold update_session
        refine session_idle_map _ ?_ ?_ (hj ▸ h)
        · intro x; split <;> rfl
        · intro x _ p hp _
          split at hp <;> exact hp
      · rw [if_neg h1] at he
        by_cases h2 : command = SET_RECV_TIMEOUT
        · rw [if_pos h2] at he
          simp only [Option.some.injEq, Prod.mk.injEq] at he
          rw [← he.2]
          refine session_idle_update (j := g.minor_number) h ?_
          intro hj
          unfold update_session
          refine session_idle_map _ ?_ ?_ (hj ▸ h)
          · intro x; split <;> rfl
          · intro x _ p hp _
            split at hp <;> exact hp
        · rw [if_neg h2] at he
          by_cases h3 : command = REVOKE_DELAYED_MESSAGES
          · rw [if_pos h3] at he
            simp only [Option.some.injEq, Prod.mk.injEq] at he
            rw [← he.2]
            refine session_idle_update (j := g.minor_number) h ?_
            intro hj
            unfold update_session
            refine session_idle_map _ ?_ ?_ (hj ▸ h)
            · intro x; split <;> rfl
            · intro x _ p hp hpp
              split at hp
              · exfalso
                rw [cancel_pending_writes_eq _ _ (by decide)] at hp
                have := (List.mem_filter.mp hp).2
                simp [cancel_delayed_work, hpp] at this
              · exact hp
          · rw [if_neg h3] at he
            simp only [Option.some.injEq, Prod.mk.injEq] at he
            rw [← he.2]; exact h
  | do_flush g =>
    simp only [exec, Option.some.injEq, Prod.mk.injEq] at he
    rw [← he.1]
    unfold dev_flush
    simp only [set_minor]
    refine session_idle_update (j := g.minor_number) h ?_
    intro hj
    rw [flush_sessions_eq _ _ (by decide)]
    refine session_idle_map _ (fun _ => rfl) ?_ (hj ▸ h)
    intro x _ p hp _
    exact (List.mem_filter.mp hp).1
  | do_timer pw =>
    simp only [exec] at he
    split at he
    · simp only [Option.some.injEq, Prod.mk.injEq] at he
      rw [← he.1]
      unfold enqueue_message
      simp only [set_minor, post_message]
      refine session_idle_update (j := pw.minor_number) h ?_
      intro hj
      refine session_idle_map _ (fun _ => rfl) ?_ (hj ▸ h)
      intro x _ p hp hpp
      simp only [List.mem_map] at hp
      obtain ⟨q, hq, rfl⟩ := hp
      unfold work_done at hpp ⊢
      split
      · rename_i hqa
        rw [if_pos hqa] at hpp
        simp at hpp
      · exact hq
    · simp at he

theorem run_idle {ops : List op} {st st1 : driver} {es : List trace_event} {f : file}
    (hinv : driver_inv st) (hr : run st ops = some (st1, es))
    (hw : ∀ o ∈ ops, writes_through f o = false)
    (h : session_idle (st.minors f.minor_number).sessions f.private_data) :
    session_idle (st1.minors f.minor_number).sessions f.private_data := by
  induction ops generalizing st es with
  | nil =>
    simp only [run, Option.some.injEq, Prod.mk.injEq] at hr
    rw [← hr.1]; exact h
  | cons o rest ih =>
    obtain ⟨st2, e, es1, he, hr2, _⟩ := run_cons hr
    exact ih (exec_inv hinv he) hr2 (fun o1 ho1 => hw o1 (List.mem_cons_of_mem _ ho1))
      (exec_idle hinv he (hw o (List.mem_cons_self _ _)) h)

theorem run_timers_storage {ops : List op} {st st1 : driver} {es : List trace_event}
    (hr : run st ops = some (st1, es)) (ht : ∀ o ∈ ops, is_timer o = true)
    (i : Fin MAX_MINOR_NUMBER) :
    (st1.minors i).storage_size = (st.minors i).storage_size := by
  induction ops generalizing st es with
  | nil =>
    simp only [run, Option.some.injEq, Prod.mk.injEq] at hr
    rw [← hr.1]
  | cons o rest ih =>
    obtain ⟨st2, e, es1, he, hr2, _⟩ := run_cons hr
    rw [ih hr2 (fun o1 ho1 => ht o1 (List.mem_cons_of_mem _ ho1))]
    have hto := ht o (List.mem_cons_self _ _)
    cases o with
    | do_timer pw =>
      simp only [exec] at he
      split at he
      · simp only [Option.some.injEq, Prod.mk.injEq] at he
        rw [← he.1]
        unfold enqueue_message
        simp only [set_minor, post_message]
        by_cases hi : i = pw.minor_number
        · rw [hi, Function.update_same]
        · rw [Function.update_noteq hi]
      · simp at he
    | _ => simp [is_timer] at hto

theorem set_minor_self (st : driver) (i : Fin MAX_MINOR_NUMBER) :
    set_minor st i (st.minors i) = st := by
  cases st
  simp [set_minor]

theorem session_idle_uncancelled {l : List pending_write}
    (h : ∀ p ∈ l, p.delayed_work_pending = false) :
    uncancelled l = l ∧ scheduled_bytes l = 0 := by
  induction l with
  | nil => exact ⟨rfl, rfl⟩
  | cons p rest ih =>
    have hp := h p (List.mem_cons_self _ _)
    have hrest := ih (fun q hq => h q (List.mem_cons_of_mem _ hq))
    constructor
    · unfold uncancelled at hrest ⊢
      rw [List.filter_cons_of_pos (by simp [cancel_delayed_work, hp]), hrest.1]
    · rw [scheduled_bytes_cons, hrest.2]
      simp [hp]

/-- C12. In every reachable state, after a call of the revoke command through a registered
session, followed by any calls among which there is no write through that session (timer
expiries included), a second call of the revoke command through the same session, still
registered, returns 0 and leaves the whole driver state as it is: it removes no pending write
and frees no storage. When the calls in between are timer expiries only, the storage size of
the minor after the second call is the one the first call left. -/
theorem revoke_idempotent (a b : Int) (ha : 0 ≤ a ∧ a < 2147483648)
    (hb : 0 ≤ b ∧ b < 2147483648) (ops : List op) (st : driver) (es : List trace_event)
    (hrun : run (install_driver a b) ops = some (st, es))
    (f : file) (param1 param2 : Nat) (st2 : driver)
    (hfirst : dev_ioctl st f REVOKE_DELAYED_MESSAGES param1 = some (0, st2))
    (ops2 : List op) (st3 : driver) (es2 : List trace_event)
    (hw : ∀ o ∈ ops2, writes_through f o = false)
    (hrun2 : run st2 ops2 = some (st3, es2))
    (s3 : session) (hcs3 : current_session st3 f = some s3) :
    dev_ioctl st3 f REVOKE_DELAYED_MESSAGES param2 = some (0, st3) ∧
      (∀ p ∈ s3.pending_writes, p.delayed_work_pending = false) ∧
      ((∀ o ∈ ops2, is_timer o = true) →
        (st3.minors f.minor_number).storage_size = (st2.minors f.minor_number).storage_size) := by
  have hinv := reach_inv ha hb hrun
  have hinv2 := dev_ioctl_inv hinv hfirst
  have hinv3 := run_inv hinv2 hrun2
  have hidle2 : session_idle (st2.minors f.minor_number).sessions f.private_data := by
    cases hcs : current_session st f with
    | none => simp [dev_ioctl, hcs] at hfirst
    | some s =>
      have hio := dev_ioctl_revoke st f s param1 hcs
      rw [hfirst, cancel_pending_writes_eq _ _ (by norm_num)] at hio
      simp only [Option.some.injEq, Prod.mk.injEq, true_and] at hio
      rw [hio]
      simp only [set_minor, Function.update_same]
      intro x hx hxa p hp
      unfold update_session at hx
      rw [List.mem_map] at hx
      obtain ⟨y, _, rfl⟩ := hx
      split at hp
      · have := (List.mem_filter.mp hp).2
        simpa [cancel_delayed_work] using this
      · rename_i hne
        split at hxa
        · exact absurd ‹y.addr = f.private_data› hne
        · exact absurd hxa hne
  have hidle3 := run_idle hinv2 hrun2 hw hidle2
  have hmi := hinv3.2 f.minor_number
  have hcap := params_cap hinv3.1
  obtain ⟨l1, l2, hl, hs, h1, h2⟩ := find_session_split _ _ _ hcs3 hmi.sess_nodup
  have hmem : s3 ∈ (st3.minors f.minor_number).sessions := by
    rw [hl]; simp
  have hnone := hidle3 s3 hmem hs
  obtain ⟨hunc, hzero⟩ := session_idle_uncancelled hnone
  refine ⟨?_, hnone, fun ht => run_timers_storage hrun2 ht f.minor_number⟩
  rw [dev_ioctl_revoke st3 f s3 param2 hcs3, cancel_pending_writes_eq _ _ (by norm_num)]
  simp only [hunc, hzero, Nat.zero_add, Nat.zero_mod]
  have hbd := hmi.bound
  rw [size_sub_eq _ _ (Nat.zero_le _) (by omega), Nat.sub_zero]
  have hsess : update_session (st3.minors f.minor_number).sessions f.private_data
      (fun x => { x with pending_writes := s3.pending_writes }) =
      (st3.minors f.minor_number).sessions := by
    rw [hl, update_session_split l1 l2 s3 f.private_data _ hs h1 h2]
  rw [hsess]
  exact congrArg (fun d => some ((0 : Int), d)) (set_minor_self st3 f.minor_number)

/-- Witness for C12: two sessions on minor 3 each defer a write of one byte; the first session
revokes, the timer of the write of the second session expires, the first session revokes
again. -/
theorem revoke_idempotent_witness :
    ∃ st es st2 st3 es2,
      run (install_driver 64 1280)
        [op.do_open 3, op.do_ioctl ⟨3, 1⟩ SET_SEND_TIMEOUT 1000, op.do_write ⟨3, 1⟩ [65] 1,
         op.do_open 3, op.do_ioctl ⟨3, 4⟩ SET_SEND_TIMEOUT 500, op.do_write ⟨3, 4⟩ [66] 1] =
        some (st, es) ∧
      (st.minors 3).storage_size = 2 ∧
      dev_ioctl st ⟨3, 1⟩ REVOKE_DELAYED_MESSAGES 0 = some (0, st2) ∧
      (st2.minors 3).storage_size = 1 ∧
      run st2 [op.do_timer ⟨true, ⟨6, true, 1, [66]⟩, 3⟩] = some (st3, es2) ∧
      (st3.minors 3).messages = [⟨6, true, 1, [66]⟩] ∧
      dev_ioctl st3 ⟨3, 1⟩ REVOKE_DELAYED_MESSAGES 0 = some (0, st3) ∧
      (st3.minors 3).storage_size = 1 := by
  refine ⟨_, _, _, _, _, rfl, rfl, rfl, rfl, rfl, rfl, ?_⟩
  have h := revoke_idempotent 64 1280 (by decide) (by decide)
    [op.do_open 3, op.do_ioctl ⟨3, 1⟩ SET_SEND_TIMEOUT 1000, op.do_write ⟨3, 1⟩ [65] 1,
     op.do_open 3, op.do_ioctl ⟨3, 4⟩ SET_SEND_TIMEOUT 500, op.do_write ⟨3, 4⟩ [66] 1]
    _ _ rfl ⟨3, 1⟩ 0 0 _ rfl [op.do_timer ⟨true, ⟨6, true, 1, [66]⟩, 3⟩] _ _
    (by simp [writes_through]) rfl ⟨1, [], 1000, 0⟩ rfl
  exact ⟨h.1, (h.2.2 (by simp [is_timer])).trans rfl⟩

/-! ## Available readings and storage bound -/

/-- The counter of a minor. In every reachable state the available readings of every minor
are the number of messages of its list as an `int`, that is modulo `2 ^ 32`, and equal to it
as long as the list has fewer than `2 ^ 31` messages. A read through a registered session
that finds the available readings different from zero, either a call of `dev_read` or a
blocked read that is woken up and not flushed, finds a message to detach: the list is
`init ++ [last]` and the read detaches `last` and leaves `init`, returning the bytes copied
(the call is undefined only when more than the size of `last` is requested and the length
scan runs off the kernel memory). -/
theorem available_readings_count (a b : Int) (ha : 0 ≤ a ∧ a < 2147483648)
    (hb : 0 ≤ b ∧ b < 2147483648) (ops : List op) (st : driver) (es : List trace_event)
    (hrun : run (install_driver a b) ops = some (st, es))
    (f : file) (s : session) (hcs : current_session st f = some s) :
    (∀ i, (st.minors i).available_readings =
      int_of_long ((st.minors i).messages.length : Int)) ∧
    (∀ i, (st.minors i).messages.length < 2147483648 →
      (st.minors i).available_readings = ((st.minors i).messages.length : Int)) ∧
    ((st.minors f.minor_number).available_readings ≠ 0 →
      ∃ init last, (st.minors f.minor_number).messages = init ++ [last] ∧
        (∀ len writable slack,
          dev_read st f len writable slack =
            (if last.size < len then strlen (last.text ++ slack) else some len).map
              (fun (len1 : Nat) =>
                (read_outcome.returned ((len1 : Int) - ((len1 - min len1 writable : Nat) : Int))
                  ((last.text ++ slack).take (min len1 writable)) audit.read_done (some last),
                 set_minor st f.minor_number
                   (minor_after_read (st.minors f.minor_number) none init last)))) ∧
        (∀ (pending_read : Nat) (pr : TimedMessaging.pending_read)
            (recv_timeout wait_outcome : Int) (len writable : Nat) (slack : List Nat),
          (st.minors f.minor_number).pending_readings.find?
            (fun r => r.addr == pending_read) = some pr →
          wait_outcome ≠ 0 → pr.is_flushed = false →
          dev_read_wake st f pending_read recv_timeout wait_outcome len writable slack =
            (if last.size < len then strlen (last.text ++ slack) else some len).map
              (fun (len1 : Nat) =>
                (read_outcome.returned ((len1 : Int) - ((len1 - min len1 writable : Nat) : Int))
                  ((last.text ++ slack).take (min len1 writable)) audit.read_done (some last),
                 set_minor st f.minor_number
                   (minor_after_read (st.minors f.minor_number) (some pending_read) init
                     last)))) ∧
        (minor_after_read (st.minors f.minor_number) none init last).messages = init ∧
        (minor_after_read (st.minors f.minor_number) none init last).available_readings =
          int_of_long (init.length : Int)) := by
  have hinv := reach_inv ha hb hrun
  refine ⟨fun i => (hinv.2 i).avail, ?_, ?_⟩
  · intro i hlt
    rw [(hinv.2 i).avail]
    exact int_of_long_eq _ (by omega) (by omega)
  intro hne
  have hmi := hinv.2 f.minor_number
  obtain ⟨init, last, hm, hnd, hc⟩ := inv_read_ready hmi hne
  refine ⟨init, last, hm, ?_, ?_, rfl, ?_⟩
  · intro len writable slack
    rw [dev_read_available st f s len writable slack hcs hne,
      read_message_eq _ none len writable slack init last hm hnd hc]
    cases (if last.size < len then strlen (last.text ++ slack) else some len) with
    | none => rfl
    | some len1 => rfl
  · intro pending_read pr recv_timeout wait_outcome len writable slack hpr hw hfl
    rw [dev_read_wake_available st f pending_read pr recv_timeout wait_outcome len
        writable slack hpr hw hfl hne,
      read_message_eq _ (some pending_read) len writable slack init last hm hnd hc]
    cases (if last.size < len then strlen (last.text ++ slack) else some len) with
    | none => rfl
    | some len1 => rfl
  · show int_add (st.minors f.minor_number).available_readings (-1) =
      int_of_long (init.length : Int)
    apply int_add_read
    rw [hmi.avail, hm, List.length_append, List.length_singleton]

/-- Example for the counter of a minor: after two writes and one read the available readings
are 1 and the next read detaches the remaining message. -/
theorem available_readings_count_example :
    ∃ st es,
      run (install_driver 64 1280)
        [op.do_open 3, op.do_write ⟨3, 1⟩ [1] 1, op.do_write ⟨3, 1⟩ [2, 3] 2,
         op.do_read ⟨3, 1⟩ 1 1 []] = some (st, es) ∧
      (st.minors 3).available_readings = 1 ∧
      (st.minors 3).messages = [⟨3, false, 2, [2, 3]⟩] ∧
      (∀ i, (st.minors i).messages.length < 2147483648 →
        (st.minors i).available_readings = ((st.minors i).messages.length : Int)) ∧
      (dev_read st ⟨3, 1⟩ 2 2 []).map (fun r => r.1) =
        some (read_outcome.returned 2 [2, 3] audit.read_done (some ⟨3, false, 2, [2, 3]⟩)) := by
  refine ⟨_, _, rfl, rfl, rfl, ?_, rfl⟩
  exact (available_readings_count 64 1280 (by decide) (by decide)
    [op.do_open 3, op.do_write ⟨3, 1⟩ [1] 1, op.do_write ⟨3, 1⟩ [2, 3] 2,
     op.do_read ⟨3, 1⟩ 1 1 []] _ _ rfl ⟨3, 1⟩ ⟨1, [], 0, 0⟩ rfl).2.1

theorem run_append_step {st st1 st2 : driver} {o : op} {rest : List op} {e : trace_event}
    {es : List trace_event} (he : exec st o = some (st1, e))
    (hr : run st1 rest = some (st2, es)) : run st (o :: rest) = some (st2, e :: es) := by
  simp only [run, he, hr]

theorem run_empty_writes (f : file) (s : session) (hs : int_of_long s.send_timeout = 0)
    (n : Nat) (st : driver) (hinv : driver_inv st) (hcs : current_session st f = some s) :
    ∃ st2 es, run st (List.replicate n (op.do_write f [] 0)) = some (st2, es) ∧
      driver_inv st2 ∧
      (st2.minors f.minor_number).messages.length =
        (st.minors f.minor_number).messages.length + n ∧
      (st2.minors f.minor_number).storage_size = (st.minors f.minor_number).storage_size := by
  induction n generalizing st with
  | zero => exact ⟨st, [], rfl, hinv, rfl, rfl⟩
  | succ n ih =>
    have hcap := params_cap hinv.1
    have hbd := (hinv.2 f.minor_number).bound
    have hadd : size_add (st.minors f.minor_number).storage_size 0 =
        (st.minors f.minor_number).storage_size := size_add_eq _ _ (by omega)
    have hw : dev_write st f [] 0 =
        some ({ ret := ((0 : Nat) : Int) - ((copy_from_user [] 0 : Nat) : Int),
                log := audit.write_done },
          { set_minor st f.minor_number
              (post_message
                { st.minors f.minor_number with
                  storage_size := size_add (st.minors f.minor_number).storage_size 0 }
                { addr := st.next_addr, is_delayed := false, size := 0,
                  text := copy_from_user_text [] 0 }) with
            next_addr := st.next_addr + 1 }) := by
      unfold dev_write
      rw [if_neg (Nat.not_lt_zero _)]
      dsimp only
      rw [if_neg (by rw [hadd]; omega), hcs]
      dsimp only
      rw [if_pos hs]
    have he : exec st (op.do_write f [] 0) =
        some ({ set_minor st f.minor_number
              (post_message
                { st.minors f.minor_number with
                  storage_size := size_add (st.minors f.minor_number).storage_size 0 }
                { addr := st.next_addr, is_delayed := false, size := 0,
                  text := copy_from_user_text [] 0 }) with
            next_addr := st.next_addr + 1 },
          trace_event.posted f.minor_number
            { addr := st.next_addr, is_delayed := false, size := 0,
              text := copy_from_user_text [] 0 }) := by
      simp only [exec, hw, Option.map_some', if_true]
    have hinv1 := exec_inv hinv he
    obtain ⟨st2, es, hr, hinv2, hlen, hsz⟩ := ih _ hinv1 (by
      unfold current_session at hcs ⊢
      simpa [set_minor, post_message] using hcs)
    refine ⟨st2, trace_event.posted f.minor_number
      { addr := st.next_addr, is_delayed := false, size := 0,
        text := copy_from_user_text [] 0 } :: es, ?_, hinv2, ?_, ?_⟩
    · rw [List.replicate_succ]
      exact run_append_step he hr
    · rw [hlen]
      simp only [set_minor, post_message, Function.update_same, List.length_cons]
      omega
    · rw [hsz]
      simp only [set_minor, post_message, Function.update_same]
      exact hadd

/-- C13. The available readings differ from the number of messages once `2 ^ 31` messages
are linked. After open and 2147483648 writes of zero bytes through the session on minor 3,
each of them accepted without any storage being charged, the message list of the minor has
2147483648 elements, the storage size is 0 and the `int` counter of available readings has
wrapped around to -2147483648. -/
theorem available_readings_wraps :
    ∃ st es,
      run (install_driver 64 1280)
        (op.do_open 3 :: List.replicate 2147483648 (op.do_write ⟨3, 1⟩ [] 0)) =
        some (st, es) ∧
      (st.minors 3).messages.length = 2147483648 ∧
      (st.minors 3).storage_size = 0 ∧
      (st.minors 3).available_readings = -2147483648 ∧
      (st.minors 3).available_readings ≠ ((st.minors 3).messages.length : Int) := by
  have h0 : driver_inv (install_driver 64 1280) :=
    install_driver_inv 64 1280 (by decide) (by decide)
  have he : exec (install_driver 64 1280) (op.do_open 3) =
      some ((dev_open (install_driver 64 1280) 3).2, trace_event.quiet) := rfl
  obtain ⟨st, es, hr, hinv, hlen, hsz⟩ :=
    run_empty_writes ⟨3, 1⟩ ⟨1, [], 0, 0⟩ (by decide) 2147483648
      (dev_open (install_driver 64 1280) 3).2 (exec_inv h0 he) rfl
  have hlen2 : (st.minors 3).messages.length = 2147483648 := by
    rw [hlen]; exact Nat.zero_add _
  have hav : (st.minors 3).available_readings = -2147483648 := by
    rw [(hinv.2 3).avail, hlen2]
    decide
  refine ⟨st, _, run_append_step he hr, hlen2, hsz.trans rfl, hav, ?_⟩
  rw [hav, hlen2]
  decide

/-- C14. In every reachable state the storage size of every minor is within the storage limit
(it is a `size_t`, hence not negative), and no subtraction on it wraps around: the size of
the message that a read detaches, the storage that the revoke command frees and the storage
that a flush frees are each at most the storage size, the two running sums of freed storage
do not wrap either, and each of the three subtractions yields the exact difference. -/
theorem storage_bound (a b : Int) (ha : 0 ≤ a ∧ a < 2147483648)
    (hb : 0 ≤ b ∧ b < 2147483648) (ops : List op) (st : driver) (es : List trace_event)
    (hrun : run (install_driver a b) ops = some (st, es)) (i : Fin MAX_MINOR_NUMBER) :
    (0 : Int) ≤ ((st.minors i).storage_size : Int) ∧
    ((st.minors i).storage_size : Int) ≤ st.max_storage_size ∧
    (∀ pending_read len writable slack r m1,
      read_message (st.minors i) pending_read len writable slack = some (r, m1) →
      ∃ ret data log last, r = read_outcome.returned ret data log (some last) ∧
        last.size ≤ (st.minors i).storage_size ∧
        m1.storage_size = (st.minors i).storage_size - last.size) ∧
    (∀ s ∈ (st.minors i).sessions,
      (cancel_pending_writes s.pending_writes 0).2 = scheduled_bytes s.pending_writes ∧
      scheduled_bytes s.pending_writes ≤ (st.minors i).storage_size ∧
      size_sub (st.minors i).storage_size (cancel_pending_writes s.pending_writes 0).2 =
        (st.minors i).storage_size - scheduled_bytes s.pending_writes) ∧
    ((flush_sessions (st.minors i).sessions 0).2 =
        scheduled_bytes (session_posts (st.minors i).sessions) ∧
      scheduled_bytes (session_posts (st.minors i).sessions) ≤ (st.minors i).storage_size ∧
      size_sub (st.minors i).storage_size (flush_sessions (st.minors i).sessions 0).2 =
        (st.minors i).storage_size -
          scheduled_bytes (session_posts (st.minors i).sessions)) := by
  have hinv := reach_inv ha hb hrun
  have hmi := hinv.2 i
  have hcap := params_cap hinv.1
  obtain ⟨p1, p2, p3, p4⟩ := hinv.1
  have e2 := size_t_of_int_eq _ p3 p4
  have hbd := hmi.bound
  have hst := hmi.storage
  unfold posts at hst
  rw [scheduled_bytes_append] at hst
  refine ⟨Int.ofNat_nonneg _, by omega, ?_, ?_, ?_⟩
  · intro pending_read len writable slack r m1 hr
    by_cases hnil : (st.minors i).messages = []
    · exfalso
      have hcur : (st.minors i).message_to_read = list_head_ptr.NULL := by
        rcases hmi.cursor with hc | ⟨hc, _⟩
        · exact hc
        · exact absurd hnil hc
      simp [read_message, hnil, hcur, list_tail_ptr] at hr
    · obtain ⟨init, last, hm, hnd, hc⟩ := inv_messages_ready hmi hnil
      rw [read_message_eq _ pending_read len writable slack init last hm hnd hc,
        Option.map_eq_some'] at hr
      obtain ⟨len1, _, hr⟩ := hr
      simp only [Prod.mk.injEq] at hr
      rw [hm, messages_bytes_append] at hst
      have hlb : messages_bytes [last] = last.size := by simp [messages_bytes]
      refine ⟨_, _, _, last, hr.1.symm, by omega, ?_⟩
      rw [← hr.2]
      exact size_sub_eq _ _ (by omega) (by omega)
  · intro s hs
    obtain ⟨l1, l2, hl⟩ := List.append_of_mem hs
    rw [hl, session_posts_append, session_posts_cons, scheduled_bytes_append,
      scheduled_bytes_append] at hst
    have hmod : scheduled_bytes s.pending_writes % 18446744073709551616 =
        scheduled_bytes s.pending_writes := Nat.mod_eq_of_lt (by omega)
    rw [cancel_pending_writes_eq _ _ (by norm_num)]
    simp only [Nat.zero_add, hmod]
    exact ⟨trivial, by omega, size_sub_eq _ _ (by omega) (by omega)⟩
  · have hmod : scheduled_bytes (session_posts (st.minors i).sessions) %
        18446744073709551616 = scheduled_bytes (session_posts (st.minors i).sessions) :=
      Nat.mod_eq_of_lt (by omega)
    rw [flush_sessions_eq _ _ (by norm_num)]
    simp only [Nat.zero_add, hmod]
    exact ⟨trivial, by omega, size_sub_eq _ _ (by omega) (by omega)⟩

/-- Witness for C14: one published message and two pending writes, one of them fired. -/
theorem storage_bound_witness :
    ∃ st es,
      run (install_driver 64 1280)
        [op.do_open 3, op.do_write ⟨3, 1⟩ [104, 105] 2,
         op.do_ioctl ⟨3, 1⟩ SET_SEND_TIMEOUT 100, op.do_write ⟨3, 1⟩ [88] 1,
         op.do_write ⟨3, 1⟩ [89, 90, 91] 3,
         op.do_timer ⟨true, ⟨4, true, 1, [88]⟩, 3⟩] = some (st, es) ∧
      (st.minors 3).storage_size = 6 ∧ st.max_storage_size = 1280 ∧
      ((st.minors 3).storage_size : Int) ≤ st.max_storage_size ∧
      (flush_sessions (st.minors 3).sessions 0).2 = 3 ∧
      size_sub (st.minors 3).storage_size (flush_sessions (st.minors 3).sessions 0).2 =
        (st.minors 3).storage_size - scheduled_bytes (session_posts (st.minors 3).sessions) := by
  refine ⟨_, _, rfl, rfl, rfl, ?_, rfl, ?_⟩
  · exact (storage_bound 64 1280 (by decide) (by decide)
      [op.do_open 3, op.do_write ⟨3, 1⟩ [104, 105] 2,
       op.do_ioctl ⟨3, 1⟩ SET_SEND_TIMEOUT 100, op.do_write ⟨3, 1⟩ [88] 1,
       op.do_write ⟨3, 1⟩ [89, 90, 91] 3,
       op.do_timer ⟨true, ⟨4, true, 1, [88]⟩, 3⟩] _ _ rfl 3).2.1
  · exact (storage_bound 64 1280 (by decide) (by decide)
      [op.do_open 3, op.do_write ⟨3, 1⟩ [104, 105] 2,
       op.do_ioctl ⟨3, 1⟩ SET_SEND_TIMEOUT 100, op.do_write ⟨3, 1⟩ [88] 1,
       op.do_write ⟨3, 1⟩ [89, 90, 91] 3,
       op.do_timer ⟨true, ⟨4, true, 1, [88]⟩, 3⟩] _ _ rfl 3).2.2.2.2.2.2

/-! ## Blocked reads -/

/-- A blocked read that is woken up before its timeout (`wait_outcome`, the residual ticks
returned by `wait_event_timeout`, is not 0), is not flushed and finds no available reading
goes back to sleep without touching the state; its next timeout is the previous one minus
the residual, which is the number of ticks that have elapsed. -/
theorem dev_read_wake_spurious (st : driver) (f : file) (pending_read : Nat)
    (pr : TimedMessaging.pending_read) (recv_timeout wait_outcome : Int) (len writable : Nat)
    (slack : List Nat)
    (hpr : (st.minors f.minor_number).pending_readings.find?
      (fun r => r.addr == pending_read) = some pr)
    (hw : wait_outcome ≠ 0) (hfl : pr.is_flushed = false)
    (h0 : (st.minors f.minor_number).available_readings = 0) :
    dev_read_wake st f pending_read recv_timeout wait_outcome len writable slack =
        some (read_outcome.sleeping pending_read (recv_timeout - wait_outcome), st) ∧
      ∀ elapsed : Int, wait_outcome = recv_timeout - elapsed →
        dev_read_wake st f pending_read recv_timeout wait_outcome len writable slack =
          some (read_outcome.sleeping pending_read elapsed, st) := by
  have h : dev_read_wake st f pending_read recv_timeout wait_outcome len writable slack =
      some (read_outcome.sleeping pending_read (recv_timeout - wait_outcome), st) := by
    unfold dev_read_wake
    dsimp only
    rw [hpr]
    dsimp only
    rw [if_neg hw, if_neg (by simp [hfl]), if_pos h0]
  refine ⟨h, ?_⟩
  intro elapsed he
  rw [h, he]
  simp

/-- C15. The deadline of a blocked read is not kept. Two readers blocked with a timeout of
100 ticks on an empty minor are woken up by one write after 10 ticks (`wait_event_timeout`
returns the residual 90): the first takes the message, the second finds no available reading
and goes back to sleep without failing, but with the timeout `100 - 90 = 10`, the elapsed
ticks, not the remaining `100 - 10 = 90`. Nor is the total wait bounded by the timeout of the
session: woken up with residuals 50, 1 and 1 a reader waits 50, 49 and 48 ticks and sleeps
again. -/
theorem blocked_read_next_timeout :
    ∃ st es,
      run (install_driver 64 1280)
        [op.do_open 3, op.do_ioctl ⟨3, 1⟩ SET_RECV_TIMEOUT 100, op.do_read ⟨3, 1⟩ 1 1 [],
         op.do_open 3, op.do_ioctl ⟨3, 3⟩ SET_RECV_TIMEOUT 100, op.do_read ⟨3, 3⟩ 1 1 [],
         op.do_write ⟨3, 1⟩ [65] 1, op.do_wake ⟨3, 1⟩ 2 100 90 1 1 []] = some (st, es) ∧
      es = [trace_event.quiet, trace_event.quiet, trace_event.quiet, trace_event.quiet,
            trace_event.quiet, trace_event.quiet,
            trace_event.posted 3 ⟨5, false, 1, [65]⟩,
            trace_event.detached 3 ⟨5, false, 1, [65]⟩] ∧
      current_session st ⟨3, 3⟩ = some ⟨3, [], 0, 100⟩ ∧
      (st.minors 3).pending_readings = [⟨4, false⟩] ∧
      (st.minors 3).available_readings = 0 ∧
      dev_read_wake st ⟨3, 3⟩ 4 100 90 1 1 [] = some (read_outcome.sleeping 4 10, st) ∧
      read_outcome.sleeping 4 10 ≠ read_outcome.sleeping 4 (100 - (100 - 90)) ∧
      dev_read_wake st ⟨3, 3⟩ 4 100 50 1 1 [] = some (read_outcome.sleeping 4 50, st) ∧
      dev_read_wake st ⟨3, 3⟩ 4 50 1 1 1 [] = some (read_outcome.sleeping 4 49, st) ∧
      dev_read_wake st ⟨3, 3⟩ 4 49 1 1 1 [] = some (read_outcome.sleeping 4 48, st) ∧
      (100 : Int) < (100 - 50) + (50 - 1) + (49 - 1) :=
  ⟨_, _, rfl, rfl, rfl, rfl, rfl, rfl, by decide, rfl, rfl, rfl, by decide⟩

end TimedMessaging
